import Mathlib

/-! 1brc: a shallow embedding of the aggregation engine.

The buffer is a list of bytes (`Nat` values 0..255).  A cursor
(`std::span<const char>::iterator &`, `const char *&`) is modelled by the
bytes that remain in front of it, so "the cursor after the call" is the
returned remainder.  Undefined behaviour of the C++ source (reading past
the end of the buffer, indexing outside an array) and non-termination are
explicit `Fault`s.

Machine integers are `Int`/`Nat` with explicit wrap-around: `wrap16` is the
conversion to `int16_t`, `wrap64` the conversion to `int64_t`, and
`% 65536` the conversion to `uint16_t`.  `char` is signed, as on the
x86-64 Linux target of the repository (`charVal`).
-/

namespace OneBRC

/-! ## Bytes, machine integers, faults -/

/-- The bytes of a string literal. -/
def bytes (s : String) : List Nat := s.toList.map Char.toNat

/-- Why a run of the C++ code has no result. -/
inductive Fault where
  /-- a read at or beyond the end of the buffer -/
  | pastEnd
  /-- an array indexed outside its bounds -/
  | outOfBounds
  /-- a loop that never exits -/
  | diverges
  /-- an integer division by zero -/
  | divByZero
  /-- a range formed from a null pointer -/
  | nullPointer
deriving DecidableEq, Repr

deriving instance DecidableEq for Except

/-- Conversion of an `int` to `int16_t` (two's complement wrap-around). -/
def wrap16 (x : Int) : Int := (x + 32768) % 65536 - 32768

/-- Conversion to `int64_t` (two's complement wrap-around). -/
def wrap64 (x : Int) : Int := (x + 9223372036854775808) % 18446744073709551616 - 9223372036854775808

/-- The value of a buffer byte read through a (signed) `char`. -/
def charVal (b : Nat) : Int := if b < 128 then (b : Int) else (b : Int) - 256

/-- The range of `int16_t`. -/
def isInt16 (x : Int) : Prop := -32768 ≤ x ∧ x ≤ 32767

instance (x : Int) : Decidable (isInt16 x) := by unfold isInt16; infer_instance

/-! ## Numeric parsers -/

/-- `int_parse_table()` (07_better_parsing.cpp:152, bench_parse_int.cpp:21):
entry `c` of the 256-entry table, as the pair `(data[c][0], data[c][1])`. -/
def int_parse_table (c : Nat) : Int × Int :=
  if 48 ≤ c ∧ c ≤ 57 then ((c : Int) - 48, 10) else (0, 1)

/-- The `while (*iter != '\n')` loop of `parse_int_table`, followed by the
`++iter` that steps over the newline.  `params[*iter]` indexes the table
with a `char`: a byte of 128 or more is a negative index. -/
def parse_int_table_loop : Int → List Nat → Except Fault (Int × List Nat)
  | _, [] => .error .pastEnd
  | result, c :: rest =>
    if c = 10 then .ok (result, rest)
    else if 128 ≤ c then .error .outOfBounds
    else
      parse_int_table_loop
        (wrap16 (wrap16 (result * (int_parse_table c).2) + (int_parse_table c).1)) rest

/-- `parse_int_table` (07_better_parsing.cpp:168). -/
def parse_int_table (iter : List Nat) : Except Fault (Int × List Nat) :=
  match iter with
  | [] => .error .pastEnd
  | sign :: _ =>
    match parse_int_table_loop 0 iter with
    | .error e => .error e
    | .ok (result, rest) =>
      if sign = 45 then .ok (wrap16 (result * -1), rest) else .ok (result, rest)

/-- The `while (*iter != '\n')` loop of `parse_value`, followed by the
`++iter` that steps over the newline. -/
def parse_value_loop : Int → List Nat → Except Fault (Int × List Nat)
  | _, [] => .error .pastEnd
  | result, c :: rest =>
    if c = 10 then .ok (result, rest)
    else if c ≠ 46 then
      parse_value_loop (wrap16 (wrap16 (result * 10) + (charVal c - 48))) rest
    else parse_value_loop result rest

/-- `parse_value` (05_fixed_point.cpp:128, 06_custom_hash.cpp). -/
def parse_value (iter : List Nat) : Except Fault (Int × List Nat) :=
  match iter with
  | [] => .error .pastEnd
  | c :: rest0 =>
    match parse_value_loop 0 (if c = 45 then rest0 else iter) with
    | .error e => .error e
    | .ok (result, rest) =>
      if c = 45 then .ok (wrap16 (result * -1), rest) else .ok (result, rest)

namespace Bench

/-- The `while (*it != '\n')` loop of `parse_int_base`, followed by the
`++it` that steps over the newline. -/
def parse_int_base_loop : Int → List Nat → Except Fault (Int × List Nat)
  | _, [] => .error .pastEnd
  | value, c :: rest =>
    if c = 10 then .ok (value, rest)
    else if c ≠ 46 then
      parse_int_base_loop (wrap16 (wrap16 (value * 10) + (charVal c - 48))) rest
    else parse_int_base_loop value rest

/-- `parse_int_base` (bench_parse_int.cpp:5).  The cursor is not moved over
a leading `-` before the loop starts. -/
def parse_int_base (it : List Nat) : Except Fault (Int × List Nat) :=
  match it with
  | [] => .error .pastEnd
  | c :: _ =>
    match parse_int_base_loop 0 it with
    | .error e => .error e
    | .ok (value, rest) =>
      if c = 45 then .ok (wrap16 (-value), rest) else .ok (value, rest)

/-- The `while (*iter != '\n')` loop of the benchmark's `parse_int_table`. -/
def parse_int_table_loop : Int → List Nat → Except Fault (Int × List Nat)
  | _, [] => .error .pastEnd
  | result, c :: rest =>
    if c = 10 then .ok (result, rest)
    else if 128 ≤ c then .error .outOfBounds
    else
      parse_int_table_loop
        (wrap16 (wrap16 (result * (int_parse_table c).2) + (int_parse_table c).1)) rest

/-- `parse_int_table` (bench_parse_int.cpp:37). -/
def parse_int_table (iter : List Nat) : Except Fault (Int × List Nat) :=
  match iter with
  | [] => .error .pastEnd
  | sign :: _ =>
    match parse_int_table_loop 0 iter with
    | .error e => .error e
    | .ok (result, rest) =>
      if sign = 45 then .ok (wrap16 (result * -1), rest) else .ok (result, rest)

end Bench

/-! ## Value tokens (the input grammar `-?\d+(\.\d)?`) -/

/-- An ASCII decimal digit. -/
def isDigit (c : Nat) : Prop := 48 ≤ c ∧ c ≤ 57

instance (c : Nat) : Decidable (isDigit c) := by unfold isDigit; infer_instance

/-- A value token split into its parts: whether it starts with `-`, the
bytes of the integer part, and the byte of the fractional digit when the
token has one. -/
structure ValueToken where
  neg : Bool
  ipart : List Nat
  frac : Option Nat
deriving DecidableEq, Repr

namespace ValueToken

/-- The token matches `-?\d+(\.\d)?`. -/
def Valid (t : ValueToken) : Prop :=
  t.ipart ≠ [] ∧ (∀ c ∈ t.ipart, isDigit c) ∧ (∀ f ∈ t.frac, isDigit f)

instance (t : ValueToken) : Decidable t.Valid := by unfold Valid; infer_instance

/-- The bytes of the optional fractional part: `.` and one digit. -/
def fracBytes : Option Nat → List Nat
  | some f => [46, f]
  | none => []

/-- The bytes of the token, without the terminating newline. -/
def toBytes (t : ValueToken) : List Nat :=
  (if t.neg then [45] else []) ++ t.ipart ++ fracBytes t.frac

/-- The number a run of digit bytes denotes in base ten. -/
def digitsVal (ds : List Nat) : Int :=
  ds.foldl (fun acc c => 10 * acc + ((c : Int) - 48)) 0

/-- The sign of the token. -/
def sign (t : ValueToken) : Int := if t.neg then -1 else 1

/-- The value of the token multiplied by ten:
sign × (10 × integer part + fractional digit). -/
def scaled (t : ValueToken) : Int :=
  t.sign * (10 * digitsVal t.ipart +
    (match t.frac with
     | some f => (f : Int) - 48
     | none => 0))

/-- The number the digits of the token denote when the `.` is skipped:
the scaled value when a fractional digit is present, the plain integer
value when it is absent. -/
def digitsRead (t : ValueToken) : Int :=
  t.sign *
    (match t.frac with
     | some f => 10 * digitsVal t.ipart + ((f : Int) - 48)
     | none => digitsVal t.ipart)

end ValueToken

/-! ## The aggregation table -/

/-- `struct Measurement`: the key bytes, their 16-bit hash, the scaled value. -/
structure Measurement where
  name : List Nat
  hash : Nat
  value : Int
deriving DecidableEq, Repr

/-- `struct Record`: the running statistics of one key. -/
structure Record where
  cnt : Int
  sum : Int
  min : Int
  max : Int
deriving DecidableEq, Repr

/-- `struct DB`.  The arrays `keys_` and `values_` are functions of the
index; their length is the capacity `cap` passed to every operation
(65536 in 07_better_parsing.cpp, 65535 in 06_custom_hash.cpp and
09_dynamic_chunks.cpp), and an access at an index `cap ≤ i` is the fault
`outOfBounds`.  An empty `std::string` is the empty list. -/
structure DB where
  keys_ : Nat → List Nat
  values_ : Nat → Record
  filled_ : List Nat

/-- Assignment to one array element. -/
def setAt {α : Type} (arr : Nat → α) (i : Nat) (v : α) : Nat → α :=
  fun j => if j = i then v else arr j

/-- `DB()`: every key empty, every record zero, `filled_` empty. -/
def DB.empty : DB :=
  { keys_ := fun _ => [], values_ := fun _ => ⟨0, 0, 0, 0⟩, filled_ := [] }

/-- The probe loop of `DB::lookup_slot`, at most `fuel` iterations from
`slot`.  `++slot` on a `uint16_t` wraps at 65536. -/
def lookup_slot_loop (cap : Nat) (keys_ : Nat → List Nat) (name : List Nat) :
    Nat → Nat → Except Fault Nat
  | 0, _ => .error .diverges
  | fuel + 1, slot =>
    if cap ≤ slot then .error .outOfBounds
    else if keys_ slot = [] then .ok slot
    else if keys_ slot = name then .ok slot
    else lookup_slot_loop cap keys_ name fuel ((slot + 1) % 65536)

/-- `DB::lookup_slot` (07_better_parsing.cpp:120).  The loop reads the table
without changing it, so after 65536 iterations without an exit the slot
counter is back at its start and the loop never exits: `diverges`. -/
def lookup_slot (cap : Nat) (db : DB) (record : Measurement) : Except Fault Nat :=
  lookup_slot_loop cap db.keys_ record.name 65536 (record.hash % 65536)

/-- The hit branch of `DB::record`: the exclusive min/max update, then
`sum += value` and `++cnt` on `int64_t`. -/
def Record.update (r : Record) (value : Int) : Record :=
  let r1 : Record :=
    if value < r.min then { r with min := value }
    else if value > r.max then { r with max := value }
    else r
  { r1 with sum := wrap64 (r1.sum + value), cnt := wrap64 (r1.cnt + 1) }

/-- `DB::record` (07_better_parsing.cpp:99). -/
def DB.record (cap : Nat) (db : DB) (record : Measurement) : Except Fault DB :=
  match lookup_slot cap db record with
  | .error e => .error e
  | .ok slot =>
    if cap ≤ slot then .error .outOfBounds
    else if db.keys_ slot = [] then
      .ok { keys_ := setAt db.keys_ slot record.name
            values_ := setAt db.values_ slot ⟨1, record.value, record.value, record.value⟩
            filled_ := db.filled_ ++ [slot] }
    else
      .ok { db with values_ := setAt db.values_ slot ((db.values_ slot).update record.value) }

/-- A sequence of `record` calls on one table. -/
def DB.recordAll (cap : Nat) : DB → List Measurement → Except Fault DB
  | db, [] => .ok db
  | db, m :: ms =>
    match db.record cap m with
    | .error e => .error e
    | .ok db1 => DB.recordAll cap db1 ms

/-- Reading the stats of a key: the record in the slot `lookup_slot` finds. -/
def DB.stats (cap : Nat) (db : DB) (name : List Nat) (hash : Nat) : Except Fault Record :=
  match lookup_slot cap db ⟨name, hash, 0⟩ with
  | .error e => .error e
  | .ok slot => .ok (db.values_ slot)

/-- The capacity of the table of 07_better_parsing.cpp: `UINT16_MAX + 1`. -/
def capacity07 : Nat := 65535 + 1

/-- The capacity of the tables of 06_custom_hash.cpp and
09_dynamic_chunks.cpp: `UINT16_MAX`. -/
def capacity09 : Nat := 65535

/-! ## The record scanner -/

/-- The `while (*iter != ';')` loop of `parse`, followed by the `++iter`
that steps over the `;`: the hash, the key bytes, the remainder.
`result.hash * 7 + *iter` is computed in `int` and stored in a `uint16_t`. -/
def parse_key_loop : Nat → List Nat → List Nat → Except Fault (Nat × List Nat × List Nat)
  | _, _, [] => .error .pastEnd
  | hash, name, c :: rest =>
    if c = 59 then .ok (hash, name, rest)
    else parse_key_loop ((((hash : Int) * 7 + charVal c) % 65536).toNat) (name ++ [c]) rest

/-- `parse` (07_better_parsing.cpp:182, 09_dynamic_chunks.cpp). -/
def parse (iter : List Nat) : Except Fault (Measurement × List Nat) :=
  match parse_key_loop 0 [] iter with
  | .error e => .error e
  | .ok (hash, name, rest) =>
    match parse_int_table rest with
    | .error e => .error e
    | .ok (value, rest1) => .ok (⟨name, hash, value⟩, rest1)

/-- The `while (iter != data.end())` loop of `process_input`, at most
`fuel` iterations. -/
def process_input_loop (cap : Nat) : Nat → DB → List Nat → Except Fault DB
  | _, db, [] => .ok db
  | 0, _, _ :: _ => .error .diverges
  | fuel + 1, db, c :: rest =>
    match parse (c :: rest) with
    | .error e => .error e
    | .ok (record, iter1) =>
      match db.record cap record with
      | .error e => .error e
      | .ok db1 => process_input_loop cap fuel db1 iter1

/-- `process_input` (07_better_parsing.cpp:214).  Every iteration consumes at
least one byte, so `data.length` iterations are enough. -/
def process_input (data : List Nat) : Except Fault DB :=
  process_input_loop capacity07 data.length DB.empty data

/-- The hash `parse` computes for a key. -/
def keyHash (name : List Nat) : Nat :=
  name.foldl (fun h c => (((h : Int) * 7 + charVal c) % 65536).toNat) 0

/-- The stats read for a key after a sequence of `record` calls on an
empty table. -/
def statsAfter (cap : Nat) (ms : List Measurement) (name : List Nat) (hash : Nat) :
    Except Fault Record :=
  match DB.recordAll cap DB.empty ms with
  | .error e => .error e
  | .ok db => db.stats cap name hash

/-- The slot `lookup_slot` returns for `record` after a sequence of `record`
calls on the table `db`. -/
def lookupAfter (cap : Nat) (db : DB) (ms : List Measurement) (record : Measurement) :
    Except Fault Nat :=
  match DB.recordAll cap db ms with
  | .error e => .error e
  | .ok db1 => lookup_slot cap db1 record

/-- The `filled_` list after a sequence of `record` calls on the table `db`. -/
def filledAfter (cap : Nat) (db : DB) (ms : List Measurement) : Except Fault (List Nat) :=
  match DB.recordAll cap db ms with
  | .error e => .error e
  | .ok db1 => .ok db1.filled_

/-- The probe loop stops at a slot: it is empty or stores the key. -/
def stopsAt (keys_ : Nat → List Nat) (name : List Nat) (slot : Nat) : Prop :=
  keys_ slot = [] ∨ keys_ slot = name

instance (keys_ : Nat → List Nat) (name : List Nat) (slot : Nat) :
    Decidable (stopsAt keys_ name slot) := by unfold stopsAt; infer_instance

/-- `process_input` of 09_dynamic_chunks.cpp: the scan loop on a table of
`UINT16_MAX` slots passed in by the worker. -/
def process_input09 (db : DB) (data : List Nat) : Except Fault DB :=
  process_input_loop capacity09 data.length db data

/-! ## The formatter -/

/-- The decimal digits of `n`, most significant first, in front of `acc`;
`fuel` bounds the number of digits. -/
def natDigitsAux : Nat → Nat → List Nat → List Nat
  | 0, _, acc => acc
  | fuel + 1, n, acc =>
    if n < 10 then (48 + n) :: acc
    else natDigitsAux fuel (n / 10) ((48 + n % 10) :: acc)

/-- The decimal digits of a natural number, as bytes. -/
def natDigits (n : Nat) : List Nat := natDigitsAux (n + 1) n []

/-- `out << q / 10.0` under `fixed`, `showpoint` and `setprecision(1)`, for
a scaled integer `q`.  The stream prints the double nearest to q/10 rounded
to one decimal, which is q/10 itself: a `-` when q is negative, the decimal
digits of |q| / 10, a `.`, and the digit |q| mod 10. -/
def fmt1 (q : Int) : List Nat :=
  (if q < 0 then [45] else []) ++ natDigits (q.natAbs / 10) ++ [46, 48 + q.natAbs % 10]

/-- The "correct rounding" of `format_output`: `sum += cnt / 2` when
`sum > 0`, `sum -= cnt / 2` otherwise, then `sum / cnt`, all on `int64_t`
with truncating division. -/
def scaledMean (value : Record) : Int :=
  Int.tdiv
    (if value.sum > 0 then wrap64 (value.sum + Int.tdiv value.cnt 2)
     else wrap64 (value.sum - Int.tdiv value.cnt 2))
    value.cnt

/-- What `format_output` writes for one key. -/
def entryBytes (name : List Nat) (value : Record) : List Nat :=
  name ++ bytes "=" ++ fmt1 value.min ++ bytes "/" ++ fmt1 (scaledMean value) ++
    bytes "/" ++ fmt1 value.max

/-- `DB::sort_slots` (07_better_parsing.cpp:137): `filled_` sorted with the
comparator `keys_[left] < keys_[right]`, the byte-wise lexicographic order
of `std::string`.  `std::ranges::sort` is modelled by an insertion sort that
puts `a` before `b` unless the comparator holds for `(b, a)`. -/
def DB.sort_slots (db : DB) : DB :=
  { db with filled_ := db.filled_.insertionSort (fun a b => ¬ db.keys_ b < db.keys_ a) }

/-- The body of the output loop of `format_output`, over the `(name, value)`
pairs the loop visits; `delim` is the current value of the variable of that
name.  `sum / value.cnt` with a zero count is a fault. -/
def format_loop : List Nat → List (List Nat × Record) → Except Fault (List Nat)
  | _, [] => .ok []
  | delim, (name, value) :: rest =>
    if value.cnt = 0 then .error .divByZero
    else
      match format_loop (bytes ", ") rest with
      | .error e => .error e
      | .ok out => .ok (delim ++ entryBytes name value ++ out)

/-- `format_output` (07_better_parsing.cpp:229): the bytes written to `out`.
The loop `for (auto &k : db.filled_)` visits `keys_[k]`, `values_[k]`. -/
def format_output (db : DB) : Except Fault (List Nat) :=
  match format_loop []
      (db.sort_slots.filled_.map (fun k => (db.sort_slots.keys_ k, db.sort_slots.values_ k))) with
  | .error e => .error e
  | .ok out => .ok (bytes "\x7b" ++ out ++ bytes "\x7d\n")

/-- The merged `std::unordered_map<std::string, Record>` of
09_dynamic_chunks.cpp, as the list of its `(key, value)` pairs. -/
abbrev MergedMap := List (List Nat × Record)

/-- `db[name]`: the value stored under `name`, a value-initialised `Record`
when the key is absent. -/
def MergedMap.valueAt (db : MergedMap) (name : List Nat) : Record :=
  (db.lookup name).getD ⟨0, 0, 0, 0⟩

/-- The sorted `names` of `format_output` (09_dynamic_chunks.cpp:263):
the keys of the map under `std::ranges::sort(names, std::less<>{})`. -/
def MergedMap.names (db : MergedMap) : List (List Nat) :=
  (db.map Prod.fst).insertionSort (fun a b => ¬ b < a)

/-- `format_output` (09_dynamic_chunks.cpp:263): the bytes written to `out`.
The loop `for (auto &name : names)` visits `name`, `db[name]`. -/
def format_output09 (db : MergedMap) : Except Fault (List Nat) :=
  match format_loop [] (db.names.map (fun name => (name, db.valueAt name))) with
  | .error e => .error e
  | .ok out => .ok (bytes "\x7b" ++ out ++ bytes "\x7d\n")

/-- `main` of 07_better_parsing.cpp on the mapped bytes: `process_input`,
then `format_output`. -/
def summarize (data : List Nat) : Except Fault (List Nat) :=
  match process_input data with
  | .error e => .error e
  | .ok db => format_output db

/-! ## Well-formed buffers and the statistics they denote -/

/-- One line of the input: the key bytes and the value token. -/
structure Line where
  key : List Nat
  tok : ValueToken
deriving DecidableEq, Repr

/-- A well-formed line: a non-empty key without `;` and newline, and a value
token with exactly one fractional digit whose scaled value fits `int16_t`. -/
def Line.WellFormed (l : Line) : Prop :=
  l.key ≠ [] ∧ 59 ∉ l.key ∧ 10 ∉ l.key ∧ l.tok.Valid ∧ l.tok.frac.isSome ∧
    isInt16 l.tok.scaled

instance (l : Line) : Decidable l.WellFormed := by unfold Line.WellFormed; infer_instance

/-- The buffer made of the records `key;value\n` of the lines, in order. -/
def encode : List Line → List Nat
  | [] => []
  | l :: ls => l.key ++ 59 :: (l.tok.toBytes ++ 10 :: encode ls)

/-- The keys of the lines, in order of occurrence. -/
def keysOf (ls : List Line) : List (List Nat) := ls.map Line.key

/-- The scaled values of the records with key `k`, in order of occurrence. -/
def valuesOf (k : List Nat) (ls : List Line) : List Int :=
  (ls.filter (fun l => l.key = k)).map (fun l => l.tok.scaled)

/-- The record `r` is the statistics of the values `vs`: their number,
their total, the smallest and the largest of them. -/
def IsStatsOf (r : Record) (vs : List Int) : Prop :=
  r.cnt = vs.length ∧ r.sum = vs.sum ∧
    (r.min ∈ vs ∧ ∀ x ∈ vs, r.min ≤ x) ∧ (r.max ∈ vs ∧ ∀ x ∈ vs, x ≤ r.max)

/-- The table invariant of a scan: every occupied slot is the one
`lookup_slot` finds for its key, holds the statistics of the records of
that key, every key scanned so far has a slot, and `filled_` lists the
occupied slots once each. -/
structure TableInv (db : DB) (ls : List Line) : Prop where
  found : ∀ s, db.keys_ s ≠ [] →
    lookup_slot_loop capacity07 db.keys_ (db.keys_ s) 65536 (keyHash (db.keys_ s) % 65536)
      = .ok s
  stats : ∀ s, db.keys_ s ≠ [] → IsStatsOf (db.values_ s) (valuesOf (db.keys_ s) ls)
  complete : ∀ l ∈ ls, ∃ s, db.keys_ s = l.key
  filled : ∀ s, s ∈ db.filled_ ↔ db.keys_ s ≠ []
  nodup : db.filled_.Nodup

/-- The smallest element of a list of values. -/
def minOf : List Int → Int
  | [] => 0
  | x :: xs => xs.foldl min x

/-- The largest element of a list of values. -/
def maxOf : List Int → Int
  | [] => 0
  | x :: xs => xs.foldl max x

/-- The statistics of a list of values: count, total, smallest, largest. -/
def statsOf (vs : List Int) : Record := ⟨vs.length, vs.sum, minOf vs, maxOf vs⟩

/-- The distinct keys of the buffer in ascending byte-wise order. -/
def sortedKeys (ls : List Line) : List (List Nat) :=
  (keysOf ls).dedup.insertionSort (fun a b => a ≤ b)

/-- The entry `key=min/mean/max` of a key of the buffer. -/
def entryOf (ls : List Line) (k : List Nat) : List Nat :=
  k ++ bytes "=" ++ fmt1 (minOf (valuesOf k ls)) ++ bytes "/" ++
    fmt1 (scaledMean (statsOf (valuesOf k ls))) ++ bytes "/" ++ fmt1 (maxOf (valuesOf k ls))

/-- The numbers `parse_int_table` reads from the value tokens of the records
with key `k`, in order of occurrence: the scaled value of a token with a
fractional digit, the plain integer value of a token without one. -/
def readOf (k : List Nat) (ls : List Line) : List Int :=
  (ls.filter (fun l => l.key = k)).map (fun l => l.tok.digitsRead)

/-- The entry `key=min/mean/max` of a key of the buffer, from the numbers
read for it. -/
def entryOfRead (ls : List Line) (k : List Nat) : List Nat :=
  k ++ bytes "=" ++ fmt1 (minOf (readOf k ls)) ++ bytes "/" ++
    fmt1 (scaledMean (statsOf (readOf k ls))) ++ bytes "/" ++ fmt1 (maxOf (readOf k ls))

/-- The stats read for a key after `process_input` of a buffer. -/
def scanStats (data : List Nat) (name : List Nat) : Except Fault Record :=
  match process_input data with
  | .error e => .error e
  | .ok db => db.stats capacity07 name (keyHash name)

/-! ## The chunk allocator -/

/-- A `std::span<const char>` into the mapped buffer: the positions of its
first and one-past-last byte relative to `begin_`; `none` is the
default-constructed span `{}`. -/
abbrev Span := Option (Nat × Nat)

/-- `span::empty()`: the size, `last - first`, is zero. -/
def Span.isEmpty : Span → Bool
  | none => true
  | some (first, last) => decide (first = last)

/-- `chunk_sz` of `MappedFile::next_chunk`: 64MB. -/
def chunk_sz : Nat := 64 * 1024 * 1024

/-- The loop `while (end != begin_ + sz_ && *end != '\n') ++end;` of
`next_chunk`: `tail` holds the bytes from position `e` to the end of the
buffer, and the result is the final value of `end`. -/
def scan_newline : List Nat → Nat → Nat
  | [], e => e
  | c :: tail, e => if c = 10 then e else scan_newline tail (e + 1)

/-- `MappedFile::next_chunk` (09_dynamic_chunks.cpp:76) for a target chunk
size, on the buffer `data` with `chunk_begin_` at position `chunk_begin`:
the span returned and the new value of `chunk_begin_`. -/
def next_chunk (target : Nat) (data : List Nat) (chunk_begin : Nat) : Span × Nat :=
  if chunk_begin = data.length then (none, chunk_begin)
  else if chunk_begin + target > data.length then
    (some (chunk_begin, data.length), data.length)
  else
    (some (chunk_begin,
        scan_newline (data.drop (chunk_begin + target)) (chunk_begin + target) + 1),
      scan_newline (data.drop (chunk_begin + target)) (chunk_begin + target) + 1)

/-- The value of `chunk_begin_` after `n` calls of `next_chunk`. -/
def cursor_after (target : Nat) (data : List Nat) : Nat → Nat → Nat
  | 0, chunk_begin => chunk_begin
  | n + 1, chunk_begin => cursor_after target data n (next_chunk target data chunk_begin).2

/-- The spans a worker loop `chunk = next_chunk(); while (not chunk.empty())`
receives from successive calls, up to the first empty one (at most `fuel`
calls). -/
def chunk_spans (target : Nat) (data : List Nat) : Nat → Nat → List (Nat × Nat)
  | 0, _ => []
  | fuel + 1, chunk_begin =>
    match next_chunk target data chunk_begin with
    | (none, _) => []
    | (some span, chunk_begin1) =>
      if span.1 = span.2 then [] else span :: chunk_spans target data fuel chunk_begin1

/-- The bytes of a span; a span that is not a range inside the buffer has
no bytes to read. -/
def span_bytes (data : List Nat) (span : Nat × Nat) : Except Fault (List Nat) :=
  if span.1 ≤ span.2 ∧ span.2 ≤ data.length then
    .ok ((data.drop span.1).take (span.2 - span.1))
  else .error .pastEnd

/-- A span lies inside the buffer and ends at the buffer end or just after
a newline. -/
def SpanOnBoundary (data : List Nat) (span : Nat × Nat) : Prop :=
  span.1 ≤ span.2 ∧ span.2 ≤ data.length ∧
    (span.2 = data.length ∨ (0 < span.2 ∧ data[span.2 - 1]? = some 10))

instance (data : List Nat) (span : Nat × Nat) : Decidable (SpanOnBoundary data span) := by
  unfold SpanOnBoundary; infer_instance

/-! ## The merger -/

/-- The range of `int64_t`. -/
def isInt64 (x : Int) : Prop := -9223372036854775808 ≤ x ∧ x ≤ 9223372036854775807

instance (x : Int) : Decidable (isInt64 x) := by unfold isInt64; infer_instance

/-- The `(keys_[idx], values_[idx])` pairs the merge loop reads from one
worker table, in the order of `filled_`. -/
def DB.entries (db : DB) : List (List Nat × Record) :=
  db.filled_.map (fun idx => (db.keys_ idx, db.values_ idx))

/-- The `else` branch of the merge loop: `cnt` and `sum` are added on
`int64_t`, `max` and `min` are taken with `std::max` and `std::min`. -/
def Record.merge (r value : Record) : Record :=
  ⟨wrap64 (r.cnt + value.cnt), wrap64 (r.sum + value.sum), Min.min r.min value.min,
    Max.max r.max value.max⟩

/-- Assignment through the iterator `it` that `merged.find(key)` returned. -/
def MergedMap.assign (db : MergedMap) (key : List Nat) (value : Record) : MergedMap :=
  db.map (fun e => if e.1 = key then (key, value) else e)

/-- The body of the inner merge loop of `process_parallel`
(09_dynamic_chunks.cpp:245): `merged.find`, then `insert_or_assign` for a
new key or the update of the stored record. -/
def merge_entry (merged : MergedMap) (e : List Nat × Record) : MergedMap :=
  match merged.lookup e.1 with
  | none => merged ++ [(e.1, e.2)]
  | some r => merged.assign e.1 (r.merge e.2)

/-- The merge loops of `process_parallel` (09_dynamic_chunks.cpp:242):
`for (auto &db_chunk : dbs) for (auto idx : db_chunk.filled_)`. -/
def merge_tables (dbs : List DB) : MergedMap :=
  dbs.foldl (fun merged db_chunk => db_chunk.entries.foldl merge_entry merged) []

/-- The record a worker table holds for a key, when it holds the key. -/
def DB.held (db : DB) (key : List Nat) : Option Record := db.entries.lookup key

/-- The records the tables that hold a key store for it. -/
def heldBy (dbs : List DB) (key : List Nat) : List Record :=
  dbs.filterMap (fun db => db.held key)

/-- A worker table stores every key in at most one filled slot, and its
counts and sums are `int64_t` values. -/
def WorkerTable (db : DB) : Prop :=
  (db.filled_.map db.keys_).Nodup ∧
    ∀ idx ∈ db.filled_, isInt64 (db.values_ idx).cnt ∧ isInt64 (db.values_ idx).sum

instance (db : DB) : Decidable (WorkerTable db) := by unfold WorkerTable; infer_instance

/-! ## The parallel driver -/

/-- The worker loops of `process_parallel` (09_dynamic_chunks.cpp:232) under
a schedule: each worker runs `chunk = file.next_chunk(); while (not
chunk.empty()) process_input(dbs[idx], chunk)` on its own table, and the
calls of `next_chunk` are serialised by the mutex, so a run is the sequence
of these calls; the head of `schedule` names the worker that makes the next
call (worker 0 when the schedule is used up).  After the first empty span
the cursor is at the buffer end and every worker leaves its loop. -/
def run_workers (target : Nat) (data : List Nat) (chunks : Nat) :
    Nat → Nat → List Nat → List DB → Except Fault (List DB)
  | 0, _, _, _ => .error .diverges
  | fuel + 1, chunk_begin, schedule, dbs =>
    match next_chunk target data chunk_begin with
    | (none, _) => .ok dbs
    | (some span, chunk_begin1) =>
      if span.1 = span.2 then .ok dbs
      else
        match span_bytes data span with
        | .error e => .error e
        | .ok chunk =>
          match process_input09 (dbs.getD (schedule.headD 0 % chunks) DB.empty) chunk with
          | .error e => .error e
          | .ok db =>
            run_workers target data chunks fuel chunk_begin1 schedule.tail
              (dbs.set (schedule.headD 0 % chunks) db)

/-- `process_parallel` (09_dynamic_chunks.cpp:226) for a target chunk size
and a schedule of the workers: `chunks` worker tables, the worker loops,
then the merge.  Every non-empty span but at most one moves the cursor
forward, so `data.length + 2` calls of `next_chunk` are enough. -/
def process_parallel (target : Nat) (data : List Nat) (chunks : Nat) (schedule : List Nat) :
    Except Fault MergedMap :=
  if chunks = 0 then .ok []
  else
    match run_workers target data chunks (data.length + 2) 0 schedule
        (List.replicate chunks DB.empty) with
    | .error e => .error e
    | .ok dbs => .ok (merge_tables dbs)

/-- The hash field of the `Measurement` that `parse` returns. -/
def parse_hash (iter : List Nat) : Except Fault Nat :=
  match parse iter with
  | .error e => .error e
  | .ok (record, _) => .ok record.hash

/-! ## The table of 05_fixed_point.cpp -/

/-- The `DB` of 05_fixed_point.cpp, a `std::unordered_map<std::string,
Record, ...>`, as the list of its `(key, value)` pairs. -/
abbrev DB05 := List (List Nat × Record)

/-- `DB::record` of 05_fixed_point.cpp (line 103): `find`, then `emplace` of
`Record{1, value, value, value}` for a new station, or the exclusive min/max
branches, `sum += value` and `++cnt` on the stored record. -/
def record05 (db : DB05) (station : List Nat) (value : Int) : DB05 :=
  match db.lookup station with
  | none => db ++ [(station, ⟨1, value, value, value⟩)]
  | some r => MergedMap.assign db station (r.update value)

/-- The search `std::ranges::find(iter, std::unreachable_sentinel, ';')` of
`parse_station`, followed by `iter = end + 1`: the bytes before the `;` and
the remainder after it.  The search has no end test. -/
def parse_station_loop : List Nat → List Nat → Except Fault (List Nat × List Nat)
  | _, [] => .error .pastEnd
  | name, c :: rest =>
    if c = 59 then .ok (name, rest) else parse_station_loop (name ++ [c]) rest

/-- `parse_station` (05_fixed_point.cpp:121). -/
def parse_station (iter : List Nat) : Except Fault (List Nat × List Nat) :=
  parse_station_loop [] iter

/-- The `while (iter != data.end())` loop of `process_input` of
05_fixed_point.cpp, at most `fuel` iterations. -/
def process_input05_loop : Nat → DB05 → List Nat → Except Fault DB05
  | _, db, [] => .ok db
  | 0, _, _ :: _ => .error .diverges
  | fuel + 1, db, c :: rest =>
    match parse_station (c :: rest) with
    | .error e => .error e
    | .ok (station, iter1) =>
      match parse_value iter1 with
      | .error e => .error e
      | .ok (value, iter2) => process_input05_loop fuel (record05 db station value) iter2

/-- `process_input` (05_fixed_point.cpp:146). -/
def process_input05 (data : List Nat) : Except Fault DB05 :=
  process_input05_loop data.length [] data

/-! ## The scan with another hash function -/

/-- The search `strchr(begin, ';')` of `parse_v2`, followed by
`iter += end - begin + 1`.  `strchr` stops at a NUL byte and returns a null
pointer, from which no key and no cursor can be formed; it has no end test. -/
def strchr_loop : List Nat → List Nat → Except Fault (List Nat × List Nat)
  | _, [] => .error .pastEnd
  | name, c :: rest =>
    if c = 59 then .ok (name, rest)
    else if c = 0 then .error .nullPointer
    else strchr_loop (name ++ [c]) rest

/-- `parse_v2` (07_better_parsing.cpp:200).  `hashfn` is
`std::hash<std::string_view>`, a function of the key bytes that the
standard library fixes; its `size_t` result is stored in a `uint16_t`. -/
def parse_v2 (hashfn : List Nat → Nat) (iter : List Nat) :
    Except Fault (Measurement × List Nat) :=
  match strchr_loop [] iter with
  | .error e => .error e
  | .ok (name, rest) =>
    match parse_int_table rest with
    | .error e => .error e
    | .ok (value, rest1) => .ok (⟨name, hashfn name % 65536, value⟩, rest1)

/-- `parse` with the hash of the record replaced by `hashfn` of its key,
stored in a `uint16_t`. -/
def parse_hashed (hashfn : List Nat → Nat) (iter : List Nat) :
    Except Fault (Measurement × List Nat) :=
  match parse iter with
  | .error e => .error e
  | .ok (record, rest) => .ok (⟨record.name, hashfn record.name % 65536, record.value⟩, rest)

/-- The loop of `process_input` (07_better_parsing.cpp:219) with the call of
`parse` replaced by a call of `parser`, at most `fuel` iterations. -/
def process_input_loop_by (parser : List Nat → Except Fault (Measurement × List Nat))
    (cap : Nat) : Nat → DB → List Nat → Except Fault DB
  | _, db, [] => .ok db
  | 0, _, _ :: _ => .error .diverges
  | fuel + 1, db, c :: rest =>
    match parser (c :: rest) with
    | .error e => .error e
    | .ok (record, iter1) =>
      match db.record cap record with
      | .error e => .error e
      | .ok db1 => process_input_loop_by parser cap fuel db1 iter1

/-- `process_input` of 07_better_parsing.cpp scanning with `parse_hashed`. -/
def process_input_hashed (hashfn : List Nat → Nat) (data : List Nat) : Except Fault DB :=
  process_input_loop_by (parse_hashed hashfn) capacity07 data.length DB.empty data

/-- `process_input` of 07_better_parsing.cpp scanning with `parse_v2`. -/
def process_input_v2 (hashfn : List Nat → Nat) (data : List Nat) : Except Fault DB :=
  process_input_loop_by (parse_v2 hashfn) capacity07 data.length DB.empty data

/-! ## Concurrent calls of the chunk allocator -/

/-- Calls of `next_chunk` from several threads.  The whole body of
`next_chunk` runs under the `std::lock_guard` on `mux_`, so the calls take
effect one after the other; `schedule` lists the threads in the order in
which their calls take the lock.  The result pairs each call's thread with
the span the call returns. -/
def next_chunk_calls (target : Nat) (data : List Nat) : List Nat → Nat → List (Nat × Span)
  | [], _ => []
  | thread :: schedule, chunk_begin =>
    (thread, (next_chunk target data chunk_begin).1) ::
      next_chunk_calls target data schedule (next_chunk target data chunk_begin).2

/-- The number of returned spans that hold the byte position `p`. -/
def spans_holding (spans : List Span) (p : Nat) : Nat :=
  (spans.filter (fun s => match s with
    | none => false
    | some (first, last) => decide (first ≤ p ∧ p < last))).length

/-! ## Reference functions of the specification -/

/-- Rounding to the nearest integer, ties away from zero. -/
def roundHalfAway (q : ℚ) : Int :=
  if 0 ≤ q then ⌊q + 1 / 2⌋ else -⌊-q + 1 / 2⌋

/-- The rolling hash in the words of the specification: from 0, each key
byte `b`, taken as its value 0..255, replaces `h` by `(h * 7 + b) mod 2^16`. -/
def rollingHashUnsigned (key : List Nat) : Nat :=
  key.foldl (fun h b => (h * 7 + b) % 65536) 0

/-- The rolling hash with each key byte taken as the value of a signed
`char`: `b` below 128, `b - 256` from 128 on, which modulo 2^16 is
`b + 65280`. -/
def rollingHashSigned (key : List Nat) : Nat :=
  key.foldl (fun h b => (h * 7 + (if b < 128 then b else b + 65280)) % 65536) 0

/-- The update of a stored record in the words of the specification:
`sum += value`, `count += 1`, `min = min(min, value)` and
`max = max(max, value)`, the two last ones independent of each other (the
form `DB::record` of 04_refactor.cpp has, lines 113-116). -/
def Record.update_independent (r : Record) (value : Int) : Record :=
  ⟨wrap64 (r.cnt + 1), wrap64 (r.sum + value), Min.min r.min value, Max.max r.max value⟩

/-! ## Auxiliary functions of the proofs -/

/-- The `int16_t` accumulator after a run of digit bytes:
`result = result * 10 + digit`, truncated to 16 bits at every step. -/
def accW (r : Int) (ds : List Nat) : Int :=
  ds.foldl (fun a c => wrap16 (wrap16 (a * 10) + ((c : Int) - 48))) r

/-- The exact (unbounded) accumulation over a run of digit bytes. -/
def accZ (r : Int) (ds : List Nat) : Int :=
  ds.foldl (fun acc c => 10 * acc + ((c : Int) - 48)) r

/-- The accumulator after the optional fractional part. -/
def fracStep (a : Int) : Option Nat → Int
  | some f => wrap16 (wrap16 (a * 10) + ((f : Int) - 48))
  | none => a

/-- What both parsers compute on a token, in 16-bit arithmetic. -/
def tokenResult (t : ValueToken) : Int :=
  if t.neg then wrap16 (fracStep (accW 0 t.ipart) t.frac * -1)
  else fracStep (accW 0 t.ipart) t.frac

/-- One step of the merge as seen from one key: the first record of the
key is stored, every further one is merged into the stored record. -/
def mergeOpt : Option Record → Record → Option Record
  | none, value => some value
  | some r, value => some (r.merge value)

/-- The records a list of entries holds for a key, in order. -/
def recordsOf (es : List (List Nat × Record)) (key : List Nat) : List Record :=
  (es.filter (fun e => e.1 = key)).map Prod.snd

/-- The values recorded for a key by a sequence of `record` calls, in
order. -/
def valsOf (k : List Nat) (ms : List Measurement) : List Int :=
  (ms.filter (fun m => m.name = k)).map Measurement.value

/-- The record `record` keeps for a key after the values `vs`: none before
the first value, `Record{1, v, v, v}` at the first, the hit branch at every
further one. -/
def recOpt : List Int → Option Record
  | [] => none
  | v :: vs => some (vs.foldl Record.update ⟨1, v, v, v⟩)

/-- One `record` call as seen from its key: the miss branch stores
`Record{1, v, v, v}`, the hit branch updates the stored record. -/
def recStep : Option Record → Int → Option Record
  | none, v => some ⟨1, v, v, v⟩
  | some r, v => some (r.update v)

/-- The keys of a sequence of `record` calls. -/
def namesOf (ms : List Measurement) : List (List Nat) := ms.map Measurement.name

/-- The table invariant of a sequence of `record` calls whose hashes are
given by `hash`: every occupied slot is the one `lookup_slot` finds for its
key, holds the record of the values of its key, every key recorded has a
slot, and `filled_` lists the occupied slots once each. -/
structure HashInv (hash : List Nat → Nat) (db : DB) (ms : List Measurement) : Prop where
  found : ∀ s, db.keys_ s ≠ [] →
    lookup_slot_loop capacity07 db.keys_ (db.keys_ s) 65536 (hash (db.keys_ s) % 65536) = .ok s
  vals : ∀ s, db.keys_ s ≠ [] → recOpt (valsOf (db.keys_ s) ms) = some (db.values_ s)
  complete : ∀ m ∈ ms, m.name ≠ [] → ∃ s, db.keys_ s = m.name
  filled : ∀ s, s ∈ db.filled_ ↔ db.keys_ s ≠ []
  nodup : db.filled_.Nodup

/-- The record the scanner hands to `record` for a line, with the hash
function `hash`. -/
def Line.measurement (hash : List Nat → Nat) (l : Line) : Measurement :=
  ⟨l.key, hash l.key, tokenResult l.tok⟩

/-- The four-letter key number `i`: the base-16 digits of `i`, written with
the letters from `a` on. -/
def key4 (i : Nat) : List Nat :=
  [97 + i / 4096, 97 + i / 256 % 16, 97 + i / 16 % 16, 97 + i % 16]

/-- A table whose 65536 slots hold the keys `key4 0` .. `key4 65535`. -/
def fullTable : DB :=
  { keys_ := key4, values_ := fun _ => ⟨1, 10, 10, 10⟩, filled_ := List.range 65536 }

/-- The lines `key4 i;1.0` for `i` below `n`. -/
def key4Lines (n : Nat) : List Line :=
  (List.range n).map (fun i => ⟨key4 i, ⟨false, [49], some 48⟩⟩)

/-- The records `(key4 i, hash of key4 i, 10)` for `i` below `n`. -/
def key4Records (n : Nat) : List Measurement :=
  (List.range n).map (fun i => ⟨key4 i, keyHash (key4 i), 10⟩)

/-- The token with one fractional digit whose scaled value is `q`: the text
`fmt1` writes for `q`. -/
def tokenOf (q : Int) : ValueToken :=
  ⟨decide (q < 0), natDigits (q.natAbs / 10), some (48 + q.natAbs % 10)⟩

/-- The line with the same key whose token has a fractional digit and, as
its scaled value, the number read from the token of `l`. -/
def Line.normalize (l : Line) : Line := ⟨l.key, tokenOf l.tok.digitsRead⟩

/-- The slot indices of the table of 07_better_parsing.cpp: 0 .. 65535. -/
@[irreducible] def allSlots : List Nat := List.range 65536

/-- The table with `filled_` replaced by the list of its occupied slots. -/
def DB.occupied (db : DB) : DB :=
  { db with filled_ := allSlots.filter (fun s => decide (db.keys_ s ≠ [])) }

/-- The records of a sequence of `record` calls whose key is not empty. -/
def keyed (ms : List Measurement) : List Measurement :=
  ms.filter (fun m => decide (m.name ≠ []))

/-! ## Lemmas on the numeric parsers -/

theorem wrap16_isInt16 (x : Int) : isInt16 (wrap16 x) := by
  unfold isInt16 wrap16; omega

theorem wrap16_of_isInt16 {x : Int} (h : isInt16 x) : wrap16 x = x := by
  unfold isInt16 at h; unfold wrap16; omega

theorem accW_isInt16 {r : Int} (hr : isInt16 r) (ds : List Nat) : isInt16 (accW r ds) := by
  induction ds generalizing r with
  | nil => simpa [accW] using hr
  | cons c ds ih =>
    have := @ih (wrap16 (wrap16 (r * 10) + ((c : Int) - 48))) (wrap16_isInt16 _)
    simpa [accW] using this

theorem accW_congr (ds : List Nat) :
    ∀ r z : Int, wrap16 r = wrap16 z → wrap16 (accW r ds) = wrap16 (accZ z ds) := by
  induction ds with
  | nil => intro r z h; simpa [accW, accZ] using h
  | cons c ds ih =>
    intro r z h
    have hstep : wrap16 (wrap16 (wrap16 (r * 10) + ((c : Int) - 48)))
        = wrap16 (10 * z + ((c : Int) - 48)) := by
      unfold wrap16 at h ⊢; omega
    have := ih _ _ hstep
    simpa [accW, accZ] using this

theorem accW_zero_eq (ds : List Nat) : accW 0 ds = wrap16 (ValueToken.digitsVal ds) := by
  have h := accW_congr ds 0 0 rfl
  rw [wrap16_of_isInt16 (accW_isInt16 (by decide) ds)] at h
  simpa [ValueToken.digitsVal, accZ] using h

theorem isDigit_ne_newline {c : Nat} (h : isDigit c) : c ≠ 10 := by
  unfold isDigit at h; omega

theorem parse_int_table_loop_digits (ds : List Nat) (hds : ∀ c ∈ ds, isDigit c) :
    ∀ (r : Int) (tl : List Nat),
      parse_int_table_loop r (ds ++ tl) = parse_int_table_loop (accW r ds) tl := by
  induction ds with
  | nil => intro r tl; simp [accW]
  | cons c ds ih =>
    intro r tl
    have hc : isDigit c := hds c (by simp)
    have h10 : c ≠ 10 := isDigit_ne_newline hc
    have h128 : ¬ 128 ≤ c := by unfold isDigit at hc; omega
    have htab : int_parse_table c = ((c : Int) - 48, 10) := by
      unfold isDigit at hc; simp [int_parse_table, hc]
    have := ih (fun x hx => hds x (by simp [hx]))
      (wrap16 (wrap16 (r * 10) + ((c : Int) - 48))) tl
    rw [List.cons_append, parse_int_table_loop]
    simp only [h10, h128, htab, if_false]
    rw [this]
    simp [accW]

theorem parse_value_loop_digits (ds : List Nat) (hds : ∀ c ∈ ds, isDigit c) :
    ∀ (r : Int) (tl : List Nat),
      parse_value_loop r (ds ++ tl) = parse_value_loop (accW r ds) tl := by
  induction ds with
  | nil => intro r tl; simp [accW]
  | cons c ds ih =>
    intro r tl
    have hc : isDigit c := hds c (by simp)
    have h10 : c ≠ 10 := isDigit_ne_newline hc
    have h46 : c ≠ 46 := by unfold isDigit at hc; omega
    have hcv : charVal c = (c : Int) := by
      unfold isDigit at hc; unfold charVal; rw [if_pos (by omega)]
    have := ih (fun x hx => hds x (by simp [hx]))
      (wrap16 (wrap16 (r * 10) + ((c : Int) - 48))) tl
    rw [List.cons_append, parse_value_loop]
    simp only [h10, h46, hcv, if_false, ne_eq, not_false_eq_true, if_true]
    rw [this]
    simp [accW]

theorem parse_int_table_loop_tail (a : Int) (ha : isInt16 a) (frac : Option Nat)
    (hf : ∀ f ∈ frac, isDigit f) (rest : List Nat) :
    parse_int_table_loop a (ValueToken.fracBytes frac ++ 10 :: rest)
      = .ok (fracStep a frac, rest) := by
  cases frac with
  | none => simp [parse_int_table_loop, ValueToken.fracBytes, fracStep]
  | some f =>
    have hd : isDigit f := hf f rfl
    have h10 : f ≠ 10 := isDigit_ne_newline hd
    have h128 : ¬ 128 ≤ f := by unfold isDigit at hd; omega
    have htab : int_parse_table f = ((f : Int) - 48, 10) := by
      unfold isDigit at hd; simp [int_parse_table, hd]
    have hdot : int_parse_table 46 = (0, 1) := by decide
    simp [parse_int_table_loop, ValueToken.fracBytes, fracStep, h10, h128, htab, hdot,
      wrap16_of_isInt16 ha]

theorem parse_value_loop_tail (a : Int) (frac : Option Nat)
    (hf : ∀ f ∈ frac, isDigit f) (rest : List Nat) :
    parse_value_loop a (ValueToken.fracBytes frac ++ 10 :: rest)
      = .ok (fracStep a frac, rest) := by
  cases frac with
  | none => simp [parse_value_loop, ValueToken.fracBytes, fracStep]
  | some f =>
    have hd : isDigit f := hf f rfl
    have h10 : f ≠ 10 := isDigit_ne_newline hd
    have h46 : f ≠ 46 := by unfold isDigit at hd; omega
    have hcv : charVal f = (f : Int) := by
      unfold isDigit at hd; unfold charVal; rw [if_pos (by omega)]
    simp [parse_value_loop, ValueToken.fracBytes, fracStep, h10, h46, hcv]

/-- The table parser on a token of the grammar, in 16-bit arithmetic. -/
theorem parse_int_table_token (t : ValueToken) (ht : t.Valid) (rest : List Nat) :
    parse_int_table (t.toBytes ++ 10 :: rest) = .ok (tokenResult t, rest) := by
  obtain ⟨neg, ipart, frac⟩ := t
  obtain ⟨hne, hds, hf⟩ := ht
  simp only at hne hds hf
  cases ipart with
  | nil => exact absurd rfl hne
  | cons d ds =>
    have hd : isDigit d := hds d (by simp)
    have hd45 : d ≠ 45 := by unfold isDigit at hd; omega
    have hl := parse_int_table_loop_digits (d :: ds) hds 0
      (ValueToken.fracBytes frac ++ 10 :: rest)
    have htail := parse_int_table_loop_tail (accW 0 (d :: ds))
      (accW_isInt16 (by decide) _) frac hf rest
    cases neg with
    | false =>
      have hb : (ValueToken.mk false (d :: ds) frac).toBytes ++ 10 :: rest
          = d :: (ds ++ (ValueToken.fracBytes frac ++ 10 :: rest)) := by
        simp [ValueToken.toBytes]
      rw [List.cons_append] at hl
      rw [hb, parse_int_table, hl, htail]
      simp [hd45, tokenResult]
    | true =>
      have hb : (ValueToken.mk true (d :: ds) frac).toBytes ++ 10 :: rest
          = 45 :: ((d :: ds) ++ (ValueToken.fracBytes frac ++ 10 :: rest)) := by
        simp [ValueToken.toBytes]
      have hminus : ∀ l, parse_int_table_loop 0 (45 :: l) = parse_int_table_loop 0 l := by
        intro l
        rw [parse_int_table_loop]
        have h0 : wrap16 (wrap16 (0 * (int_parse_table 45).2) + (int_parse_table 45).1) = 0 := by
          decide
        rw [h0]; simp
      rw [hb, parse_int_table, hminus, hl, htail]
      simp [tokenResult]

/-- The explicit-branch parser on a token of the grammar, in 16-bit arithmetic. -/
theorem parse_value_token (t : ValueToken) (ht : t.Valid) (rest : List Nat) :
    parse_value (t.toBytes ++ 10 :: rest) = .ok (tokenResult t, rest) := by
  obtain ⟨neg, ipart, frac⟩ := t
  obtain ⟨hne, hds, hf⟩ := ht
  simp only at hne hds hf
  cases ipart with
  | nil => exact absurd rfl hne
  | cons d ds =>
    have hd : isDigit d := hds d (by simp)
    have hd45 : d ≠ 45 := by unfold isDigit at hd; omega
    have htail := parse_value_loop_tail (accW 0 (d :: ds)) frac hf rest
    have hl := parse_value_loop_digits (d :: ds) hds 0
      (ValueToken.fracBytes frac ++ 10 :: rest)
    cases neg with
    | false =>
      have hb : (ValueToken.mk false (d :: ds) frac).toBytes ++ 10 :: rest
          = d :: (ds ++ (ValueToken.fracBytes frac ++ 10 :: rest)) := by
        simp [ValueToken.toBytes]
      rw [List.cons_append] at hl
      rw [hb, parse_value]
      simp only [hd45, if_false]
      rw [hl, htail]
      simp [tokenResult]
    | true =>
      have hb : (ValueToken.mk true (d :: ds) frac).toBytes ++ 10 :: rest
          = 45 :: ((d :: ds) ++ (ValueToken.fracBytes frac ++ 10 :: rest)) := by
        simp [ValueToken.toBytes]
      rw [hb, parse_value]
      simp only [if_true]
      rw [hl, htail]
      simp [tokenResult]

/-- In 16-bit arithmetic the parsers compute the digits of the token read
as one number, whenever that number fits `int16_t`. -/
theorem tokenResult_eq_digitsRead (t : ValueToken) (hr : isInt16 t.digitsRead) :
    tokenResult t = t.digitsRead := by
  obtain ⟨neg, ipart, frac⟩ := t
  have hacc := accW_zero_eq ipart
  unfold tokenResult
  simp only [hacc]
  unfold ValueToken.digitsRead ValueToken.sign isInt16 at *
  generalize ValueToken.digitsVal ipart = v at *
  cases neg <;> cases frac <;> simp only [fracStep] at * <;> unfold wrap16 <;>
    simp at hr ⊢ <;> omega

/-! ## Lemmas on the probe loop -/

theorem lookup_slot_loop_first (cap : Nat) (keys_ : Nat → List Nat) (name : List Nat)
    (hcap : 65536 ≤ cap) :
    ∀ (n fuel start : Nat), n < fuel → start < 65536 →
      stopsAt keys_ name ((start + n) % 65536) →
      (∀ j, j < n → ¬ stopsAt keys_ name ((start + j) % 65536)) →
      lookup_slot_loop cap keys_ name fuel start = .ok ((start + n) % 65536) := by
  intro n
  induction n with
  | zero =>
    intro fuel start hf hs hstop _
    obtain ⟨f, rfl⟩ : ∃ f, fuel = f + 1 := ⟨fuel - 1, by omega⟩
    have hmod : (start + 0) % 65536 = start := by rw [Nat.add_zero, Nat.mod_eq_of_lt hs]
    rw [hmod] at hstop ⊢
    rw [lookup_slot_loop, if_neg (by omega)]
    rcases hstop with h | h
    · rw [if_pos h]
    · by_cases h0 : keys_ start = []
      · rw [if_pos h0]
      · rw [if_neg h0, if_pos h]
  | succ n ih =>
    intro fuel start hf hs hstop hbefore
    obtain ⟨f, rfl⟩ : ∃ f, fuel = f + 1 := ⟨fuel - 1, by omega⟩
    have h0 := hbefore 0 (by omega)
    rw [Nat.add_zero, Nat.mod_eq_of_lt hs] at h0
    unfold stopsAt at h0
    have hshift : ∀ j, ((start + 1) % 65536 + j) % 65536 = (start + (j + 1)) % 65536 := by
      intro j; omega
    rw [lookup_slot_loop, if_neg (by omega), if_neg (fun h => h0 (Or.inl h)),
      if_neg (fun h => h0 (Or.inr h))]
    rw [ih f ((start + 1) % 65536) (by omega) (Nat.mod_lt _ (by decide))
      (by rw [hshift]; exact hstop)
      (by intro j hj; rw [hshift]; exact hbefore (j + 1) (by omega))]
    rw [hshift]

theorem lookup_slot_loop_ok (cap : Nat) (keys_ : Nat → List Nat) (name : List Nat) :
    ∀ (fuel start s : Nat), start < 65536 →
      lookup_slot_loop cap keys_ name fuel start = .ok s →
      ∃ n, n < fuel ∧ s = (start + n) % 65536 ∧ s < cap ∧ stopsAt keys_ name s ∧
        ∀ j, j < n → ¬ stopsAt keys_ name ((start + j) % 65536) := by
  intro fuel
  induction fuel with
  | zero => intro start s _ h; simp [lookup_slot_loop] at h
  | succ f ih =>
    intro start s hs h
    rw [lookup_slot_loop] at h
    by_cases hc : cap ≤ start
    · rw [if_pos hc] at h; cases h
    · rw [if_neg hc] at h
      by_cases h0 : keys_ start = []
      · rw [if_pos h0] at h
        injection h with h; subst h
        exact ⟨0, by omega, by rw [Nat.add_zero, Nat.mod_eq_of_lt hs], by omega,
          Or.inl h0, by intro j hj; omega⟩
      · rw [if_neg h0] at h
        by_cases h1 : keys_ start = name
        · rw [if_pos h1] at h
          injection h with h; subst h
          exact ⟨0, by omega, by rw [Nat.add_zero, Nat.mod_eq_of_lt hs], by omega,
            Or.inr h1, by intro j hj; omega⟩
        · rw [if_neg h1] at h
          obtain ⟨n, hn, hsn, hcap, hstop, hbefore⟩ :=
            ih ((start + 1) % 65536) s (Nat.mod_lt _ (by decide)) h
          have hshift : ∀ j, ((start + 1) % 65536 + j) % 65536 = (start + (j + 1)) % 65536 := by
            intro j; omega
          refine ⟨n + 1, by omega, by rw [hsn, hshift], hcap, hstop, ?_⟩
          intro j hj
          cases j with
          | zero =>
            rw [Nat.add_zero, Nat.mod_eq_of_lt hs]
            intro hst; rcases hst with hst | hst
            · exact h0 hst
            · exact h1 hst
          | succ j =>
            rw [← hshift]; exact hbefore j (by omega)

theorem lookup_slot_loop_diverges_path (cap : Nat) (keys_ : Nat → List Nat)
    (name : List Nat) :
    ∀ (fuel start : Nat), start < 65536 →
      lookup_slot_loop cap keys_ name fuel start = .error .diverges →
      ∀ j, j < fuel → (start + j) % 65536 < cap ∧
        ¬ stopsAt keys_ name ((start + j) % 65536) := by
  intro fuel
  induction fuel with
  | zero => intro start _ _ j hj; omega
  | succ f ih =>
    intro start hs h j hj
    rw [lookup_slot_loop] at h
    by_cases hc : cap ≤ start
    · rw [if_pos hc] at h; cases h
    · rw [if_neg hc] at h
      by_cases h0 : keys_ start = []
      · rw [if_pos h0] at h; cases h
      · rw [if_neg h0] at h
        by_cases h1 : keys_ start = name
        · rw [if_pos h1] at h; cases h
        · rw [if_neg h1] at h
          cases j with
          | zero =>
            rw [Nat.add_zero, Nat.mod_eq_of_lt hs]
            refine ⟨by omega, ?_⟩
            intro hst; rcases hst with hst | hst
            · exact h0 hst
            · exact h1 hst
          | succ j =>
            have := ih ((start + 1) % 65536) (Nat.mod_lt _ (by decide)) h j (by omega)
            have hshift : ((start + 1) % 65536 + j) % 65536 = (start + (j + 1)) % 65536 := by
              omega
            rw [hshift] at this
            exact this

theorem lookup_slot_loop_of_no_stop (cap : Nat) (keys_ : Nat → List Nat) (name : List Nat)
    (hall : ∀ i, i < 65536 → i < cap ∧ ¬ stopsAt keys_ name i) :
    ∀ (fuel start : Nat), start < 65536 →
      lookup_slot_loop cap keys_ name fuel start = .error .diverges := by
  intro fuel
  induction fuel with
  | zero => intro start _; rfl
  | succ f ih =>
    intro start hs
    obtain ⟨hc, hst⟩ := hall start hs
    unfold stopsAt at hst
    rw [lookup_slot_loop, if_neg (by omega), if_neg (fun h => hst (Or.inl h)),
      if_neg (fun h => hst (Or.inr h))]
    exact ih _ (Nat.mod_lt _ (by decide))

/-- The fuel of `lookup_slot` is enough: when 65536 iterations find no exit,
no number of iterations does. -/
theorem lookup_slot_diverges_forever (cap : Nat) (db : DB) (m : Measurement)
    (h : lookup_slot cap db m = .error .diverges) (fuel : Nat) :
    lookup_slot_loop cap db.keys_ m.name fuel (m.hash % 65536) = .error .diverges := by
  have hlt : m.hash % 65536 < 65536 := Nat.mod_lt _ (by decide)
  have hpath := lookup_slot_loop_diverges_path cap db.keys_ m.name 65536 (m.hash % 65536) hlt h
  apply lookup_slot_loop_of_no_stop cap db.keys_ m.name _ fuel _ hlt
  intro i hi
  have := hpath ((i + 65536 - m.hash % 65536) % 65536) (Nat.mod_lt _ (by decide))
  have hi2 : (m.hash % 65536 + (i + 65536 - m.hash % 65536) % 65536) % 65536 = i := by omega
  rw [hi2] at this
  exact this

/-- With an empty slot in the table the probe loop reaches a stopping slot. -/
theorem exists_first_stop (keys_ : Nat → List Nat) (name : List Nat) (start : Nat)
    (he : ∃ e, e < 65536 ∧ keys_ e = []) :
    ∃ n, n < 65536 ∧ stopsAt keys_ name ((start + n) % 65536) ∧
      ∀ j, j < n → ¬ stopsAt keys_ name ((start + j) % 65536) := by
  obtain ⟨e, he, hke⟩ := he
  have hex : ∃ n, n < 65536 ∧ stopsAt keys_ name ((start + n) % 65536) := by
    refine ⟨(e + 65536 - start % 65536) % 65536, Nat.mod_lt _ (by decide), ?_⟩
    have : (start + (e + 65536 - start % 65536) % 65536) % 65536 = e := by omega
    rw [this]; exact Or.inl hke
  classical
  refine ⟨Nat.find hex, (Nat.find_spec hex).1, (Nat.find_spec hex).2, ?_⟩
  intro j hj hst
  exact Nat.find_min hex hj ⟨lt_trans hj (Nat.find_spec hex).1, hst⟩

/-- `record` never changes the key of an occupied slot. -/
theorem record_keys_of_occupied {cap : Nat} {db db1 : DB} {m : Measurement}
    (h : db.record cap m = .ok db1) {i : Nat} (hi : db.keys_ i ≠ []) :
    db1.keys_ i = db.keys_ i := by
  unfold DB.record at h
  cases hl : lookup_slot cap db m with
  | error e => rw [hl] at h; cases h
  | ok slot =>
    rw [hl] at h
    simp only at h
    by_cases hc : cap ≤ slot
    · rw [if_pos hc] at h; cases h
    · rw [if_neg hc] at h
      by_cases h0 : db.keys_ slot = []
      · rw [if_pos h0] at h
        injection h with h; subst h
        have : i ≠ slot := fun hh => hi (hh ▸ h0)
        simp [setAt, this]
      · rw [if_neg h0] at h
        injection h with h; subst h
        rfl

theorem recordAll_keys_of_occupied {cap : Nat} (ms : List Measurement) :
    ∀ {db db2 : DB}, DB.recordAll cap db ms = .ok db2 → ∀ {i : Nat}, db.keys_ i ≠ [] →
      db2.keys_ i = db.keys_ i := by
  induction ms with
  | nil => intro db db2 h i _; simp [DB.recordAll] at h; subst h; rfl
  | cons m ms ih =>
    intro db db2 h i hi
    rw [DB.recordAll] at h
    cases hr : db.record cap m with
    | error e => rw [hr] at h; cases h
    | ok db1 =>
      rw [hr] at h
      simp only at h
      have h1 := record_keys_of_occupied hr hi
      rw [ih h (by rw [h1]; exact hi), h1]

/-- After a successful `record` of a non-empty key, the slot `lookup_slot`
found holds the key. -/
theorem record_keys_at_slot {cap : Nat} {db db1 : DB} {m : Measurement} {s : Nat}
    (h : db.record cap m = .ok db1) (hs : lookup_slot cap db m = .ok s) :
    db1.keys_ s = m.name := by
  have hst := lookup_slot_loop_ok cap db.keys_ m.name 65536 (m.hash % 65536) s
    (Nat.mod_lt _ (by decide)) hs
  obtain ⟨n, _, _, hcap, hstop, _⟩ := hst
  unfold DB.record at h
  rw [hs] at h
  simp only at h
  rw [if_neg (by omega)] at h
  by_cases h0 : db.keys_ s = []
  · rw [if_pos h0] at h
    injection h with h; subst h
    simp [setAt]
  · rw [if_neg h0] at h
    injection h with h; subst h
    rcases hstop with hh | hh
    · exact absurd hh h0
    · exact hh

theorem record_miss {cap : Nat} {db : DB} {m : Measurement} {s : Nat}
    (hs : lookup_slot cap db m = .ok s) (hcap : s < cap) (h0 : db.keys_ s = []) :
    db.record cap m = .ok
      { keys_ := setAt db.keys_ s m.name
        values_ := setAt db.values_ s ⟨1, m.value, m.value, m.value⟩
        filled_ := db.filled_ ++ [s] } := by
  unfold DB.record
  rw [hs]
  simp only
  rw [if_neg (by omega), if_pos h0]

theorem record_hit {cap : Nat} {db : DB} {m : Measurement} {s : Nat}
    (hs : lookup_slot cap db m = .ok s) (hcap : s < cap) (h0 : db.keys_ s ≠ []) :
    db.record cap m = .ok
      { db with values_ := setAt db.values_ s ((db.values_ s).update m.value) } := by
  unfold DB.record
  rw [hs]
  simp only
  rw [if_neg (by omega), if_neg h0]

theorem update_first (v v2 : Int) (hv : isInt16 v) (hv2 : isInt16 v2) :
    (Record.mk 1 v v v).update v2 = ⟨2, v + v2, min v v2, max v v2⟩ := by
  have hw1 : wrap64 (v + v2) = v + v2 := by
    unfold isInt16 at hv hv2; unfold wrap64; omega
  have hw2 : wrap64 (1 + 1) = 2 := by decide
  unfold Record.update
  by_cases h1 : v2 < v
  · simp only [h1, if_true, hw1, hw2, min_eq_right (le_of_lt h1), max_eq_left (le_of_lt h1)]
  · by_cases h2 : v2 > v
    · simp only [h1, h2, if_true, if_false, hw1, hw2, min_eq_left (le_of_lt h2),
        max_eq_right (le_of_lt h2)]
    · have h3 : v ≤ v2 := not_lt.mp h1
      have h4 : v2 ≤ v := not_lt.mp h2
      simp only [h1, h2, if_false, hw1, hw2, min_eq_left h3, max_eq_left h4]

/-! ## Lemmas on the statistics -/

theorem sum_bounds (vs : List Int) (h : ∀ x ∈ vs, isInt16 x) :
    -32768 * (vs.length : Int) ≤ vs.sum ∧ vs.sum ≤ 32767 * (vs.length : Int) := by
  induction vs with
  | nil => simp
  | cons x xs ih =>
    have hx := h x (by simp)
    have := ih (fun y hy => h y (by simp [hy]))
    unfold isInt16 at hx
    simp only [List.sum_cons, List.length_cons, Nat.cast_add, Nat.cast_one]
    constructor <;> omega

theorem isStatsOf_single (v : Int) : IsStatsOf ⟨1, v, v, v⟩ [v] := by
  unfold IsStatsOf; simp

theorem isStatsOf_update {r : Record} {vs : List Int} {v : Int} (hr : IsStatsOf r vs)
    (hvs : ∀ x ∈ vs, isInt16 x) (hv : isInt16 v) (hlen : vs.length < 2 ^ 47) :
    IsStatsOf (r.update v) (vs ++ [v]) := by
  obtain ⟨cnt, sum, mn, mx⟩ := r
  obtain ⟨hcnt, hsum, ⟨hminm, hmin⟩, ⟨hmaxm, hmax⟩⟩ := hr
  simp only at hcnt hsum hminm hmin hmaxm hmax
  subst hcnt hsum
  have hb := sum_bounds vs hvs
  have hl : (vs.length : Int) < 2 ^ 47 := by exact_mod_cast hlen
  have hl0 : (0 : Int) ≤ vs.length := Int.natCast_nonneg _
  have hmm : mn ≤ mx := hmin _ hmaxm
  unfold isInt16 at hv
  have hw1 : wrap64 (vs.sum + v) = (vs ++ [v]).sum := by
    rw [List.sum_append, List.sum_singleton]; unfold wrap64; norm_num at hl; omega
  have hw2 : wrap64 ((vs.length : Int) + 1) = ((vs ++ [v]).length : Int) := by
    rw [List.length_append, List.length_singleton]; push_cast
    unfold wrap64; norm_num at hl; omega
  have hmem : ∀ {a : Int}, a ∈ vs → a ∈ vs ++ [v] := fun h => List.mem_append.mpr (Or.inl h)
  have hv_mem : v ∈ vs ++ [v] := List.mem_append.mpr (Or.inr (List.mem_singleton.mpr rfl))
  have hall : ∀ {P : Int → Prop}, (∀ x ∈ vs, P x) → P v → ∀ x ∈ vs ++ [v], P x := by
    intro P h1 h2 x hx
    rcases List.mem_append.mp hx with hx | hx
    · exact h1 x hx
    · rw [List.mem_singleton.mp hx]; exact h2
  unfold IsStatsOf Record.update
  by_cases h1 : v < mn
  · simp only [h1, if_true]
    exact ⟨hw2, hw1, ⟨hv_mem, hall (fun x hx => le_of_lt (lt_of_lt_of_le h1 (hmin x hx)))
      (le_refl v)⟩, ⟨hmem hmaxm, hall hmax (by omega)⟩⟩
  · by_cases h2 : v > mx
    · simp only [h1, h2, if_true, if_false]
      exact ⟨hw2, hw1, ⟨hmem hminm, hall hmin (by omega)⟩,
        ⟨hv_mem, hall (fun x hx => le_of_lt (lt_of_le_of_lt (hmax x hx) h2)) (le_refl v)⟩⟩
    · simp only [h1, h2, if_false]
      exact ⟨hw2, hw1, ⟨hmem hminm, hall hmin (by omega)⟩, ⟨hmem hmaxm, hall hmax (by omega)⟩⟩

theorem valuesOf_append_same (k : List Nat) (ls : List Line) (l : Line) (h : l.key = k) :
    valuesOf k (ls ++ [l]) = valuesOf k ls ++ [l.tok.scaled] := by
  simp [valuesOf, List.filter_append, h]

theorem valuesOf_append_other (k : List Nat) (ls : List Line) (l : Line) (h : l.key ≠ k) :
    valuesOf k (ls ++ [l]) = valuesOf k ls := by
  simp [valuesOf, List.filter_append, h]

theorem valuesOf_length_le (k : List Nat) (ls : List Line) :
    (valuesOf k ls).length ≤ ls.length := by
  simp only [valuesOf, List.length_map]
  exact List.length_filter_le _ _

theorem valuesOf_isInt16 (k : List Nat) (ls : List Line) (h : ∀ l ∈ ls, l.WellFormed) :
    ∀ x ∈ valuesOf k ls, isInt16 x := by
  intro x hx
  simp only [valuesOf, List.mem_map, List.mem_filter] at hx
  obtain ⟨l, ⟨hl, _⟩, rfl⟩ := hx
  exact (h l hl).2.2.2.2.2

theorem mem_keysOf_of_valuesOf_ne_nil {k : List Nat} {ls : List Line} {x : Int}
    (h : x ∈ valuesOf k ls) : k ∈ keysOf ls := by
  simp only [valuesOf, List.mem_map, List.mem_filter] at h
  obtain ⟨l, ⟨hl, hk⟩, _⟩ := h
  simp only [keysOf, List.mem_map]
  exact ⟨l, hl, by simpa using hk⟩

/-! ## Lemmas on the table invariant -/

/-- A lookup that ends on a slot keeps its result when occupied slots keep
their keys and the final slot holds the key. -/
theorem lookup_slot_loop_mono {keys_ keys1 : Nat → List Nat} {name : List Nat}
    {start t : Nat} (hs : start < 65536)
    (h : lookup_slot_loop capacity07 keys_ name 65536 start = .ok t)
    (hsame : ∀ i, keys_ i ≠ [] → keys1 i = keys_ i) (ht : keys1 t = name) :
    lookup_slot_loop capacity07 keys1 name 65536 start = .ok t := by
  obtain ⟨n, hn, htn, _, _, hbefore⟩ :=
    lookup_slot_loop_ok capacity07 keys_ name 65536 start t hs h
  have hpath : ∀ j, j < n → ¬ stopsAt keys1 name ((start + j) % 65536) := by
    intro j hj
    have h0 := hbefore j hj
    unfold stopsAt at h0 ⊢
    rw [hsame _ (fun hh => h0 (Or.inl hh))]
    exact h0
  have := lookup_slot_loop_first capacity07 keys1 name (by decide) n 65536 start hn hs
    (by rw [← htn]; exact Or.inr ht) hpath
  rw [← htn] at this
  exact this

theorem TableInv.slot_lt {db : DB} {ls : List Line} (inv : TableInv db ls) {s : Nat}
    (hs : db.keys_ s ≠ []) : s < 65536 := by
  obtain ⟨_, _, _, hcap, _, _⟩ := lookup_slot_loop_ok capacity07 db.keys_ (db.keys_ s) 65536
    (keyHash (db.keys_ s) % 65536) s (Nat.mod_lt _ (by decide)) (inv.found s hs)
  exact hcap

/-- No two occupied slots store the same key. -/
theorem TableInv.inj {db : DB} {ls : List Line} (inv : TableInv db ls) {a b : Nat}
    (ha : db.keys_ a ≠ []) (hab : db.keys_ a = db.keys_ b) : a = b := by
  have h1 := inv.found a ha
  have h2 := inv.found b (hab ▸ ha)
  rw [← hab, h1] at h2
  injection h2

theorem TableInv.key_mem {db : DB} {ls : List Line} (inv : TableInv db ls) {s : Nat}
    (hs : db.keys_ s ≠ []) : db.keys_ s ∈ keysOf ls :=
  mem_keysOf_of_valuesOf_ne_nil (inv.stats s hs).2.2.1.1

/-- While fewer than 65536 distinct keys were scanned the table has an
empty slot. -/
theorem TableInv.exists_empty {db : DB} {ls : List Line} (inv : TableInv db ls)
    (hk : (keysOf ls).dedup.length < 65536) : ∃ e, e < 65536 ∧ db.keys_ e = [] := by
  by_contra hne
  have hall : ∀ e, e < 65536 → db.keys_ e ≠ [] := by
    intro e he h0; exact hne ⟨e, he, h0⟩
  have hcard : (Finset.range 65536).card ≤ (keysOf ls).toFinset.card := by
    apply Finset.card_le_card_of_injOn db.keys_
    · intro a ha
      rw [List.mem_toFinset]
      exact inv.key_mem (hall a (Finset.mem_range.mp ha))
    · intro a ha b _ hab
      exact inv.inj (hall a (Finset.mem_range.mp (Finset.mem_coe.mp ha))) hab
  rw [Finset.card_range, List.card_toFinset] at hcard
  omega

theorem dedup_length_append_le (xs ys : List (List Nat)) :
    xs.dedup.length ≤ (xs ++ ys).dedup.length := by
  rw [← List.card_toFinset, ← List.card_toFinset]
  apply Finset.card_le_card
  intro a ha
  rw [List.mem_toFinset] at ha ⊢
  exact List.mem_append.mpr (Or.inl ha)

theorem tableInv_empty : TableInv DB.empty [] where
  found := by intro s hs; exact absurd rfl hs
  stats := by intro s hs; exact absurd rfl hs
  complete := by intro l hl; cases hl
  filled := by intro s; simp [DB.empty]
  nodup := List.nodup_nil

/-- One `record` call of the scan keeps the table invariant. -/
theorem record_inv {db : DB} {ls : List Line} {l : Line} (inv : TableInv db ls)
    (hwf : ∀ x ∈ ls, x.WellFormed) (hl : l.WellFormed)
    (hk : (keysOf (ls ++ [l])).dedup.length < 65536) (hlen : ls.length < 2 ^ 47) :
    ∃ db1, db.record capacity07 ⟨l.key, keyHash l.key, l.tok.scaled⟩ = .ok db1 ∧
      TableInv db1 (ls ++ [l]) := by
  have hkne : l.key ≠ [] := hl.1
  have hv : isInt16 l.tok.scaled := hl.2.2.2.2.2
  have hk0 : (keysOf ls).dedup.length < 65536 := by
    refine lt_of_le_of_lt ?_ hk
    unfold keysOf; rw [List.map_append]; exact dedup_length_append_le _ _
  obtain ⟨n, hn, hstop, hbefore⟩ :=
    exists_first_stop db.keys_ l.key (keyHash l.key % 65536) (inv.exists_empty hk0)
  have hlt : keyHash l.key % 65536 < 65536 := Nat.mod_lt _ (by decide)
  have hloop := lookup_slot_loop_first capacity07 db.keys_ l.key (by decide) n 65536 _ hn hlt
    hstop hbefore
  generalize hs : (keyHash l.key % 65536 + n) % 65536 = s at hloop hstop
  have hs_lt : s < capacity07 := by rw [← hs]; exact Nat.mod_lt _ (by decide)
  have hlook : lookup_slot capacity07 db ⟨l.key, keyHash l.key, l.tok.scaled⟩ = .ok s := hloop
  by_cases h0 : db.keys_ s = []
  · have hnot : ∀ t, db.keys_ t ≠ l.key := by
      intro t ht
      have hne : db.keys_ t ≠ [] := by rw [ht]; exact hkne
      have hf := inv.found t hne
      rw [ht, hloop] at hf
      injection hf with hf
      rw [hf] at h0
      exact hne h0
    have hsame : ∀ i, db.keys_ i ≠ [] → setAt db.keys_ s l.key i = db.keys_ i := by
      intro i hi
      have : i ≠ s := fun h => hi (h ▸ h0)
      simp [setAt, this]
    have hat : setAt db.keys_ s l.key s = l.key := by simp [setAt]
    have hnil : valuesOf l.key ls = [] := by
      cases hvs : valuesOf l.key ls with
      | nil => rfl
      | cons x xs =>
        have hmem : x ∈ valuesOf l.key ls := by rw [hvs]; simp
        have hkm := mem_keysOf_of_valuesOf_ne_nil hmem
        simp only [keysOf, List.mem_map] at hkm
        obtain ⟨y, hy, hyk⟩ := hkm
        obtain ⟨t, ht⟩ := inv.complete y hy
        exact absurd (ht.trans hyk) (hnot t)
    refine ⟨_, record_miss hlook hs_lt h0, ?_⟩
    constructor
    · intro t ht
      simp only at ht ⊢
      by_cases hts : t = s
      · subst hts
        rw [hat]
        exact lookup_slot_loop_mono hlt hloop hsame hat
      · have hkt : setAt db.keys_ s l.key t = db.keys_ t := by simp [setAt, hts]
        rw [hkt] at ht ⊢
        exact lookup_slot_loop_mono (Nat.mod_lt _ (by decide)) (inv.found t ht) hsame hkt
    · intro t ht
      simp only at ht ⊢
      by_cases hts : t = s
      · subst hts
        rw [hat, valuesOf_append_same _ _ _ rfl, hnil]
        simp only [setAt, if_true, List.nil_append]
        exact isStatsOf_single _
      · have hkt : setAt db.keys_ s l.key t = db.keys_ t := by simp [setAt, hts]
        have hvt : setAt db.values_ s (Record.mk 1 l.tok.scaled l.tok.scaled l.tok.scaled) t
            = db.values_ t := by simp [setAt, hts]
        rw [hkt] at ht ⊢
        rw [hvt, valuesOf_append_other _ _ _ (fun h => hnot t h.symm)]
        exact inv.stats t ht
    · intro x hx
      simp only
      rcases List.mem_append.mp hx with hx | hx
      · obtain ⟨t, ht⟩ := inv.complete x hx
        refine ⟨t, ?_⟩
        rw [hsame t (by rw [ht]; exact (hwf x hx).1), ht]
      · rw [List.mem_singleton.mp hx]
        exact ⟨s, hat⟩
    · intro t
      simp only [List.mem_append, List.mem_singleton]
      by_cases hts : t = s
      · subst hts
        rw [hat]
        exact ⟨fun _ => hkne, fun _ => Or.inr rfl⟩
      · have hkt : setAt db.keys_ s l.key t = db.keys_ t := by simp [setAt, hts]
        rw [hkt, inv.filled t]
        exact ⟨fun h => h.resolve_right hts, fun h => Or.inl h⟩
    · simp only
      rw [List.nodup_append]
      refine ⟨inv.nodup, List.nodup_singleton _, ?_⟩
      intro a ha hb
      rw [List.mem_singleton] at hb
      subst hb
      exact (inv.filled a).mp ha h0
  · have hks : db.keys_ s = l.key := by
      rcases hstop with h | h
      · exact absurd h h0
      · exact h
    refine ⟨_, record_hit hlook hs_lt h0, ?_⟩
    constructor
    · exact inv.found
    · intro t ht
      simp only at ht ⊢
      by_cases hts : t = s
      · subst hts
        rw [valuesOf_append_same _ _ _ hks.symm]
        simp only [setAt, if_true]
        exact isStatsOf_update (inv.stats t h0) (valuesOf_isInt16 _ _ hwf) hv
          (lt_of_le_of_lt (valuesOf_length_le _ _) hlen)
      · have hvt : setAt db.values_ s ((db.values_ s).update l.tok.scaled) t
            = db.values_ t := by simp [setAt, hts]
        have hne : l.key ≠ db.keys_ t := by
          intro h
          exact hts (inv.inj ht (h.symm.trans hks.symm))
        rw [hvt, valuesOf_append_other _ _ _ hne]
        exact inv.stats t ht
    · intro x hx
      simp only
      rcases List.mem_append.mp hx with hx | hx
      · exact inv.complete x hx
      · rw [List.mem_singleton.mp hx]
        exact ⟨s, hks⟩
    · exact inv.filled
    · exact inv.nodup

/-! ## Lemmas on the scan -/

theorem parse_key_loop_key (k : List Nat) (hk : 59 ∉ k) :
    ∀ (h : Nat) (name rest : List Nat),
      parse_key_loop h name (k ++ 59 :: rest)
        = .ok (k.foldl (fun h c => (((h : Int) * 7 + charVal c) % 65536).toNat) h,
            name ++ k, rest) := by
  induction k with
  | nil => intro h name rest; simp [parse_key_loop]
  | cons c cs ih =>
    intro h name rest
    have hc : c ≠ 59 := fun hh => hk (by simp [hh])
    have hcs : 59 ∉ cs := fun hh => hk (by simp [hh])
    rw [List.cons_append, parse_key_loop, if_neg hc, ih hcs]
    simp

/-- The record scanner on one well-formed line. -/
theorem parse_line (l : Line) (hl : l.WellFormed) (rest : List Nat) :
    parse (l.key ++ 59 :: (l.tok.toBytes ++ 10 :: rest))
      = .ok (⟨l.key, keyHash l.key, l.tok.scaled⟩, rest) := by
  obtain ⟨_, h59, _, hvalid, hfrac, hr⟩ := hl
  obtain ⟨f, hf⟩ := Option.isSome_iff_exists.mp hfrac
  have hd : l.tok.digitsRead = l.tok.scaled := by
    unfold ValueToken.digitsRead ValueToken.scaled; rw [hf]
  unfold parse
  rw [parse_key_loop_key l.key h59]
  simp only [List.nil_append]
  rw [parse_int_table_token l.tok hvalid rest, tokenResult_eq_digitsRead l.tok (hd ▸ hr), hd]
  rfl

theorem process_input_loop_nil (cap fuel : Nat) (db : DB) :
    process_input_loop cap fuel db [] = .ok db := by
  cases fuel <;> rfl

theorem length_le_encode_length (ls : List Line) : ls.length ≤ (encode ls).length := by
  induction ls with
  | nil => simp [encode]
  | cons l ls ih =>
    simp only [encode, List.length_append, List.length_cons]
    omega

/-- The scan loop over a well-formed buffer returns a table and keeps the
table invariant. -/
theorem process_input_loop_inv (ls : List Line) :
    ∀ (done : List Line) (db : DB) (fuel : Nat), TableInv db done →
      (∀ x ∈ done ++ ls, x.WellFormed) →
      (keysOf (done ++ ls)).dedup.length < 65536 →
      (done ++ ls).length < 2 ^ 47 →
      (encode ls).length ≤ fuel →
      ∃ db1, process_input_loop capacity07 fuel db (encode ls) = .ok db1 ∧
        TableInv db1 (done ++ ls) := by
  induction ls with
  | nil =>
    intro done db fuel inv _ _ _ _
    exact ⟨db, process_input_loop_nil _ _ _, by simpa using inv⟩
  | cons l ls ih =>
    intro done db fuel inv hwf hk hlen hfuel
    have happ : done ++ l :: ls = (done ++ [l]) ++ ls := by simp
    have hl : l.WellFormed := hwf l (by simp)
    have hwf0 : ∀ x ∈ done, x.WellFormed := fun x hx => hwf x (by simp [hx])
    have hk1 : (keysOf (done ++ [l])).dedup.length < 65536 := by
      refine lt_of_le_of_lt ?_ hk
      rw [happ]; unfold keysOf; rw [List.map_append _ (done ++ [l]) ls]
      exact dedup_length_append_le _ _
    have hlen1 : done.length < 2 ^ 47 := by
      refine lt_of_le_of_lt ?_ hlen
      rw [List.length_append]; omega
    obtain ⟨db1, hrec, inv1⟩ := record_inv inv hwf0 hl hk1 hlen1
    obtain ⟨c, cs, hcs⟩ : ∃ c cs, l.key = c :: cs := by
      cases hkey : l.key with
      | nil => exact absurd hkey hl.1
      | cons c cs => exact ⟨c, cs, rfl⟩
    have henc : encode (l :: ls) = c :: (cs ++ 59 :: (l.tok.toBytes ++ 10 :: encode ls)) := by
      rw [encode, hcs, List.cons_append]
    have hparse := parse_line l hl (encode ls)
    rw [hcs, List.cons_append] at hparse
    obtain ⟨f, rfl⟩ : ∃ f, fuel = f + 1 := by
      refine ⟨fuel - 1, ?_⟩
      rw [henc, List.length_cons] at hfuel
      omega
    have hf : (encode ls).length ≤ f := by
      rw [henc] at hfuel
      simp only [List.length_cons, List.length_append] at hfuel
      omega
    obtain ⟨db2, hrun, inv2⟩ := ih (done ++ [l]) db1 f inv1 (by rw [← happ]; exact hwf)
      (by rw [← happ]; exact hk) (by rw [← happ]; exact hlen) hf
    refine ⟨db2, ?_, by rw [happ]; exact inv2⟩
    rw [henc, process_input_loop, hparse]
    simp only
    rw [← hcs, hrec]
    exact hrun

/-! ## Lemmas on the formatter -/

theorem foldl_min_spec (xs : List Int) :
    ∀ a : Int, xs.foldl min a ∈ a :: xs ∧ ∀ x ∈ a :: xs, xs.foldl min a ≤ x := by
  induction xs with
  | nil => intro a; simp
  | cons y ys ih =>
    intro a
    obtain ⟨hm, hle⟩ := ih (min a y)
    simp only [List.foldl_cons]
    constructor
    · rcases List.mem_cons.mp hm with h | h
      · rw [h]
        rcases min_choice a y with h1 | h1 <;> rw [h1] <;> simp
      · simp [h]
    · intro x hx
      have h0 := hle (min a y) (by simp)
      rcases List.mem_cons.mp hx with h | h
      · rw [h]; exact le_trans h0 (min_le_left a y)
      · rcases List.mem_cons.mp h with h | h
        · rw [h]; exact le_trans h0 (min_le_right a y)
        · exact hle x (by simp [h])

theorem foldl_max_spec (xs : List Int) :
    ∀ a : Int, xs.foldl max a ∈ a :: xs ∧ ∀ x ∈ a :: xs, x ≤ xs.foldl max a := by
  induction xs with
  | nil => intro a; simp
  | cons y ys ih =>
    intro a
    obtain ⟨hm, hle⟩ := ih (max a y)
    simp only [List.foldl_cons]
    constructor
    · rcases List.mem_cons.mp hm with h | h
      · rw [h]
        rcases max_choice a y with h1 | h1 <;> rw [h1] <;> simp
      · simp [h]
    · intro x hx
      have h0 := hle (max a y) (by simp)
      rcases List.mem_cons.mp hx with h | h
      · rw [h]; exact le_trans (le_max_left a y) h0
      · rcases List.mem_cons.mp h with h | h
        · rw [h]; exact le_trans (le_max_right a y) h0
        · exact hle x (by simp [h])

/-- A record that is the statistics of `vs` is `statsOf vs`. -/
theorem isStatsOf_eq {r : Record} {vs : List Int} (h : IsStatsOf r vs) : r = statsOf vs := by
  obtain ⟨cnt, sum, mn, mx⟩ := r
  obtain ⟨hcnt, hsum, ⟨hminm, hmin⟩, ⟨hmaxm, hmax⟩⟩ := h
  simp only at hcnt hsum hminm hmin hmaxm hmax
  cases vs with
  | nil => cases hminm
  | cons x xs =>
    obtain ⟨h1, h2⟩ := foldl_min_spec xs x
    obtain ⟨h3, h4⟩ := foldl_max_spec xs x
    have hmn : mn = xs.foldl min x := le_antisymm (hmin _ h1) (h2 _ hminm)
    have hmx : mx = xs.foldl max x := le_antisymm (h4 _ hmaxm) (hmax _ h3)
    simp only [statsOf, minOf, maxOf, hcnt, hsum, hmn, hmx]

theorem isStatsOf_cnt_ne_zero {r : Record} {vs : List Int} (h : IsStatsOf r vs) :
    r.cnt ≠ 0 := by
  obtain ⟨hcnt, _, ⟨hminm, _⟩, _⟩ := h
  rw [hcnt]
  cases vs with
  | nil => cases hminm
  | cons x xs => simp only [List.length_cons]; push_cast; omega

theorem intercalate_cons_cons (sep a b : List Nat) (l : List (List Nat)) :
    List.intercalate sep (a :: b :: l) = a ++ sep ++ List.intercalate sep (b :: l) := by
  simp [List.intercalate, List.intersperse]

/-- The output loop writes the entries joined by `, `. -/
theorem format_loop_eq (es : List (List Nat × Record)) (hcnt : ∀ e ∈ es, e.2.cnt ≠ 0) :
    format_loop [] es = .ok (List.intercalate (bytes ", ")
      (es.map (fun e => entryBytes e.1 e.2))) := by
  have hgen : ∀ (es : List (List Nat × Record)), (∀ e ∈ es, e.2.cnt ≠ 0) →
      ∀ (delim : List Nat) (e : List Nat × Record), e.2.cnt ≠ 0 →
      format_loop delim (e :: es) = .ok (delim ++ List.intercalate (bytes ", ")
        ((e :: es).map (fun e => entryBytes e.1 e.2))) := by
    intro es
    induction es with
    | nil =>
      intro _ delim e he
      obtain ⟨name, value⟩ := e
      simp only at he
      simp [format_loop, he, List.intercalate, List.intersperse]
    | cons e1 es ih =>
      intro h delim e he
      obtain ⟨name, value⟩ := e
      simp only at he
      have h1 := ih (fun x hx => h x (by simp [hx])) (bytes ", ") e1 (h e1 (by simp))
      rw [format_loop, if_neg he, h1]
      simp only [List.map_cons]
      rw [intercalate_cons_cons]
      simp [List.append_assoc]
  cases es with
  | nil => simp [format_loop, List.intercalate, List.intersperse]
  | cons e es =>
    have := hgen es (fun x hx => hcnt x (by simp [hx])) [] e (hcnt e (by simp))
    simpa using this

theorem lookup_of_mem_keys (db : MergedMap) :
    ∀ name, name ∈ db.map Prod.fst → ∃ r, db.lookup name = some r ∧ (name, r) ∈ db := by
  induction db with
  | nil => intro name h; cases h
  | cons e es ih =>
    intro name h
    obtain ⟨k, r⟩ := e
    by_cases hk : name = k
    · subst hk
      exact ⟨r, by simp [List.lookup], by simp⟩
    · have hmem : name ∈ es.map Prod.fst := by
        rcases List.mem_cons.mp h with h | h
        · exact absurd h hk
        · exact h
      obtain ⟨r1, h1, h2⟩ := ih name hmem
      refine ⟨r1, ?_, by simp [h2]⟩
      have hbeq : (name == k) = false := by simpa using hk
      simp [List.lookup, hbeq, h1]

/-- The formatter of 09_dynamic_chunks.cpp writes the entries of the sorted
names joined by `, ` and wrapped in braces. -/
theorem format_output09_eq (db : MergedMap) (hcnt : ∀ e ∈ db, e.2.cnt ≠ 0) :
    format_output09 db = .ok (bytes "\x7b" ++
      List.intercalate (bytes ", ") (db.names.map (fun k => entryBytes k (db.valueAt k))) ++
      bytes "\x7d\n") := by
  have h : ∀ e ∈ db.names.map (fun name => (name, db.valueAt name)), e.2.cnt ≠ 0 := by
    intro e he
    obtain ⟨name, hn, rfl⟩ := List.mem_map.mp he
    have hmem : name ∈ db.map Prod.fst := (List.mem_insertionSort _).mp hn
    obtain ⟨r, hr, hin⟩ := lookup_of_mem_keys db name hmem
    simp only [MergedMap.valueAt, hr, Option.getD_some]
    exact hcnt _ hin
  unfold format_output09
  rw [format_loop_eq _ h, List.map_map]
  rfl

theorem natDigitsAux_isDigit :
    ∀ (fuel n : Nat) (acc : List Nat), (∀ c ∈ acc, isDigit c) →
      ∀ c ∈ natDigitsAux fuel n acc, isDigit c := by
  intro fuel
  induction fuel with
  | zero => intro n acc h; simpa [natDigitsAux] using h
  | succ f ih =>
    intro n acc h
    rw [natDigitsAux]
    by_cases hn : n < 10
    · rw [if_pos hn]
      intro c hc
      rcases List.mem_cons.mp hc with hc | hc
      · rw [hc]; unfold isDigit; omega
      · exact h c hc
    · rw [if_neg hn]
      apply ih
      intro c hc
      rcases List.mem_cons.mp hc with hc | hc
      · rw [hc]; unfold isDigit; omega
      · exact h c hc

/-- Every number is printed with exactly one fractional digit: the text
ends with `.` and one digit, and has no other `.`. -/
theorem fmt1_shape (q : Int) :
    ∃ ds d, fmt1 q = ds ++ [46, d] ∧ isDigit d ∧ 46 ∉ ds := by
  refine ⟨(if q < 0 then [45] else []) ++ natDigits (q.natAbs / 10), 48 + q.natAbs % 10,
    rfl, by unfold isDigit; omega, ?_⟩
  intro h
  rcases List.mem_append.mp h with h | h
  · split at h <;> simp at h
  · have := natDigitsAux_isDigit _ _ [] (by simp) 46 h
    unfold isDigit at this; omega

/-- The keys of the sorted `filled_` are the distinct keys of the buffer in
ascending order. -/
theorem sort_slots_keys {db : DB} {ls : List Line} (inv : TableInv db ls)
    (hwf : ∀ l ∈ ls, l.WellFormed) :
    db.sort_slots.filled_.map db.keys_ = sortedKeys ls := by
  have hocc : ∀ s ∈ db.filled_, db.keys_ s ≠ [] := fun s hs => (inv.filled s).mp hs
  haveI : IsTotal Nat (fun a b => ¬ db.keys_ b < db.keys_ a) :=
    ⟨fun a b => by
      rcases le_total (db.keys_ a) (db.keys_ b) with h | h
      · exact Or.inl (not_lt.mpr h)
      · exact Or.inr (not_lt.mpr h)⟩
  haveI : IsTrans Nat (fun a b => ¬ db.keys_ b < db.keys_ a) :=
    ⟨fun a b c h1 h2 => not_lt.mpr (le_trans (not_lt.mp h1) (not_lt.mp h2))⟩
  have hsorted := List.sorted_insertionSort (fun a b => ¬ db.keys_ b < db.keys_ a) db.filled_
  have hperm := List.perm_insertionSort (fun a b => ¬ db.keys_ b < db.keys_ a) db.filled_
  have hs1 : List.Sorted (fun a b : List Nat => a ≤ b) (db.sort_slots.filled_.map db.keys_) := by
    unfold List.Sorted
    rw [List.pairwise_map]
    exact List.Pairwise.imp (fun h => not_lt.mp h) hsorted
  have hs2 : List.Sorted (fun a b : List Nat => a ≤ b) (sortedKeys ls) :=
    List.sorted_insertionSort _ _
  have hnd1 : (db.filled_.map db.keys_).Nodup :=
    List.Nodup.map_on (fun x hx y _ hxy => inv.inj (hocc x hx) hxy) inv.nodup
  have hp1 : (db.sort_slots.filled_.map db.keys_).Perm (db.filled_.map db.keys_) :=
    List.Perm.map _ hperm
  have hp2 : (db.filled_.map db.keys_).Perm (keysOf ls).dedup := by
    rw [List.perm_ext_iff_of_nodup hnd1 (List.nodup_dedup _)]
    intro k
    rw [List.mem_dedup, List.mem_map]
    constructor
    · rintro ⟨s, hs, rfl⟩
      exact inv.key_mem (hocc s hs)
    · intro hk
      simp only [keysOf, List.mem_map] at hk
      obtain ⟨l, hl, rfl⟩ := hk
      obtain ⟨s, hs⟩ := inv.complete l hl
      exact ⟨s, (inv.filled s).mpr (by rw [hs]; exact (hwf l hl).1), hs⟩
  have hp3 : (keysOf ls).dedup.Perm (sortedKeys ls) :=
    (List.perm_insertionSort _ _).symm
  exact List.eq_of_perm_of_sorted ((hp1.trans hp2).trans hp3) hs1 hs2

/-- On a table that satisfies the invariant `format_output` writes the
entries of the distinct keys in ascending order. -/
theorem format_output_of_inv {db : DB} {ls : List Line} (inv : TableInv db ls)
    (hwf : ∀ l ∈ ls, l.WellFormed) :
    format_output db = .ok (bytes "\x7b" ++
      List.intercalate (bytes ", ") ((sortedKeys ls).map (entryOf ls)) ++ bytes "\x7d\n") := by
  have hmem : ∀ s ∈ db.sort_slots.filled_, db.keys_ s ≠ [] := by
    intro s hs
    exact (inv.filled s).mp ((List.mem_insertionSort _).mp hs)
  have hcnt : ∀ e ∈ db.sort_slots.filled_.map
      (fun k => (db.sort_slots.keys_ k, db.sort_slots.values_ k)), e.2.cnt ≠ 0 := by
    intro e he
    obtain ⟨s, hs, rfl⟩ := List.mem_map.mp he
    exact isStatsOf_cnt_ne_zero (inv.stats s (hmem s hs))
  have hentries : (db.sort_slots.filled_.map
      (fun k => (db.sort_slots.keys_ k, db.sort_slots.values_ k))).map
        (fun e => entryBytes e.1 e.2)
      = (db.sort_slots.filled_.map db.keys_).map (entryOf ls) := by
    rw [List.map_map, List.map_map]
    apply List.map_congr_left
    intro s hs
    have hst := isStatsOf_eq (inv.stats s (hmem s hs))
    show entryBytes (db.keys_ s) (db.values_ s) = entryOf ls (db.keys_ s)
    rw [hst]
    rfl
  unfold format_output
  rw [format_loop_eq _ hcnt, hentries, sort_slots_keys inv hwf]

/-! ## The scan and the summary -/

/-- The scan of a buffer whose value tokens all have one fractional digit:
for every buffer of `key;value\n` records of well-formed lines (non-empty
keys, every scaled value within the `int16_t` range, fewer than 65536
distinct keys; the buffer shorter than 2^47 bytes, so that the 64-bit
count and sum cannot overflow), `process_input` returns a table in which
each key k of the buffer occupies exactly one slot, whose stats are
cnt = the number of records with key k, sum = the total of their scaled
values, min = the smallest and max = the largest of them; and no slot
holds a key that does not occur in the buffer. -/
theorem process_input_stats (ls : List Line) (hwf : ∀ l ∈ ls, l.WellFormed)
    (hk : (keysOf ls).dedup.length < 65536) (hlen : (encode ls).length < 2 ^ 47) :
    ∃ db, process_input (encode ls) = .ok db ∧
      (∀ k ∈ keysOf ls, ∃ s, s < 65536 ∧ db.keys_ s = k ∧ (∀ t, db.keys_ t = k → t = s) ∧
        (db.values_ s).cnt = (valuesOf k ls).length ∧
        (db.values_ s).sum = (valuesOf k ls).sum ∧
        ((db.values_ s).min ∈ valuesOf k ls ∧ ∀ x ∈ valuesOf k ls, (db.values_ s).min ≤ x) ∧
        ((db.values_ s).max ∈ valuesOf k ls ∧ ∀ x ∈ valuesOf k ls, x ≤ (db.values_ s).max)) ∧
      (∀ s, db.keys_ s ≠ [] → db.keys_ s ∈ keysOf ls) := by
  have hlen1 : ([] ++ ls).length < 2 ^ 47 :=
    lt_of_le_of_lt (by simpa using length_le_encode_length ls) hlen
  obtain ⟨db, hrun, inv⟩ := process_input_loop_inv ls [] DB.empty (encode ls).length
    tableInv_empty (by simpa using hwf) (by simpa using hk) hlen1 (le_refl _)
  rw [List.nil_append] at inv
  refine ⟨db, hrun, ?_, fun s hs => inv.key_mem hs⟩
  intro k hkm
  simp only [keysOf, List.mem_map] at hkm
  obtain ⟨l, hl, rfl⟩ := hkm
  obtain ⟨s, hs⟩ := inv.complete l hl
  have hne : db.keys_ s ≠ [] := by rw [hs]; exact (hwf l hl).1
  have hst := inv.stats s hne
  rw [hs] at hst
  refine ⟨s, inv.slot_lt hne, hs, ?_, hst⟩
  intro t ht
  exact inv.inj (by rw [ht]; exact (hwf l hl).1) (ht.trans hs.symm)

theorem process_input_stats_witness :
    ∃ db, process_input (bytes "x;1.0\ny;2.5\nx;3.0\n") = .ok db ∧
      (∀ k ∈ [[120], [121], [120]], ∃ s, s < 65536 ∧ db.keys_ s = k ∧
        (∀ t, db.keys_ t = k → t = s) ∧
        (db.values_ s).cnt = (valuesOf k
          [⟨[120], ⟨false, [49], some 48⟩⟩, ⟨[121], ⟨false, [50], some 53⟩⟩,
            ⟨[120], ⟨false, [51], some 48⟩⟩]).length ∧
        (db.values_ s).sum = (valuesOf k
          [⟨[120], ⟨false, [49], some 48⟩⟩, ⟨[121], ⟨false, [50], some 53⟩⟩,
            ⟨[120], ⟨false, [51], some 48⟩⟩]).sum ∧
        ((db.values_ s).min ∈ valuesOf k
          [⟨[120], ⟨false, [49], some 48⟩⟩, ⟨[121], ⟨false, [50], some 53⟩⟩,
            ⟨[120], ⟨false, [51], some 48⟩⟩] ∧
          ∀ x ∈ valuesOf k
            [⟨[120], ⟨false, [49], some 48⟩⟩, ⟨[121], ⟨false, [50], some 53⟩⟩,
              ⟨[120], ⟨false, [51], some 48⟩⟩], (db.values_ s).min ≤ x) ∧
        ((db.values_ s).max ∈ valuesOf k
          [⟨[120], ⟨false, [49], some 48⟩⟩, ⟨[121], ⟨false, [50], some 53⟩⟩,
            ⟨[120], ⟨false, [51], some 48⟩⟩] ∧
          ∀ x ∈ valuesOf k
            [⟨[120], ⟨false, [49], some 48⟩⟩, ⟨[121], ⟨false, [50], some 53⟩⟩,
              ⟨[120], ⟨false, [51], some 48⟩⟩], x ≤ (db.values_ s).max)) ∧
      (∀ s, db.keys_ s ≠ [] → db.keys_ s ∈ [[120], [121], [120]]) :=
  process_input_stats
    [⟨[120], ⟨false, [49], some 48⟩⟩, ⟨[121], ⟨false, [50], some 53⟩⟩,
      ⟨[120], ⟨false, [51], some 48⟩⟩]
    (by decide) (by decide) (by decide)

/-- The summary of a buffer whose value tokens all have one fractional
digit: the formatted output is `{`, then one entry `key=min/mean/max` per
distinct key, of its scaled values (in ascending byte-wise order)
joined by `, `, then `}` and a newline; every number is printed with
exactly one fractional digit; the formatter of 09_dynamic_chunks.cpp writes
a merged map in the same shape; and the input `x;1.0\ny;2.5\nx;3.0\n`
produces exactly `{x=1.0/2.0/3.0, y=2.5/2.5/2.5}\n`. -/
theorem summarize_output (ls : List Line) (hwf : ∀ l ∈ ls, l.WellFormed)
    (hk : (keysOf ls).dedup.length < 65536) (hlen : (encode ls).length < 2 ^ 47) :
    summarize (encode ls) = .ok (bytes "\x7b" ++
        List.intercalate (bytes ", ") ((sortedKeys ls).map (entryOf ls)) ++ bytes "\x7d\n") ∧
      ((sortedKeys ls).Nodup ∧ (∀ k, k ∈ sortedKeys ls ↔ k ∈ keysOf ls) ∧
        List.Sorted (fun a b : List Nat => a < b) (sortedKeys ls)) ∧
      (∀ q : Int, ∃ ds d, fmt1 q = ds ++ [46, d] ∧ isDigit d ∧ 46 ∉ ds) ∧
      (∀ merged : MergedMap, (∀ e ∈ merged, e.2.cnt ≠ 0) →
        format_output09 merged = .ok (bytes "\x7b" ++
          List.intercalate (bytes ", ")
            (merged.names.map (fun k => entryBytes k (merged.valueAt k))) ++ bytes "\x7d\n")) ∧
      summarize (bytes "x;1.0\ny;2.5\nx;3.0\n")
        = .ok (bytes "\x7bx=1.0/2.0/3.0, y=2.5/2.5/2.5\x7d\n") := by
  have hlen1 : ([] ++ ls).length < 2 ^ 47 :=
    lt_of_le_of_lt (by simpa using length_le_encode_length ls) hlen
  obtain ⟨db, hrun, inv⟩ := process_input_loop_inv ls [] DB.empty (encode ls).length
    tableInv_empty (by simpa using hwf) (by simpa using hk) hlen1 (le_refl _)
  rw [List.nil_append] at inv
  have hperm : (sortedKeys ls).Perm (keysOf ls).dedup := List.perm_insertionSort _ _
  have hnd : (sortedKeys ls).Nodup := hperm.nodup_iff.mpr (List.nodup_dedup _)
  have hsorted : List.Sorted (fun a b : List Nat => a ≤ b) (sortedKeys ls) :=
    List.sorted_insertionSort _ _
  refine ⟨?_, ⟨hnd, ?_, ?_⟩, fmt1_shape, format_output09_eq, by decide⟩
  · unfold summarize
    have hrun1 : process_input (encode ls) = .ok db := hrun
    rw [hrun1]
    exact format_output_of_inv inv hwf
  · intro k
    rw [hperm.mem_iff, List.mem_dedup]
  · unfold List.Sorted at hsorted ⊢
    have hne : List.Pairwise (fun a b : List Nat => a ≠ b) (sortedKeys ls) := hnd
    exact (hsorted.and hne).imp (fun h => lt_of_le_of_ne h.1 h.2)

theorem summarize_output_witness :
    summarize (bytes "y;-0.3\nx;-1.0\nx;-2.0\nA;1.0\nA;2.0\nA;4.0\n")
      = .ok (bytes "\x7bA=1.0/2.3/4.0, x=-2.0/-1.5/-1.0, y=-0.3/-0.3/-0.3\x7d\n") :=
  (summarize_output
    [⟨[121], ⟨true, [48], some 51⟩⟩, ⟨[120], ⟨true, [49], some 48⟩⟩,
      ⟨[120], ⟨true, [50], some 48⟩⟩, ⟨[65], ⟨false, [49], some 48⟩⟩,
      ⟨[65], ⟨false, [50], some 48⟩⟩, ⟨[65], ⟨false, [52], some 48⟩⟩]
    (by decide) (by decide) (by decide)).1

/-! ## The numeric parser -/

/-- C3: for every value token with exactly one fractional digit (optional
`-`, one or more digits, `.`, one digit, newline) whose scaled value fits
`int16_t`, `parse_int_table` returns the scaled value
sign × (10 × integer part + fractional digit) and leaves the cursor just
after the newline. -/
theorem parse_int_table_scaled (t : ValueToken) (ht : t.Valid) (f : Nat)
    (hfrac : t.frac = some f) (hr : isInt16 t.scaled) (rest : List Nat) :
    parse_int_table (t.toBytes ++ 10 :: rest) = .ok (t.scaled, rest) := by
  have hd : t.digitsRead = t.scaled := by
    unfold ValueToken.digitsRead ValueToken.scaled; rw [hfrac]
  rw [parse_int_table_token t ht rest, tokenResult_eq_digitsRead t (hd ▸ hr), hd]

theorem parse_int_table_scaled_witness :
    parse_int_table (bytes "-12.3\nab") = .ok (-123, bytes "ab") :=
  parse_int_table_scaled ⟨true, [49, 50], some 51⟩ (by decide) 51 rfl (by decide) [97, 98]

/-- C4, as stated, fails: the token `12` matches the grammar and its value
scaled by ten is 120, but `parse_int_table` returns 12. -/
theorem parse_int_table_no_fraction_counterexample :
    (ValueToken.mk false [49, 50] none).Valid ∧
    (ValueToken.mk false [49, 50] none).toBytes ++ [10] = bytes "12\n" ∧
    (ValueToken.mk false [49, 50] none).scaled = 120 ∧
    parse_int_table (bytes "12\n") = .ok (12, []) ∧
    parse_int_table (bytes "12\n") ≠ .ok ((ValueToken.mk false [49, 50] none).scaled, []) := by
  decide

/-- C4, amended: for every value token of the grammar `-?\d+(\.\d)?`
followed by a newline, `parse_int_table` returns the signed number its
digits denote when the `.` is skipped (provided it fits `int16_t`): the
value scaled by ten when the fractional digit is present, the unscaled
integer value when it is absent. -/
theorem parse_int_table_digits (t : ValueToken) (ht : t.Valid)
    (hr : isInt16 t.digitsRead) (rest : List Nat) :
    parse_int_table (t.toBytes ++ 10 :: rest) = .ok (t.digitsRead, rest) ∧
      (t.frac.isSome → t.digitsRead = t.scaled) ∧
      (t.frac = none → 10 * t.digitsRead = t.scaled) := by
  refine ⟨?_, ?_, ?_⟩
  · rw [parse_int_table_token t ht rest, tokenResult_eq_digitsRead t hr]
  · intro h
    obtain ⟨f, hf⟩ := Option.isSome_iff_exists.mp h
    unfold ValueToken.digitsRead ValueToken.scaled; rw [hf]
  · intro h
    unfold ValueToken.digitsRead ValueToken.scaled; rw [h]
    simp only; ring

theorem parse_int_table_digits_witness :
    parse_int_table (bytes "-12\nab") = .ok (-12, bytes "ab") ∧
      (ValueToken.mk true [49, 50] none).scaled = -120 :=
  ⟨(parse_int_table_digits ⟨true, [49, 50], none⟩ (by decide) (by decide) [97, 98]).1,
    by decide⟩

/-- C5: for every value token of the grammar, `parse_value` of
05_fixed_point.cpp and `parse_int_table` of 07_better_parsing.cpp return
the same `int16_t` result, also when the 16-bit arithmetic wraps around,
and leave the cursor at the same position (just after the newline). -/
theorem parse_value_eq_parse_int_table (t : ValueToken) (ht : t.Valid) (rest : List Nat) :
    ∃ v, isInt16 v ∧ parse_value (t.toBytes ++ 10 :: rest) = .ok (v, rest) ∧
      parse_int_table (t.toBytes ++ 10 :: rest) = .ok (v, rest) := by
  refine ⟨tokenResult t, ?_, parse_value_token t ht rest, parse_int_table_token t ht rest⟩
  unfold tokenResult
  split
  · exact wrap16_isInt16 _
  · cases hf : t.frac with
    | none => simpa [fracStep] using accW_isInt16 (by decide) t.ipart
    | some f => simpa [fracStep] using wrap16_isInt16 _

theorem parse_value_eq_parse_int_table_witness :
    ∃ v, isInt16 v ∧ parse_value (bytes "-99999.9\nab") = .ok (v, bytes "ab") ∧
      parse_int_table (bytes "-99999.9\nab") = .ok (v, bytes "ab") :=
  parse_value_eq_parse_int_table ⟨true, [57, 57, 57, 57, 57], some 57⟩ (by decide) [97, 98]

/-- C6 fails on the code: on the token `-10.3` of the benchmark's test data
`parse_int_base` returns 2897 (it runs the `-` through the digit
accumulation, then negates), while `parse_int_table` returns -103. -/
theorem parse_int_base_negative_differs :
    Bench.parse_int_base (bytes "-10.3\n") = .ok (2897, []) ∧
    Bench.parse_int_table (bytes "-10.3\n") = .ok (-103, []) ∧
    Bench.parse_int_base (bytes "-10.3\n") ≠ Bench.parse_int_table (bytes "-10.3\n") := by
  decide

/-! ## The aggregation table -/

/-- C7, as stated, fails for the empty key, which the data model allows:
the second `record` finds the slot still empty and starts over, leaving
count = 1 and sum = min = max = v2. -/
theorem record_round_trip_empty_key_counterexample :
    statsAfter capacity07 [⟨[], 0, 10⟩, ⟨[], 0, 20⟩] [] 0 = .ok ⟨1, 20, 20, 20⟩ ∧
    statsAfter capacity07 [⟨[], 0, 10⟩, ⟨[], 0, 20⟩] [] 0
      ≠ .ok ⟨2, 10 + 20, min 10 20, max 10 20⟩ := by
  decide

/-- C7, amended: for every non-empty key, every hash and all `int16_t`
values v, v2: on an empty table `record(k, v)` leaves k's stats at
count = 1, sum = min = max = v, and a second `record(k, v2)` leaves them at
count = 2, sum = v + v2, min = min(v, v2), max = max(v, v2). -/
theorem record_round_trip (k : List Nat) (h : Nat) (v v2 : Int) (hk : k ≠ [])
    (hv : isInt16 v) (hv2 : isInt16 v2) :
    statsAfter capacity07 [⟨k, h, v⟩] k h = .ok ⟨1, v, v, v⟩ ∧
    statsAfter capacity07 [⟨k, h, v⟩, ⟨k, h, v2⟩] k h
      = .ok ⟨2, v + v2, min v v2, max v v2⟩ := by
  have hlt : h % 65536 < capacity07 := Nat.mod_lt _ (by decide)
  have hl0 : ∀ x, lookup_slot capacity07 DB.empty ⟨k, h, x⟩ = .ok (h % 65536) := by
    intro x
    have := lookup_slot_loop_first capacity07 DB.empty.keys_ k (by decide) 0 65536
      (h % 65536) (by decide) hlt (Or.inl rfl) (by intro j hj; omega)
    rw [Nat.add_zero, Nat.mod_mod] at this
    exact this
  have hr1 := record_miss (hl0 v) hlt rfl
  have hl1 : ∀ (vals : Nat → Record) (fl : List Nat) (x : Int),
      lookup_slot capacity07 ⟨setAt DB.empty.keys_ (h % 65536) k, vals, fl⟩ ⟨k, h, x⟩
        = .ok (h % 65536) := by
    intro vals fl x
    have := lookup_slot_loop_first capacity07 (setAt DB.empty.keys_ (h % 65536) k) k
      (by decide) 0 65536 (h % 65536) (by decide) hlt
      (by rw [Nat.add_zero, Nat.mod_mod]; exact Or.inr (by simp [setAt]))
      (by intro j hj; omega)
    rw [Nat.add_zero, Nat.mod_mod] at this
    exact this
  have hr2 := record_hit (hl1 (setAt DB.empty.values_ (h % 65536) ⟨1, v, v, v⟩)
    (DB.empty.filled_ ++ [h % 65536]) v2) hlt (by simpa [setAt] using hk)
  have hw1 : wrap64 (v + v2) = v + v2 := by
    unfold isInt16 at hv hv2; unfold wrap64; omega
  have hw2 : wrap64 (1 + 1) = 2 := by decide
  constructor
  · unfold statsAfter
    rw [DB.recordAll, hr1]
    simp only [DB.recordAll, DB.stats]
    rw [hl1]
    simp [setAt]
  · unfold statsAfter
    rw [DB.recordAll, hr1]
    simp only
    rw [DB.recordAll, hr2]
    simp only [DB.recordAll, DB.stats]
    rw [hl1]
    simp only [setAt, if_true]
    rw [update_first v v2 hv hv2]

theorem record_round_trip_witness :
    statsAfter capacity07 [⟨[120], 120, 25⟩] [120] 120 = .ok ⟨1, 25, 25, 25⟩ ∧
    statsAfter capacity07 [⟨[120], 120, 25⟩, ⟨[120], 120, -7⟩] [120] 120
      = .ok ⟨2, 25 + -7, min 25 (-7), max 25 (-7)⟩ :=
  record_round_trip [120] 120 25 (-7) (by decide) (by decide) (by decide)

/-- C8: for every table of 07_better_parsing.cpp with at least one empty
slot, every key and every hash, `lookup_slot` returns the first index in
the probe order hash, hash+1, hash+2, … (modulo 65536) whose slot is empty
or stores the given key. -/
theorem lookup_slot_first (db : DB) (m : Measurement)
    (he : ∃ e, e < 65536 ∧ db.keys_ e = []) :
    ∃ n, n < 65536 ∧
      lookup_slot capacity07 db m = .ok ((m.hash + n) % 65536) ∧
      (db.keys_ ((m.hash + n) % 65536) = [] ∨ db.keys_ ((m.hash + n) % 65536) = m.name) ∧
      ∀ j, j < n → db.keys_ ((m.hash + j) % 65536) ≠ [] ∧
        db.keys_ ((m.hash + j) % 65536) ≠ m.name := by
  obtain ⟨n, hn, hstop, hbefore⟩ := exists_first_stop db.keys_ m.name (m.hash % 65536) he
  have hmod : ∀ j, (m.hash % 65536 + j) % 65536 = (m.hash + j) % 65536 := by
    intro j; omega
  refine ⟨n, hn, ?_, ?_, ?_⟩
  · rw [← hmod]
    exact lookup_slot_loop_first capacity07 db.keys_ m.name (by decide) n 65536
      (m.hash % 65536) hn (Nat.mod_lt _ (by decide)) hstop hbefore
  · rw [← hmod]; exact hstop
  · intro j hj
    have := hbefore j hj
    rw [hmod] at this
    unfold stopsAt at this
    exact ⟨fun h => this (Or.inl h), fun h => this (Or.inr h)⟩

theorem lookup_slot_first_witness :
    ∃ n, n < 65536 ∧
      lookup_slot capacity07 ⟨setAt DB.empty.keys_ 65535 [121], DB.empty.values_, [65535]⟩
        ⟨[120], 65535, 0⟩ = .ok ((65535 + n) % 65536) ∧
      (setAt DB.empty.keys_ 65535 [121] ((65535 + n) % 65536) = [] ∨
        setAt DB.empty.keys_ 65535 [121] ((65535 + n) % 65536) = [120]) ∧
      ∀ j, j < n → setAt DB.empty.keys_ 65535 [121] ((65535 + j) % 65536) ≠ [] ∧
        setAt DB.empty.keys_ 65535 [121] ((65535 + j) % 65536) ≠ [120] :=
  lookup_slot_first ⟨setAt DB.empty.keys_ 65535 [121], DB.empty.values_, [65535]⟩
    ⟨[120], 65535, 0⟩ ⟨0, by decide, by decide⟩

/-- C9, as stated, fails for the empty key: `record` takes its insert branch
for the empty key at slot 7 (hash 7), but the slot stays empty, a later
`record` of the key `x` with hash 7 occupies it, and `lookup_slot` for the
empty key then returns slot 8. -/
theorem lookup_slot_unstable_empty_key_counterexample :
    lookup_slot capacity07 DB.empty ⟨[], 7, 10⟩ = .ok 7 ∧
    filledAfter capacity07 DB.empty [⟨[], 7, 10⟩] = .ok [7] ∧
    lookupAfter capacity07 DB.empty [⟨[], 7, 10⟩, ⟨[120], 7, 20⟩] ⟨[], 7, 10⟩ = .ok 8 ∧
    lookupAfter capacity07 DB.empty [⟨[], 7, 10⟩, ⟨[120], 7, 20⟩] ⟨[], 7, 10⟩ ≠ .ok 7 := by
  decide

/-- C9, amended (slot stability): once `record` has inserted a non-empty key
k, with its hash h, into slot s, then after any further sequence of
`record` calls on the same table `lookup_slot(k, h)` still returns s, and
s still holds k. -/
theorem lookup_slot_stable (db0 db1 db2 : DB) (m : Measurement) (s : Nat)
    (ms : List Measurement) (v : Int) (hk : m.name ≠ [])
    (hs : lookup_slot capacity07 db0 m = .ok s)
    (hrec : db0.record capacity07 m = .ok db1)
    (hmore : DB.recordAll capacity07 db1 ms = .ok db2) :
    lookup_slot capacity07 db2 ⟨m.name, m.hash, v⟩ = .ok s ∧ db2.keys_ s = m.name := by
  have hlt : m.hash % 65536 < 65536 := Nat.mod_lt _ (by decide)
  obtain ⟨n, hn, hsn, _, _, hbefore⟩ :=
    lookup_slot_loop_ok capacity07 db0.keys_ m.name 65536 (m.hash % 65536) s hlt hs
  have hks1 : db1.keys_ s = m.name := record_keys_at_slot hrec hs
  have hks2 : db2.keys_ s = m.name := by
    rw [recordAll_keys_of_occupied ms hmore (by rw [hks1]; exact hk), hks1]
  have hpath : ∀ j, j < n → ¬ stopsAt db2.keys_ m.name ((m.hash % 65536 + j) % 65536) := by
    intro j hj
    have h0 := hbefore j hj
    unfold stopsAt at h0
    have hne : db0.keys_ ((m.hash % 65536 + j) % 65536) ≠ [] := fun h => h0 (Or.inl h)
    have e1 := record_keys_of_occupied hrec hne
    have e2 := recordAll_keys_of_occupied ms hmore (by rw [e1]; exact hne)
    unfold stopsAt
    rw [e2, e1]
    exact h0
  refine ⟨?_, hks2⟩
  have := lookup_slot_loop_first capacity07 db2.keys_ m.name (by decide) n 65536
    (m.hash % 65536) hn hlt (by rw [← hsn]; exact Or.inr hks2) hpath
  rw [← hsn] at this
  exact this

theorem lookup_slot_stable_witness :
    ∃ db1 db2,
      DB.record capacity07 ⟨setAt DB.empty.keys_ 7 [120], DB.empty.values_, [7]⟩
        ⟨[121], 7, 25⟩ = .ok db1 ∧
      DB.recordAll capacity07 db1 [⟨[120], 7, 30⟩, ⟨[122], 6, 1⟩, ⟨[123], 8, 1⟩] = .ok db2 ∧
      lookup_slot capacity07 db2 ⟨[121], 7, 0⟩ = .ok 8 ∧ db2.keys_ 8 = [121] :=
  have hs : lookup_slot capacity07 ⟨setAt DB.empty.keys_ 7 [120], DB.empty.values_, [7]⟩
      ⟨[121], 7, 25⟩ = .ok 8 := by decide
  have hrun : ∃ db1 db2,
      DB.record capacity07 ⟨setAt DB.empty.keys_ 7 [120], DB.empty.values_, [7]⟩
        ⟨[121], 7, 25⟩ = .ok db1 ∧
      DB.recordAll capacity07 db1 [⟨[120], 7, 30⟩, ⟨[122], 6, 1⟩, ⟨[123], 8, 1⟩] = .ok db2 :=
    ⟨_, _, rfl, rfl⟩
  match hrun with
  | ⟨db1, db2, hrec, hmore⟩ =>
    ⟨db1, db2, hrec, hmore,
      lookup_slot_stable _ db1 db2 ⟨[121], 7, 25⟩ 8 _ 0 (by decide) hs hrec hmore⟩

/-- C10 fails on the code: the tables of 09_dynamic_chunks.cpp and
06_custom_hash.cpp have `UINT16_MAX` = 65535 slots, so index 65535 is
outside `keys_` and `values_`.  The key `aAzzw` hashes to 65535, and
scanning the line `aAzzw;1.0` into an empty table of 09_dynamic_chunks.cpp
reads `keys_[65535]`; the same line is recorded without a fault in the
65536-slot table of 07_better_parsing.cpp. -/
theorem record_index_out_of_bounds :
    capacity09 = 65535 ∧
    keyHash (bytes "aAzzw") = 65535 ∧
    lookup_slot capacity09 DB.empty ⟨bytes "aAzzw", 65535, 10⟩ = .error .outOfBounds ∧
    (match process_input09 DB.empty (bytes "aAzzw;1.0\n") with
      | .ok _ => none
      | .error e => some e) = some Fault.outOfBounds ∧
    (match process_input (bytes "aAzzw;1.0\n") with
      | .ok db => some (db.filled_, db.keys_ 65535, db.values_ 65535)
      | .error _ => none) = some ([65535], bytes "aAzzw", ⟨1, 10, 10, 10⟩) := by
  decide

/-! ## Lemmas on the chunk allocator -/

theorem scan_newline_bounds (tail : List Nat) :
    ∀ e, e ≤ scan_newline tail e ∧ scan_newline tail e ≤ e + tail.length := by
  induction tail with
  | nil => intro e; simp [scan_newline]
  | cons c tail ih =>
    intro e
    rw [scan_newline]
    by_cases hc : c = 10
    · rw [if_pos hc]; simp
    · rw [if_neg hc]
      have := ih (e + 1)
      simp only [List.length_cons]
      omega

/-- When exactly `target` bytes remain, the span ends one past the end of
the buffer. -/
theorem next_chunk_exact (target : Nat) (data : List Nat) (chunk_begin : Nat)
    (hpos : 0 < target) (hlen : chunk_begin + target = data.length) :
    next_chunk target data chunk_begin
      = (some (chunk_begin, data.length + 1), data.length + 1) := by
  unfold next_chunk
  rw [if_neg (by omega), if_neg (by omega), hlen, List.drop_length]
  rfl

/-- Once the cursor is at the end of the buffer a call returns `{}` and
leaves the cursor unchanged. -/
theorem next_chunk_exhausted (target : Nat) (data : List Nat) :
    next_chunk target data data.length = (none, data.length) := by
  unfold next_chunk
  rw [if_pos rfl]

theorem next_chunk_cursor (target : Nat) (data : List Nat) (c : Nat) (hc : c < data.length) :
    c < (next_chunk target data c).2 ∧ (next_chunk target data c).2 ≤ data.length + 1 := by
  unfold next_chunk
  rw [if_neg (by omega)]
  by_cases h : c + target > data.length
  · rw [if_pos h]; simp only; omega
  · rw [if_neg h]
    have hb := scan_newline_bounds (data.drop (c + target)) (c + target)
    rw [List.length_drop] at hb
    simp only
    omega

/-- From every cursor, some call of `next_chunk` returns `{}`. -/
theorem next_chunk_terminates (target : Nat) (data : List Nat) :
    ∀ (m c : Nat), data.length - c ≤ m →
      ∃ n, (next_chunk target data (cursor_after target data n c)).1 = none := by
  have hover : ∀ c, data.length ≤ c →
      ∃ n, (next_chunk target data (cursor_after target data n c)).1 = none := by
    intro c hc
    by_cases heq : c = data.length
    · exact ⟨0, by rw [cursor_after, heq, next_chunk_exhausted]⟩
    · refine ⟨1, ?_⟩
      have h1 : next_chunk target data c = (some (c, data.length), data.length) := by
        unfold next_chunk
        rw [if_neg heq, if_pos (by omega)]
      rw [cursor_after, cursor_after, h1, next_chunk_exhausted]
  intro m
  induction m with
  | zero => intro c hc; exact hover c (by omega)
  | succ m ih =>
    intro c hc
    by_cases hge : data.length ≤ c
    · exact hover c hge
    · have hcur := next_chunk_cursor target data c (by omega)
      obtain ⟨n, hn⟩ := ih (next_chunk target data c).2 (by omega)
      exact ⟨n + 1, by rw [cursor_after]; exact hn⟩

/-! ## The chunk allocator -/

/-- C11 fails on the code: when exactly the target size remains in the
buffer, `next_chunk` steps `end` over the buffer end.  For the buffer
`a;1.0\n` and target 6 the spans are [0, 7) and [7, 6), not [0, 6); reading
the first one runs past the buffer.  With the source's `chunk_sz` the same
happens for a buffer of 64MB that ends with a newline. -/
theorem next_chunk_concat_overshoots :
    chunk_spans 6 (bytes "a;1.0\n") 8 0 = [(0, 7), (7, 6)] ∧
    span_bytes (bytes "a;1.0\n") (0, 7) = .error .pastEnd ∧
    chunk_spans 5 (bytes "a;1.0\n") 8 0 = [(0, 6)] ∧
    next_chunk chunk_sz (List.replicate (chunk_sz - 1) 97 ++ [10]) 0
      = (some (0, chunk_sz + 1), chunk_sz + 1) := by
  refine ⟨by decide, by decide, by decide, ?_⟩
  have hlen : (List.replicate (chunk_sz - 1) 97 ++ [10]).length = chunk_sz := by
    rw [List.length_append, List.length_replicate]
    decide
  have := next_chunk_exact chunk_sz (List.replicate (chunk_sz - 1) 97 ++ [10]) 0 (by decide)
    (by rw [hlen, Nat.zero_add])
  rw [hlen] at this
  exact this

/-- C12 fails on the code: for the buffer `a;1.0\n` and target 6 the span
returned is [0, 7), which does not lie inside the 6-byte buffer and ends
neither at the buffer end nor just after a newline; the next span is
[7, 6).  With the source's `chunk_sz` a buffer of 64MB gives a span that
ends at 64MB + 1. -/
theorem next_chunk_span_outside_buffer :
    (next_chunk 6 (bytes "a;1.0\n") 0).1 = some (0, 7) ∧
    ¬ SpanOnBoundary (bytes "a;1.0\n") (0, 7) ∧
    (next_chunk 6 (bytes "a;1.0\n") 7).1 = some (7, 6) ∧
    ¬ SpanOnBoundary (bytes "a;1.0\n") (7, 6) ∧
    (next_chunk chunk_sz (List.replicate (chunk_sz - 1) 97 ++ [10]) 0).1
      = some (0, (List.replicate (chunk_sz - 1) 97 ++ [10]).length + 1) := by
  refine ⟨by decide, by decide, by decide, by decide, ?_⟩
  have hlen : (List.replicate (chunk_sz - 1) 97 ++ [10]).length = chunk_sz := by
    rw [List.length_append, List.length_replicate]
    decide
  rw [next_chunk_exact chunk_sz (List.replicate (chunk_sz - 1) 97 ++ [10]) 0 (by decide)
    (by rw [hlen, Nat.zero_add])]

/-- C13 fails on the code in one part: for the buffer `a;1.0\n` and target 6
the second call returns the non-empty span [7, 6) and moves the cursor
back from 7 to 6, so a non-empty chunk does not always advance the cursor.
The rest holds: from every cursor some call returns the empty span, and at
the buffer end every call returns the empty span and leaves the cursor
unchanged. -/
theorem next_chunk_cursor_moves_back :
    (next_chunk 6 (bytes "a;1.0\n") 0 = (some (0, 7), 7) ∧
      next_chunk 6 (bytes "a;1.0\n") 7 = (some (7, 6), 6) ∧
      Span.isEmpty (some (7, 6)) = false ∧
      next_chunk 6 (bytes "a;1.0\n") 6 = (none, 6)) ∧
    (∀ (target : Nat) (data : List Nat) (chunk_begin : Nat),
      ∃ n, (next_chunk target data (cursor_after target data n chunk_begin)).1 = none) ∧
    (∀ (target : Nat) (data : List Nat),
      next_chunk target data data.length = (none, data.length)) := by
  refine ⟨by decide, ?_, next_chunk_exhausted⟩
  intro target data c
  exact next_chunk_terminates target data (data.length - c) c (le_refl _)

/-! ## Lemmas on the merger -/

theorem lookup_assign (m : MergedMap) (key : List Nat) (value : Record) (k : List Nat) :
    (m.assign key value).lookup k
      = if k = key then (m.lookup k).map (fun _ => value) else m.lookup k := by
  induction m with
  | nil => simp [MergedMap.assign]
  | cons e m ih =>
    obtain ⟨k0, r0⟩ := e
    unfold MergedMap.assign at ih ⊢
    simp only [List.map_cons]
    by_cases h0 : k0 = key
    · subst h0
      simp only [if_true, List.lookup_cons]
      by_cases hk : k = k0
      · subst hk; simp
      · have hb : (k == k0) = false := by simpa using hk
        simp only [hb, if_neg hk] at ih ⊢
        exact ih
    · simp only [if_neg h0, List.lookup_cons]
      by_cases hk : k = k0
      · subst hk
        simp [h0]
      · have hb : (k == k0) = false := by simpa using hk
        simp only [hb]
        exact ih

theorem lookup_merge_entry (m : MergedMap) (e : List Nat × Record) (k : List Nat) :
    (merge_entry m e).lookup k = if e.1 = k then mergeOpt (m.lookup k) e.2 else m.lookup k := by
  obtain ⟨ke, re⟩ := e
  unfold merge_entry
  simp only
  cases hl : m.lookup ke with
  | none =>
    simp only [List.lookup_append]
    by_cases hk : ke = k
    · subst hk
      simp [hl, mergeOpt, List.lookup_cons]
    · have hb : (k == ke) = false := by simpa using fun h => hk h.symm
      simp [hk, List.lookup_cons, hb]
  | some r =>
    simp only
    rw [lookup_assign]
    by_cases hk : ke = k
    · subst hk
      simp [hl, mergeOpt]
    · rw [if_neg hk, if_neg (fun h => hk (Eq.symm h))]

theorem lookup_foldl_merge_entry (es : List (List Nat × Record)) (k : List Nat) :
    ∀ m : MergedMap, (es.foldl merge_entry m).lookup k
      = (recordsOf es k).foldl mergeOpt (m.lookup k) := by
  induction es with
  | nil => intro m; simp [recordsOf]
  | cons e es ih =>
    intro m
    rw [List.foldl_cons, ih, lookup_merge_entry]
    by_cases hk : e.1 = k
    · simp [recordsOf, hk]
    · simp [recordsOf, hk]

theorem merge_tables_eq_foldl (dbs : List DB) :
    merge_tables dbs = (dbs.flatMap DB.entries).foldl merge_entry [] := by
  have h : ∀ (dbs : List DB) (m : MergedMap),
      dbs.foldl (fun merged db_chunk => db_chunk.entries.foldl merge_entry merged) m
        = (dbs.flatMap DB.entries).foldl merge_entry m := by
    intro dbs
    induction dbs with
    | nil => intro m; rfl
    | cons db dbs ih =>
      intro m
      rw [List.foldl_cons, ih, List.flatMap_cons, List.foldl_append]
  exact h dbs []

/-- The record the merged map stores for a key is the fold of the merge
step over all records the tables hold for that key. -/
theorem lookup_merge_tables (dbs : List DB) (k : List Nat) :
    (merge_tables dbs).lookup k
      = (recordsOf (dbs.flatMap DB.entries) k).foldl mergeOpt none := by
  rw [merge_tables_eq_foldl, lookup_foldl_merge_entry]
  rfl

theorem wrap64_add_comm (a b c : Int) :
    wrap64 (wrap64 (a + b) + c) = wrap64 (wrap64 (a + c) + b) := by
  unfold wrap64; omega

theorem merge_right_comm (a r1 r2 : Record) : (a.merge r1).merge r2 = (a.merge r2).merge r1 := by
  simp only [Record.merge, Record.mk.injEq]
  refine ⟨wrap64_add_comm _ _ _, wrap64_add_comm _ _ _, min_right_comm _ _ _, ?_⟩
  rw [max_assoc, max_comm r1.max, ← max_assoc]

theorem merge_comm (r1 r2 : Record) : r1.merge r2 = r2.merge r1 := by
  simp only [Record.merge, Record.mk.injEq]
  exact ⟨by rw [Int.add_comm], by rw [Int.add_comm], min_comm _ _, max_comm _ _⟩

theorem mergeOpt_rightCommutative : RightCommutative mergeOpt := by
  constructor
  intro b r1 r2
  cases b with
  | none => simp only [mergeOpt]; rw [merge_comm]
  | some a => simp only [mergeOpt]; rw [merge_right_comm]

theorem recordsOf_perm {dbs dbs1 : List DB} (h : dbs.Perm dbs1) (k : List Nat) :
    (recordsOf (dbs.flatMap DB.entries) k).Perm (recordsOf (dbs1.flatMap DB.entries) k) := by
  unfold recordsOf
  exact ((h.flatMap_right DB.entries).filter _).map _

theorem recordsOf_of_nodup (es : List (List Nat × Record)) (k : List Nat)
    (h : (es.map Prod.fst).Nodup) : recordsOf es k = (es.lookup k).toList := by
  induction es with
  | nil => rfl
  | cons e es ih =>
    obtain ⟨k0, r0⟩ := e
    rw [List.map_cons, List.nodup_cons] at h
    by_cases hk : k0 = k
    · subst hk
      have hnone : ∀ e ∈ es, ¬ e.1 = k0 := by
        intro e he heq
        have := List.mem_map_of_mem Prod.fst he
        rw [heq] at this
        exact h.1 this
      have hf : es.filter (fun e => e.1 = k0) = [] := by
        rw [List.filter_eq_nil_iff]
        intro e he
        simpa using hnone e he
      simp [recordsOf, hf, List.lookup_cons]
    · have hb : (k == k0) = false := by simpa using fun hh => hk hh.symm
      have := ih h.2
      simp only [recordsOf] at this
      simp [recordsOf, hk, List.lookup_cons, hb, this]

theorem recordsOf_flatMap (dbs : List DB) (k : List Nat)
    (h : ∀ db ∈ dbs, (db.filled_.map db.keys_).Nodup) :
    recordsOf (dbs.flatMap DB.entries) k = heldBy dbs k := by
  induction dbs with
  | nil => rfl
  | cons db dbs ih =>
    have hdb : (db.entries.map Prod.fst).Nodup := by
      have := h db (by simp)
      simpa [DB.entries, List.map_map, Function.comp_def] using this
    have h1 : recordsOf (db.entries ++ dbs.flatMap DB.entries) k
        = recordsOf db.entries k ++ recordsOf (dbs.flatMap DB.entries) k := by
      simp [recordsOf, List.filter_append]
    rw [List.flatMap_cons, h1, ih (fun x hx => h x (by simp [hx])), recordsOf_of_nodup _ _ hdb]
    unfold heldBy DB.held
    rw [List.filterMap_cons]
    cases db.entries.lookup k <;> rfl

/-- The merge fold over the further records of a key, from a stored record
with `int64_t` count and sum. -/
theorem foldl_mergeOpt_some (rs : List Record) :
    ∀ a : Record, isInt64 a.cnt → isInt64 a.sum →
      rs.foldl mergeOpt (some a) = some
        ⟨wrap64 (a.cnt + (rs.map Record.cnt).sum), wrap64 (a.sum + (rs.map Record.sum).sum),
          (rs.map Record.min).foldl min a.min, (rs.map Record.max).foldl max a.max⟩ := by
  induction rs with
  | nil =>
    intro a hc hs
    have h1 : wrap64 a.cnt = a.cnt := by unfold isInt64 at hc; unfold wrap64; omega
    have h2 : wrap64 a.sum = a.sum := by unfold isInt64 at hs; unfold wrap64; omega
    simp [h1, h2]
  | cons r rs ih =>
    intro a _ _
    have hc1 : isInt64 (a.merge r).cnt := by
      simp only [Record.merge]; unfold isInt64 wrap64; omega
    have hs1 : isInt64 (a.merge r).sum := by
      simp only [Record.merge]; unfold isInt64 wrap64; omega
    rw [List.foldl_cons, mergeOpt, ih _ hc1 hs1]
    have e1 : wrap64 ((a.merge r).cnt + (rs.map Record.cnt).sum)
        = wrap64 (a.cnt + ((r :: rs).map Record.cnt).sum) := by
      simp only [Record.merge, List.map_cons, List.sum_cons]; unfold wrap64; omega
    have e2 : wrap64 ((a.merge r).sum + (rs.map Record.sum).sum)
        = wrap64 (a.sum + ((r :: rs).map Record.sum).sum) := by
      simp only [Record.merge, List.map_cons, List.sum_cons]; unfold wrap64; omega
    rw [e1, e2]
    rfl

/-- The merge fold over the records of a key: sums on `int64_t`, the
smallest minimum and the largest maximum. -/
theorem foldl_mergeOpt_none (r : Record) (rs : List Record)
    (hc : isInt64 r.cnt) (hs : isInt64 r.sum) :
    (r :: rs).foldl mergeOpt none = some
      ⟨wrap64 (((r :: rs).map Record.cnt).sum), wrap64 (((r :: rs).map Record.sum).sum),
        minOf ((r :: rs).map Record.min), maxOf ((r :: rs).map Record.max)⟩ := by
  rw [List.foldl_cons, mergeOpt, foldl_mergeOpt_some rs r hc hs]
  simp [minOf, maxOf]

theorem mem_keys_iff_lookup (m : MergedMap) (k : List Nat) :
    k ∈ m.map Prod.fst ↔ ∃ r, m.lookup k = some r := by
  induction m with
  | nil => simp
  | cons e m ih =>
    obtain ⟨k0, r0⟩ := e
    by_cases hk : k = k0
    · subst hk; simp [List.lookup_cons]
    · have hb : (k == k0) = false := by simpa using hk
      simp [List.lookup_cons, hb, hk, ← ih]

theorem mem_heldBy {dbs : List DB} {k : List Nat} {r : Record} (h : r ∈ heldBy dbs k) :
    ∃ db ∈ dbs, ∃ idx ∈ db.filled_, db.keys_ idx = k ∧ db.values_ idx = r := by
  unfold heldBy at h
  rw [List.mem_filterMap] at h
  obtain ⟨db, hdb, hheld⟩ := h
  have hmem : (k, r) ∈ db.entries := by
    unfold DB.held at hheld
    obtain ⟨r1, h1, h2⟩ := lookup_of_mem_keys db.entries k
      ((mem_keys_iff_lookup _ _).mpr ⟨r, hheld⟩)
    rw [hheld] at h1
    injection h1 with h1
    rw [h1]; exact h2
  unfold DB.entries at hmem
  rw [List.mem_map] at hmem
  obtain ⟨idx, hidx, heq⟩ := hmem
  injection heq with e1 e2
  exact ⟨db, hdb, idx, hidx, e1, e2⟩

theorem heldBy_ne_nil_iff (dbs : List DB) (k : List Nat) :
    heldBy dbs k ≠ [] ↔ ∃ db ∈ dbs, k ∈ db.filled_.map db.keys_ := by
  constructor
  · intro h
    obtain ⟨r, hr⟩ := List.exists_mem_of_ne_nil _ h
    obtain ⟨db, hdb, idx, hidx, hk, _⟩ := mem_heldBy hr
    exact ⟨db, hdb, List.mem_map.mpr ⟨idx, hidx, hk⟩⟩
  · rintro ⟨db, hdb, hk⟩
    have hk1 : k ∈ db.entries.map Prod.fst := by
      simpa [DB.entries, List.map_map, Function.comp_def] using hk
    obtain ⟨r, hr⟩ := (mem_keys_iff_lookup _ _).mp hk1
    have : r ∈ heldBy dbs k := by
      unfold heldBy
      rw [List.mem_filterMap]
      exact ⟨db, hdb, hr⟩
    exact List.ne_nil_of_mem this

theorem merge_entry_keys_nodup (m : MergedMap) (e : List Nat × Record)
    (h : (m.map Prod.fst).Nodup) : ((merge_entry m e).map Prod.fst).Nodup := by
  obtain ⟨ke, re⟩ := e
  unfold merge_entry
  simp only
  cases hl : m.lookup ke with
  | none =>
    simp only [List.map_append, List.map_cons, List.map_nil]
    rw [List.nodup_append]
    refine ⟨h, List.nodup_singleton _, ?_⟩
    intro a ha hb
    rw [List.mem_singleton] at hb
    subst hb
    obtain ⟨r, hr⟩ := (mem_keys_iff_lookup _ _).mp ha
    rw [hl] at hr
    cases hr
  | some r =>
    simp only
    have hmap : (m.assign ke (r.merge re)).map Prod.fst = m.map Prod.fst := by
      unfold MergedMap.assign
      rw [List.map_map]
      apply List.map_congr_left
      intro x _
      simp only [Function.comp]
      split
      · next hx => exact hx.symm
      · rfl
    rw [hmap]
    exact h

theorem merge_tables_keys_nodup (dbs : List DB) : ((merge_tables dbs).map Prod.fst).Nodup := by
  rw [merge_tables_eq_foldl]
  have h : ∀ (es : List (List Nat × Record)) (m : MergedMap), (m.map Prod.fst).Nodup →
      ((es.foldl merge_entry m).map Prod.fst).Nodup := by
    intro es
    induction es with
    | nil => intro m hm; exact hm
    | cons e es ih => intro m hm; exact ih _ (merge_entry_keys_nodup m e hm)
  exact h _ [] List.nodup_nil

/-- The merged record of a key that the worker tables hold. -/
theorem lookup_merge_tables_held (dbs : List DB) (hw : ∀ db ∈ dbs, WorkerTable db)
    (k : List Nat) (hk : heldBy dbs k ≠ []) :
    (merge_tables dbs).lookup k = some
      ⟨wrap64 ((heldBy dbs k).map Record.cnt).sum, wrap64 ((heldBy dbs k).map Record.sum).sum,
        minOf ((heldBy dbs k).map Record.min), maxOf ((heldBy dbs k).map Record.max)⟩ := by
  rw [lookup_merge_tables, recordsOf_flatMap dbs k (fun db hdb => (hw db hdb).1)]
  cases hh : heldBy dbs k with
  | nil => exact absurd hh hk
  | cons r rs =>
    have hr : r ∈ heldBy dbs k := by rw [hh]; simp
    obtain ⟨db, hdb, idx, hidx, _, hv⟩ := mem_heldBy hr
    have := (hw db hdb).2 idx hidx
    rw [hv] at this
    exact foldl_mergeOpt_none r rs this.1 this.2

/-! ## The merger -/

/-- C14: for every list of worker tables (each stores a key in at most one
filled slot) the key set of the merged map is the union of the keys stored
in the tables, each key occurs once, and for every key the merged stats
are: cnt = the sum of its counts over the tables holding it, sum = the sum
of its sums (both added on `int64_t`, so the plain sums whenever these fit
64 bits), min = the minimum of its mins, max = the maximum of its maxes. -/
theorem merge_tables_stats (dbs : List DB) (hw : ∀ db ∈ dbs, WorkerTable db) :
    ((merge_tables dbs).map Prod.fst).Nodup ∧
    (∀ k, k ∈ (merge_tables dbs).map Prod.fst ↔ ∃ db ∈ dbs, k ∈ db.filled_.map db.keys_) ∧
    (∀ k, (∃ db ∈ dbs, k ∈ db.filled_.map db.keys_) →
      (merge_tables dbs).lookup k = some
        ⟨wrap64 ((heldBy dbs k).map Record.cnt).sum,
          wrap64 ((heldBy dbs k).map Record.sum).sum,
          minOf ((heldBy dbs k).map Record.min), maxOf ((heldBy dbs k).map Record.max)⟩) ∧
    (∀ k, (∃ db ∈ dbs, k ∈ db.filled_.map db.keys_) →
      isInt64 ((heldBy dbs k).map Record.cnt).sum →
      isInt64 ((heldBy dbs k).map Record.sum).sum →
      (merge_tables dbs).lookup k = some
        ⟨((heldBy dbs k).map Record.cnt).sum, ((heldBy dbs k).map Record.sum).sum,
          minOf ((heldBy dbs k).map Record.min), maxOf ((heldBy dbs k).map Record.max)⟩) := by
  have hkeys : ∀ k, k ∈ (merge_tables dbs).map Prod.fst ↔
      ∃ db ∈ dbs, k ∈ db.filled_.map db.keys_ := by
    intro k
    rw [← heldBy_ne_nil_iff, mem_keys_iff_lookup, lookup_merge_tables,
      recordsOf_flatMap dbs k (fun db hdb => (hw db hdb).1)]
    cases heldBy dbs k with
    | nil => simp
    | cons r rs =>
      simp only [List.foldl_cons, mergeOpt, ne_eq, reduceCtorEq, not_false_eq_true, iff_true]
      have hsome : ∀ (rs : List Record) (a : Record), ∃ x, rs.foldl mergeOpt (some a) = some x := by
        intro rs
        induction rs with
        | nil => intro a; exact ⟨a, rfl⟩
        | cons r1 rs ih => intro a; exact ih _
      exact hsome rs r
  refine ⟨merge_tables_keys_nodup dbs, hkeys, ?_, ?_⟩
  · intro k hk
    exact lookup_merge_tables_held dbs hw k ((heldBy_ne_nil_iff dbs k).mpr hk)
  · intro k hk hc hs
    have h := lookup_merge_tables_held dbs hw k ((heldBy_ne_nil_iff dbs k).mpr hk)
    have e1 : wrap64 ((heldBy dbs k).map Record.cnt).sum = ((heldBy dbs k).map Record.cnt).sum := by
      unfold isInt64 at hc; unfold wrap64; omega
    have e2 : wrap64 ((heldBy dbs k).map Record.sum).sum = ((heldBy dbs k).map Record.sum).sum := by
      unfold isInt64 at hs; unfold wrap64; omega
    rw [e1, e2] at h
    exact h

theorem merge_tables_stats_witness :
    (merge_tables
      [⟨setAt DB.empty.keys_ 3 [120], setAt DB.empty.values_ 3 ⟨2, 40, 10, 30⟩, [3]⟩,
       ⟨setAt (setAt DB.empty.keys_ 5 [120]) 6 [121],
        setAt (setAt DB.empty.values_ 5 ⟨1, -5, -5, -5⟩) 6 ⟨1, 25, 25, 25⟩, [6, 5]⟩]).lookup
        [120] = some ⟨3, 35, -5, 30⟩ :=
  (merge_tables_stats
    [⟨setAt DB.empty.keys_ 3 [120], setAt DB.empty.values_ 3 ⟨2, 40, 10, 30⟩, [3]⟩,
     ⟨setAt (setAt DB.empty.keys_ 5 [120]) 6 [121],
      setAt (setAt DB.empty.values_ 5 ⟨1, -5, -5, -5⟩) 6 ⟨1, 25, 25, 25⟩, [6, 5]⟩]
    (by decide)).2.2.2 [120] (by decide) (by decide) (by decide)

/-- C15: merging is order-independent: for every list of worker tables and
every permutation of that list the merge loop of `process_parallel`
produces the same merged map: the same keys, each once, and the same cnt,
sum, min and max per key. -/
theorem merge_tables_perm (dbs dbs1 : List DB) (h : dbs.Perm dbs1) :
    (∀ k, (merge_tables dbs).lookup k = (merge_tables dbs1).lookup k) ∧
    (∀ k, k ∈ (merge_tables dbs).map Prod.fst ↔ k ∈ (merge_tables dbs1).map Prod.fst) ∧
    ((merge_tables dbs).map Prod.fst).Nodup ∧ ((merge_tables dbs1).map Prod.fst).Nodup := by
  have hl : ∀ k, (merge_tables dbs).lookup k = (merge_tables dbs1).lookup k := by
    intro k
    rw [lookup_merge_tables, lookup_merge_tables]
    haveI := mergeOpt_rightCommutative
    exact List.Perm.foldl_eq (recordsOf_perm h k) none
  refine ⟨hl, ?_, merge_tables_keys_nodup dbs, merge_tables_keys_nodup dbs1⟩
  intro k
  rw [mem_keys_iff_lookup, mem_keys_iff_lookup, hl]

theorem merge_tables_perm_witness :
    (merge_tables
      [⟨setAt DB.empty.keys_ 3 [120], setAt DB.empty.values_ 3 ⟨2, 40, 10, 30⟩, [3]⟩,
       ⟨setAt (setAt DB.empty.keys_ 5 [120]) 6 [121],
        setAt (setAt DB.empty.values_ 5 ⟨1, -5, -5, -5⟩) 6 ⟨1, 25, 25, 25⟩,
        [6, 5]⟩]).lookup [120]
      = (merge_tables
      [⟨setAt (setAt DB.empty.keys_ 5 [120]) 6 [121],
        setAt (setAt DB.empty.values_ 5 ⟨1, -5, -5, -5⟩) 6 ⟨1, 25, 25, 25⟩, [6, 5]⟩,
       ⟨setAt DB.empty.keys_ 3 [120], setAt DB.empty.values_ 3 ⟨2, 40, 10, 30⟩,
        [3]⟩]).lookup [120] :=
  (merge_tables_perm _ _ (List.Perm.swap _ _ [])).1 [120]

/-! ## Lemmas on the rounding -/

/-- Adding half the divisor before a floor division rounds the quotient
half up. -/
theorem floor_half_up (s c : Int) (hc : 1 ≤ c) :
    ⌊(s : ℚ) / c + 1 / 2⌋ = (s + c / 2) / c := by
  have hc0 : c ≠ 0 := by omega
  have h1 : (s + c / 2) / c * c ≤ s + c / 2 := Int.ediv_mul_le _ hc0
  have h2 : s + c / 2 < ((s + c / 2) / c + 1) * c := Int.lt_ediv_add_one_mul_self _ (by omega)
  have h3 : 2 * (c / 2) ≤ c := by omega
  have h4 : c ≤ 2 * (c / 2) + 1 := by omega
  generalize (s + c / 2) / c = q at h1 h2
  generalize c / 2 = h at h1 h2 h3 h4
  have hcq : (0 : ℚ) < c := by exact_mod_cast (by omega : (0 : Int) < c)
  rw [Int.floor_eq_iff]
  have e : (s : ℚ) / c + 1 / 2 = (2 * s + c) / (2 * c) := by
    field_simp; ring
  rw [e]
  constructor
  · rw [le_div_iff₀ (by positivity)]
    have : q * (2 * c) ≤ 2 * s + c := by nlinarith
    exact_mod_cast this
  · rw [div_lt_iff₀ (by positivity)]
    have : 2 * s + c < (q + 1) * (2 * c) := by nlinarith
    exact_mod_cast this

theorem scaledMean_eq_round (value : Record) (hcnt : 1 ≤ value.cnt)
    (hpos : value.sum > 0 → isInt64 (value.sum + value.cnt.tdiv 2))
    (hneg : value.sum ≤ 0 → isInt64 (value.sum - value.cnt.tdiv 2)) :
    scaledMean value = roundHalfAway ((value.sum : ℚ) / value.cnt) := by
  obtain ⟨cnt, sum, mn, mx⟩ := value
  simp only at hcnt hpos hneg ⊢
  have htd : cnt.tdiv 2 = cnt / 2 := Int.tdiv_eq_ediv (by omega) (by decide)
  have hh : 0 ≤ cnt / 2 := by omega
  have hcq : (0 : ℚ) < cnt := by exact_mod_cast (by omega : (0 : Int) < cnt)
  rw [htd] at hpos hneg
  unfold scaledMean roundHalfAway
  simp only [htd]
  by_cases hs : sum > 0
  · have hw : wrap64 (sum + cnt / 2) = sum + cnt / 2 := by
      have := hpos hs
      unfold isInt64 at this; unfold wrap64; omega
    have hq : (0 : ℚ) ≤ (sum : ℚ) / cnt :=
      div_nonneg (by exact_mod_cast (by omega : (0 : Int) ≤ sum)) (le_of_lt hcq)
    rw [if_pos hs, hw, if_pos hq, floor_half_up sum cnt hcnt,
      Int.tdiv_eq_ediv (by omega) (by omega)]
  · have hs0 : sum ≤ 0 := not_lt.mp hs
    have hw : wrap64 (sum - cnt / 2) = -(-sum + cnt / 2) := by
      have := hneg hs0
      unfold isInt64 at this; unfold wrap64; omega
    rw [if_neg hs, hw, Int.neg_tdiv, Int.tdiv_eq_ediv (by omega) (by omega)]
    by_cases hz : sum = 0
    · subst hz
      have h0 : (-0 + cnt / 2) / cnt = 0 := Int.ediv_eq_zero_of_lt (by omega) (by omega)
      have hf := floor_half_up 0 cnt hcnt
      rw [show (0 + cnt / 2) / cnt = 0 from by simpa using h0] at hf
      rw [h0, if_pos (by simp)]
      simp only [Int.cast_zero] at hf ⊢
      rw [hf]; rfl
    · have hq : ¬ (0 : ℚ) ≤ (sum : ℚ) / cnt := by
        rw [not_le]
        exact div_neg_of_neg_of_pos (by exact_mod_cast (by omega : sum < 0)) hcq
      have hf := floor_half_up (-sum) cnt hcnt
      rw [if_neg hq, ← hf]
      congr 2
      push_cast
      ring

/-! ## The rounding rule -/

/-- C18: for every count ≥ 1 and every 64-bit sum for which `sum ± count/2`
does not overflow, the scaled mean of `format_output` equals the exact
quotient sum/count rounded to the nearest integer with ties away from
zero; sum = 70, count = 3 gives 23 and sum = -30, count = 2 gives -15. -/
theorem scaledMean_round_half_away (value : Record) (hcnt : 1 ≤ value.cnt)
    (hpos : value.sum > 0 → isInt64 (value.sum + value.cnt.tdiv 2))
    (hneg : value.sum ≤ 0 → isInt64 (value.sum - value.cnt.tdiv 2)) :
    scaledMean value = roundHalfAway ((value.sum : ℚ) / value.cnt) ∧
      scaledMean ⟨3, 70, 10, 40⟩ = 23 ∧ scaledMean ⟨2, -30, -20, -10⟩ = -15 :=
  ⟨scaledMean_eq_round value hcnt hpos hneg, by decide, by decide⟩

theorem scaledMean_round_half_away_witness :
    scaledMean ⟨2, 5, 2, 3⟩ = roundHalfAway (((5 : Int) : ℚ) / ((2 : Int) : ℚ)) ∧
      scaledMean ⟨2, 5, 2, 3⟩ = 3 ∧ scaledMean ⟨2, -5, -3, -2⟩ = -3 :=
  ⟨(scaledMean_round_half_away ⟨2, 5, 2, 3⟩ (by decide) (fun _ => by decide)
    (fun _ => by decide)).1, by decide, by decide⟩

/-! ## Lemmas on the order of the output -/

/-- Sorting a list whose keys are distinct with the comparator "key of b is
not below key of a" gives strictly ascending keys, and keeps every element
once. -/
theorem insertionSort_strict {α : Type} (f : α → List Nat) (l : List α)
    (h : (l.map f).Nodup) :
    List.Sorted (fun a b : List Nat => a < b)
        ((l.insertionSort (fun a b => ¬ f b < f a)).map f) ∧
      (l.insertionSort (fun a b => ¬ f b < f a)).Perm l := by
  haveI : IsTotal α (fun a b => ¬ f b < f a) :=
    ⟨fun a b => by
      rcases le_total (f a) (f b) with h1 | h1
      · exact Or.inl (not_lt.mpr h1)
      · exact Or.inr (not_lt.mpr h1)⟩
  haveI : IsTrans α (fun a b => ¬ f b < f a) :=
    ⟨fun a b c h1 h2 => not_lt.mpr (le_trans (not_lt.mp h1) (not_lt.mp h2))⟩
  have hsorted := List.sorted_insertionSort (fun a b => ¬ f b < f a) l
  have hperm := List.perm_insertionSort (fun a b => ¬ f b < f a) l
  refine ⟨?_, hperm⟩
  have hnd : ((l.insertionSort (fun a b => ¬ f b < f a)).map f).Nodup :=
    (hperm.map f).nodup_iff.mpr h
  have hle : List.Pairwise (fun a b : List Nat => a ≤ b)
      ((l.insertionSort (fun a b => ¬ f b < f a)).map f) := by
    rw [List.pairwise_map]
    exact List.Pairwise.imp (fun h1 => not_lt.mp h1) hsorted
  have hne : List.Pairwise (fun a b : List Nat => a ≠ b)
      ((l.insertionSort (fun a b => ¬ f b < f a)).map f) := hnd
  exact (hle.and hne).imp (fun h1 => lt_of_le_of_ne h1.1 h1.2)

/-- The formatter of 07_better_parsing.cpp writes the entries of the sorted
slots joined by `, ` and wrapped in braces. -/
theorem format_output_eq (db : DB) (hcnt : ∀ idx ∈ db.filled_, (db.values_ idx).cnt ≠ 0) :
    format_output db = .ok (bytes "\x7b" ++
      List.intercalate (bytes ", ")
        (db.sort_slots.filled_.map (fun idx => entryBytes (db.keys_ idx) (db.values_ idx))) ++
      bytes "\x7d\n") := by
  have h : ∀ e ∈ db.sort_slots.filled_.map
      (fun k => (db.sort_slots.keys_ k, db.sort_slots.values_ k)), e.2.cnt ≠ 0 := by
    intro e he
    obtain ⟨idx, hidx, rfl⟩ := List.mem_map.mp he
    exact hcnt idx ((List.mem_insertionSort _).mp hidx)
  unfold format_output
  rw [format_loop_eq _ h, List.map_map]
  rfl

/-! ## The order of the output -/

/-- C17: for every aggregated map (distinct keys, counts not zero)
`format_output` of 09_dynamic_chunks.cpp writes the entries of the names in
the order of `names`, which holds every key of the map exactly once in
strictly ascending byte-wise lexicographic order (bytes compared as
numbers 0..255); likewise `format_output` of 07_better_parsing.cpp, through
`sort_slots`, for a table whose filled slots hold distinct keys. -/
theorem format_output_keys_ascending (merged : MergedMap) (db : DB)
    (hkeys : (merged.map Prod.fst).Nodup) (hcnt : ∀ e ∈ merged, e.2.cnt ≠ 0)
    (hslots : (db.filled_.map db.keys_).Nodup)
    (hcnt07 : ∀ idx ∈ db.filled_, (db.values_ idx).cnt ≠ 0) :
    (format_output09 merged = .ok (bytes "\x7b" ++
        List.intercalate (bytes ", ")
          (merged.names.map (fun k => entryBytes k (merged.valueAt k))) ++ bytes "\x7d\n") ∧
      List.Sorted (fun a b : List Nat => a < b) merged.names ∧
      merged.names.Perm (merged.map Prod.fst)) ∧
    (format_output db = .ok (bytes "\x7b" ++
        List.intercalate (bytes ", ")
          (db.sort_slots.filled_.map
            (fun idx => entryBytes (db.keys_ idx) (db.values_ idx))) ++ bytes "\x7d\n") ∧
      List.Sorted (fun a b : List Nat => a < b) (db.sort_slots.filled_.map db.keys_) ∧
      (db.sort_slots.filled_.map db.keys_).Perm (db.filled_.map db.keys_)) := by
  have h1 := insertionSort_strict (fun k : List Nat => k) (merged.map Prod.fst)
    (by simpa using hkeys)
  have h2 := insertionSort_strict db.keys_ db.filled_ hslots
  refine ⟨⟨format_output09_eq merged hcnt, ?_, ?_⟩,
    ⟨format_output_eq db hcnt07, h2.1, h2.2.map _⟩⟩
  · simpa [MergedMap.names] using h1.1
  · exact h1.2

theorem format_output_keys_ascending_witness :
    format_output09 [([121, 1], ⟨1, 25, 25, 25⟩), ([200], ⟨1, 5, 5, 5⟩), ([121], ⟨2, 40, 10, 30⟩)]
      = .ok (bytes "\x7b" ++ List.intercalate (bytes ", ")
          ((MergedMap.names
              [([121, 1], ⟨1, 25, 25, 25⟩), ([200], ⟨1, 5, 5, 5⟩),
                ([121], ⟨2, 40, 10, 30⟩)]).map
            (fun k => entryBytes k (MergedMap.valueAt
              [([121, 1], ⟨1, 25, 25, 25⟩), ([200], ⟨1, 5, 5, 5⟩),
                ([121], ⟨2, 40, 10, 30⟩)] k))) ++ bytes "\x7d\n") ∧
      MergedMap.names [([121, 1], ⟨1, 25, 25, 25⟩), ([200], ⟨1, 5, 5, 5⟩),
        ([121], ⟨2, 40, 10, 30⟩)] = [[121], [121, 1], [200]] :=
  ⟨(format_output_keys_ascending
      [([121, 1], ⟨1, 25, 25, 25⟩), ([200], ⟨1, 5, 5, 5⟩), ([121], ⟨2, 40, 10, 30⟩)]
      ⟨setAt (setAt DB.empty.keys_ 5 [200]) 6 [121],
        setAt (setAt DB.empty.values_ 5 ⟨1, 5, 5, 5⟩) 6 ⟨1, 25, 25, 25⟩, [5, 6]⟩
      (by decide) (by decide) (by decide) (by decide)).1.1, by decide⟩

/-! ## Lemmas on the record scanner -/

theorem parse_of_value {key after rest : List Nat} {value : Int} (h59 : 59 ∉ key)
    (hv : parse_int_table after = .ok (value, rest)) :
    parse (key ++ 59 :: after) = .ok (⟨key, keyHash key, value⟩, rest) := by
  unfold parse
  rw [parse_key_loop_key key h59]
  simp only [List.nil_append]
  rw [hv]
  rfl

theorem hash_step_signed (h b : Nat) :
    (((h : Int) * 7 + charVal b) % 65536).toNat
      = (h * 7 + (if b < 128 then b else b + 65280)) % 65536 := by
  unfold charVal
  by_cases hb : b < 128
  · rw [if_pos hb, if_pos hb]; omega
  · rw [if_neg hb, if_neg hb]; omega

theorem keyHash_eq_signed (key : List Nat) : keyHash key = rollingHashSigned key := by
  unfold keyHash rollingHashSigned
  congr 1
  funext h b
  exact hash_step_signed h b

theorem rollingHashSigned_ascii (key : List Nat) (h : ∀ b ∈ key, b < 128) :
    rollingHashSigned key = rollingHashUnsigned key := by
  unfold rollingHashSigned rollingHashUnsigned
  generalize 0 = h0
  induction key generalizing h0 with
  | nil => rfl
  | cons b bs ih =>
    have hb : b < 128 := h b (by simp)
    simp only [List.foldl_cons, if_pos hb]
    exact ih (fun x hx => h x (by simp [hx])) _

/-! ## The record scanner -/

/-- C19, as stated, fails for keys with bytes of 128 and more: `parse` adds
`*iter`, a signed `char`, so the key `ü` (bytes 195, 188) gets the hash
65041, while the bytes taken as 195 and 188 give 1553. -/
theorem parse_hash_non_ascii_counterexample :
    parse_hash [195, 188, 59, 49, 46, 48, 10] = .ok 65041 ∧
    rollingHashUnsigned [195, 188] = 1553 ∧
    parse_hash [195, 188, 59, 49, 46, 48, 10] ≠ .ok (rollingHashUnsigned [195, 188]) := by
  decide

/-- C19, amended: for every record, the hash returned by `parse` equals the
value obtained by starting from 0 and, for each key byte b in order,
replacing h by (h*7 + c) mod 2^16, where c is the value of the `char` that
holds b: b itself for ASCII bytes, b - 256 for the bytes 128..255; for keys
of ASCII bytes this is the hash with b taken as its byte value. -/
theorem parse_hash_signed (key : List Nat) (tok : ValueToken) (rest : List Nat)
    (h59 : 59 ∉ key) (htok : tok.Valid) :
    parse_hash (key ++ 59 :: (tok.toBytes ++ 10 :: rest)) = .ok (rollingHashSigned key) ∧
      ((∀ b ∈ key, b < 128) →
        parse_hash (key ++ 59 :: (tok.toBytes ++ 10 :: rest))
          = .ok (rollingHashUnsigned key)) := by
  have hp := parse_of_value h59 (parse_int_table_token tok htok rest)
  have h1 : parse_hash (key ++ 59 :: (tok.toBytes ++ 10 :: rest))
      = .ok (rollingHashSigned key) := by
    unfold parse_hash
    rw [hp, keyHash_eq_signed]
  refine ⟨h1, ?_⟩
  intro hascii
  rw [h1, rollingHashSigned_ascii key hascii]

theorem parse_hash_signed_witness :
    parse_hash [195, 188, 59, 49, 46, 48, 10] = .ok (rollingHashSigned [195, 188]) ∧
      rollingHashSigned [195, 188] = 65041 :=
  ⟨(parse_hash_signed [195, 188] ⟨false, [49], some 48⟩ [] (by decide) (by decide)).1,
    by decide⟩

/-- C20: for every record whose key has no `;` and whose value is a token
of the grammar, `parse` returns as key exactly the bytes from the cursor up
to the first `;`, as value the result of `parse_int_table` for the bytes
after that `;`, and leaves the cursor just after the newline of the
record. -/
theorem parse_record (key : List Nat) (tok : ValueToken) (rest : List Nat)
    (h59 : 59 ∉ key) (htok : tok.Valid) :
    ∃ value hash, parse_int_table (tok.toBytes ++ 10 :: rest) = .ok (value, rest) ∧
      parse (key ++ 59 :: (tok.toBytes ++ 10 :: rest)) = .ok (⟨key, hash, value⟩, rest) :=
  ⟨tokenResult tok, keyHash key, parse_int_table_token tok htok rest,
    parse_of_value h59 (parse_int_table_token tok htok rest)⟩

theorem parse_record_witness :
    ∃ value hash, parse_int_table (bytes "-12.3\nb;1.0\n") = .ok (value, bytes "b;1.0\n") ∧
      parse (bytes "St. John;-12.3\nb;1.0\n")
        = .ok (⟨bytes "St. John", hash, value⟩, bytes "b;1.0\n") :=
  parse_record (bytes "St. John") ⟨true, [49, 50], some 51⟩ (bytes "b;1.0\n")
    (by decide) (by decide)

/-! ## The parallel driver -/

/-- C16 fails on the code: the buffer of the one well-formed line
`aAzzw;1.0` gives no merged map, for one worker and for two: the key hashes
to 65535 and the worker's scan indexes `keys_[65535]` of the 65535-slot
table of 09_dynamic_chunks.cpp (the defect of C10); and a buffer of exactly
the target chunk size is read past its end (the defect of C11).  The buffer
`x;1.0\ny;2.5\nx;3.0\n` with target 4 meets neither defect, and two
schedules of two workers give the same stats per key. -/
theorem process_parallel_faults :
    encode [⟨bytes "aAzzw", ⟨false, [49], some 48⟩⟩] = bytes "aAzzw;1.0\n" ∧
    Line.WellFormed ⟨bytes "aAzzw", ⟨false, [49], some 48⟩⟩ ∧
    process_parallel chunk_sz (bytes "aAzzw;1.0\n") 1 [] = .error .outOfBounds ∧
    process_parallel chunk_sz (bytes "aAzzw;1.0\n") 2 [1] = .error .outOfBounds ∧
    process_parallel 6 (bytes "x;1.0\n") 1 [] = .error .pastEnd ∧
    process_parallel 4 (bytes "x;1.0\ny;2.5\nx;3.0\n") 2 [0, 1, 1]
      = .ok [([120], ⟨2, 40, 10, 30⟩), ([121], ⟨1, 25, 25, 25⟩)] ∧
    process_parallel 4 (bytes "x;1.0\ny;2.5\nx;3.0\n") 2 [1, 0, 0]
      = .ok [([121], ⟨1, 25, 25, 25⟩), ([120], ⟨2, 40, 10, 30⟩)] := by
  decide

/-! ## Lemmas on the two forms of the update -/

theorem update_eq_independent (r : Record) (value : Int) (h : r.min ≤ r.max) :
    r.update value = r.update_independent value ∧ (r.update value).min ≤ (r.update value).max := by
  unfold Record.update Record.update_independent
  by_cases h1 : value < r.min
  · have h2 : value ≤ r.max := le_trans (le_of_lt h1) h
    simp only [h1, if_true, min_eq_right (le_of_lt h1), max_eq_left h2]
    exact ⟨trivial, h2⟩
  · have h3 : r.min ≤ value := not_lt.mp h1
    by_cases h2 : value > r.max
    · simp only [h1, h2, if_true, if_false, min_eq_left h3, max_eq_right (le_of_lt h2)]
      exact ⟨trivial, h3⟩
    · have h4 : value ≤ r.max := not_lt.mp h2
      simp only [h1, h2, if_false, min_eq_left h3, max_eq_left h4]
      exact ⟨trivial, h⟩

theorem foldl_update_eq_independent (vs : List Int) :
    ∀ r : Record, r.min ≤ r.max →
      vs.foldl Record.update r = vs.foldl Record.update_independent r := by
  induction vs with
  | nil => intro r _; rfl
  | cons v vs ih =>
    intro r h
    have h1 := update_eq_independent r v h
    rw [List.foldl_cons, List.foldl_cons, ← h1.1]
    exact ih _ h1.2

theorem foldl_independent_min_max (vs : List Int) :
    ∀ r : Record, (vs.foldl Record.update_independent r).min = vs.foldl min r.min ∧
      (vs.foldl Record.update_independent r).max = vs.foldl max r.max := by
  induction vs with
  | nil => intro r; exact ⟨rfl, rfl⟩
  | cons v vs ih =>
    intro r
    rw [List.foldl_cons, List.foldl_cons, List.foldl_cons]
    exact ih _

/-! ## The two forms of the update -/

/-- C27: for every first value `v` and every sequence `vs` of further values
recorded for one key, the record kept by the exclusive-branch update of
`record` (05_fixed_point.cpp, 07_better_parsing.cpp) equals the record kept
by the independent updates `min = min(min, value)`, `max = max(max, value)`;
its min is the smallest and its max the largest of the values. -/
theorem update_exclusive_eq_independent (v : Int) (vs : List Int) :
    vs.foldl Record.update ⟨1, v, v, v⟩ = vs.foldl Record.update_independent ⟨1, v, v, v⟩ ∧
    (vs.foldl Record.update ⟨1, v, v, v⟩).min = minOf (v :: vs) ∧
    (vs.foldl Record.update ⟨1, v, v, v⟩).max = maxOf (v :: vs) := by
  have h := foldl_update_eq_independent vs ⟨1, v, v, v⟩ (le_refl _)
  have h2 := foldl_independent_min_max vs ⟨1, v, v, v⟩
  rw [h]
  exact ⟨rfl, h2.1, h2.2⟩

/-! ## Lemmas on the probe loop of a table of 65536 slots -/

/-- With a stopping slot in the table the probe loop reaches a first one. -/
theorem exists_first_stop_of_stop (keys_ : Nat → List Nat) (name : List Nat) (start : Nat)
    (he : ∃ e, e < 65536 ∧ stopsAt keys_ name e) :
    ∃ n, n < 65536 ∧ stopsAt keys_ name ((start + n) % 65536) ∧
      ∀ j, j < n → ¬ stopsAt keys_ name ((start + j) % 65536) := by
  obtain ⟨e, he, hke⟩ := he
  have hex : ∃ n, n < 65536 ∧ stopsAt keys_ name ((start + n) % 65536) := by
    refine ⟨(e + 65536 - start % 65536) % 65536, Nat.mod_lt _ (by decide), ?_⟩
    have : (start + (e + 65536 - start % 65536) % 65536) % 65536 = e := by omega
    rw [this]; exact hke
  classical
  refine ⟨Nat.find hex, (Nat.find_spec hex).1, (Nat.find_spec hex).2, ?_⟩
  intro j hj hst
  exact Nat.find_min hex hj ⟨lt_trans hj (Nat.find_spec hex).1, hst⟩

theorem lookup_slot_of_stop (db : DB) (m : Measurement)
    (he : ∃ e, e < 65536 ∧ stopsAt db.keys_ m.name e) :
    ∃ s, lookup_slot capacity07 db m = .ok s ∧ s < 65536 ∧ stopsAt db.keys_ m.name s := by
  obtain ⟨n, hn, hstop, hbefore⟩ :=
    exists_first_stop_of_stop db.keys_ m.name (m.hash % 65536) he
  have hlt : m.hash % 65536 < 65536 := Nat.mod_lt _ (by decide)
  exact ⟨_, lookup_slot_loop_first capacity07 db.keys_ m.name (by decide) n 65536 _ hn hlt
    hstop hbefore, Nat.mod_lt _ (by decide), hstop⟩

theorem lookup_slot_of_no_stop (db : DB) (m : Measurement)
    (hall : ∀ i, i < 65536 → ¬ stopsAt db.keys_ m.name i) (fuel : Nat) :
    lookup_slot_loop capacity07 db.keys_ m.name fuel (m.hash % 65536) = .error .diverges :=
  lookup_slot_loop_of_no_stop capacity07 db.keys_ m.name
    (fun i hi => ⟨hi, hall i hi⟩) fuel _ (Nat.mod_lt _ (by decide))

theorem record_of_no_stop (db : DB) (m : Measurement)
    (hall : ∀ i, i < 65536 → ¬ stopsAt db.keys_ m.name i) :
    db.record capacity07 m = .error .diverges := by
  have h : lookup_slot capacity07 db m = .error .diverges := lookup_slot_of_no_stop db m hall 65536
  unfold DB.record
  rw [h]

/-- What `record` changes: the slot `lookup_slot` returns, and `filled_` by
at most that index at its end. -/
theorem record_of_lookup {db : DB} {m : Measurement} {s : Nat}
    (hs : lookup_slot capacity07 db m = .ok s) (hlt : s < 65536) :
    ∃ db1, db.record capacity07 m = .ok db1 ∧
      (∀ i, i ≠ s → db1.keys_ i = db.keys_ i ∧ db1.values_ i = db.values_ i) ∧
      (db1.filled_ = db.filled_ ∨ db1.filled_ = db.filled_ ++ [s]) := by
  by_cases h0 : db.keys_ s = []
  · refine ⟨_, record_miss hs hlt h0, ?_, Or.inr rfl⟩
    intro i hi
    simp [setAt, hi]
  · refine ⟨_, record_hit hs hlt h0, ?_, Or.inl rfl⟩
    intro i hi
    simp [setAt, hi]

/-! ## The frame of `record` -/

/-- C22: for every table and every record `m` (key, hash, value),
`record` either returns, and then it has changed only the slot `s` that
`lookup_slot` returns for the key: the key and the stats of every other
slot are unchanged and `filled_` is unchanged or has `s` appended; or no
slot is empty or holds the key, and then `record` never returns and changes
nothing. -/
theorem record_frame (db : DB) (m : Measurement) :
    (∃ db1 s, db.record capacity07 m = .ok db1 ∧ lookup_slot capacity07 db m = .ok s ∧
      s < 65536 ∧
      (∀ i, i ≠ s → db1.keys_ i = db.keys_ i ∧ db1.values_ i = db.values_ i) ∧
      (db1.filled_ = db.filled_ ∨ db1.filled_ = db.filled_ ++ [s])) ∨
    (db.record capacity07 m = .error .diverges ∧
      ∀ i, i < 65536 → ¬ stopsAt db.keys_ m.name i) := by
  by_cases he : ∃ e, e < 65536 ∧ stopsAt db.keys_ m.name e
  · obtain ⟨s, hs, hlt, _⟩ := lookup_slot_of_stop db m he
    obtain ⟨db1, hrec, hframe, hfilled⟩ := record_of_lookup hs hlt
    exact Or.inl ⟨db1, s, hrec, hs, hlt, hframe, hfilled⟩
  · have hall : ∀ i, i < 65536 → ¬ stopsAt db.keys_ m.name i :=
      fun i hi hst => he ⟨i, hi, hst⟩
    exact Or.inr ⟨record_of_no_stop db m hall, hall⟩

/-! ## The full table -/

theorem key4_ne_nil (i : Nat) : key4 i ≠ [] := by simp [key4]

theorem key4_length (i : Nat) : (key4 i).length = 4 := rfl

theorem key4_injective {i j : Nat} (h : key4 i = key4 j) : i = j := by
  simp only [key4, List.cons.injEq, and_true] at h
  omega

/-- C24 fails on the code: on a table whose 65536 slots hold other keys,
`record` of a new key returns no error; the probe loop of `lookup_slot`
finds no exit, for any number of iterations. -/
theorem record_full_table_diverges :
    (∀ i, i < 65536 → fullTable.keys_ i ≠ [] ∧ fullTable.keys_ i ≠ [122]) ∧
    lookup_slot capacity07 fullTable ⟨[122], 122, 10⟩ = .error .diverges ∧
    DB.record capacity07 fullTable ⟨[122], 122, 10⟩ = .error .diverges ∧
    ∀ fuel : Nat,
      lookup_slot_loop capacity07 fullTable.keys_ [122] fuel 122 = .error .diverges := by
  have h1 : ∀ i, i < 65536 → fullTable.keys_ i ≠ [] ∧ fullTable.keys_ i ≠ [122] := by
    intro i _
    constructor
    · exact key4_ne_nil i
    · intro h
      have := congrArg List.length h
      simp [fullTable, key4_length] at this
  have hall : ∀ i, i < 65536 →
      ¬ stopsAt fullTable.keys_ (Measurement.mk [122] 122 10).name i := by
    intro i hi hst
    rcases hst with h | h
    · exact (h1 i hi).1 h
    · exact (h1 i hi).2 h
  exact ⟨h1, lookup_slot_of_no_stop fullTable _ hall 65536, record_of_no_stop fullTable _ hall,
    fun fuel => lookup_slot_of_no_stop fullTable ⟨[122], 122, 10⟩ hall fuel⟩

/-- C24, amended: when all 65536 slots are occupied by other keys, `record`
of a new key does not terminate: the probe loop of `lookup_slot` finds no
exit for any number of iterations, so nothing is stored and no entry is
overwritten, and no error is reported. -/
theorem record_full_table (db : DB) (m : Measurement)
    (hfull : ∀ i, i < 65536 → db.keys_ i ≠ [] ∧ db.keys_ i ≠ m.name) :
    lookup_slot capacity07 db m = .error .diverges ∧
    db.record capacity07 m = .error .diverges ∧
    ∀ fuel : Nat,
      lookup_slot_loop capacity07 db.keys_ m.name fuel (m.hash % 65536) = .error .diverges := by
  have hall : ∀ i, i < 65536 → ¬ stopsAt db.keys_ m.name i := by
    intro i hi hst
    rcases hst with h | h
    · exact (hfull i hi).1 h
    · exact (hfull i hi).2 h
  exact ⟨lookup_slot_of_no_stop db m hall 65536, record_of_no_stop db m hall,
    fun fuel => lookup_slot_of_no_stop db m hall fuel⟩

theorem record_full_table_witness :
    lookup_slot capacity07 fullTable ⟨[122], 122, 10⟩ = .error .diverges ∧
    DB.record capacity07 fullTable ⟨[122], 122, 10⟩ = .error .diverges ∧
    ∀ fuel : Nat,
      lookup_slot_loop capacity07 fullTable.keys_ [122] fuel (122 % 65536)
        = .error .diverges :=
  record_full_table fullTable ⟨[122], 122, 10⟩ (by
    intro i _
    refine ⟨by simp [fullTable, key4], ?_⟩
    intro h
    have := congrArg List.length h
    simp [fullTable, key4] at this)

/-! ## Concurrent calls of the chunk allocator -/

/-- The spans the calls return do not depend on the threads that make
them. -/
theorem next_chunk_calls_spans (target : Nat) (data : List Nat) (schedule : List Nat) :
    ∀ (schedule1 : List Nat) (chunk_begin : Nat), schedule.length = schedule1.length →
      (next_chunk_calls target data schedule chunk_begin).map Prod.snd
        = (next_chunk_calls target data schedule1 chunk_begin).map Prod.snd := by
  induction schedule with
  | nil =>
    intro schedule1 c h
    cases schedule1 with
    | nil => rfl
    | cons t ts => simp at h
  | cons t ts ih =>
    intro schedule1 c h
    cases schedule1 with
    | nil => simp at h
    | cons t1 ts1 =>
      simp only [next_chunk_calls, List.map_cons, List.cons.injEq, true_and]
      exact ih ts1 _ (by simpa using h)

/-- The spans of two calls on the buffer `a;1.0\n` (6 bytes) with target 6:
whichever threads `t1` and `t2` make the calls, the first receives [0, 7),
which holds position 6 beyond the last byte, and the second receives
[7, 6), the overshoot of `next_chunk` when exactly the target size is left.
With the source's `chunk_sz` the first call on a buffer of 64MB receives a
span that ends at 64MB + 1. -/
theorem next_chunk_calls_overshoot :
    (∀ t1 t2 : Nat,
      next_chunk_calls 6 (bytes "a;1.0\n") [t1, t2] 0
        = [(t1, some (0, 7)), (t2, some (7, 6))]) ∧
    (bytes "a;1.0\n").length = 6 ∧
    spans_holding [some (0, 7), some (7, 6)] 6 = 1 ∧
    span_bytes (bytes "a;1.0\n") (0, 7) = .error .pastEnd ∧
    span_bytes (bytes "a;1.0\n") (7, 6) = .error .pastEnd ∧
    (∀ (t : Nat) (schedule : List Nat),
      (next_chunk_calls chunk_sz (List.replicate (chunk_sz - 1) 97 ++ [10]) (t :: schedule) 0).head?
        = some (t, some (0, chunk_sz + 1))) := by
  refine ⟨?_, by decide, by decide, by decide, by decide, ?_⟩
  · intro t1 t2
    have h1 : next_chunk 6 (bytes "a;1.0\n") 0 = (some (0, 7), 7) := by decide
    have h2 : next_chunk 6 (bytes "a;1.0\n") 7 = (some (7, 6), 6) := by decide
    simp only [next_chunk_calls, h1, h2]
  · intro t schedule
    have hlen : (List.replicate (chunk_sz - 1) 97 ++ [10]).length = chunk_sz := by
      rw [List.length_append, List.length_replicate]
      decide
    have := next_chunk_exact chunk_sz (List.replicate (chunk_sz - 1) 97 ++ [10]) 0 (by decide)
      (by rw [hlen, Nat.zero_add])
    rw [hlen] at this
    simp only [next_chunk_calls, this, List.head?_cons]

/-! ## Lemmas on the table invariant of a sequence of `record` calls -/

theorem recOpt_append (vs : List Int) (v : Int) :
    recOpt (vs ++ [v]) = recStep (recOpt vs) v := by
  cases vs with
  | nil => rfl
  | cons v0 vs => simp [recOpt, recStep, List.foldl_append]

theorem recOpt_eq_foldl (vs : List Int) : recOpt vs = vs.foldl recStep none := by
  induction vs using List.reverseRecOn with
  | nil => rfl
  | append_singleton vs v ih => rw [recOpt_append, ih, List.foldl_append]; rfl

theorem valsOf_append_same (k : List Nat) (ms : List Measurement) (m : Measurement)
    (h : m.name = k) : valsOf k (ms ++ [m]) = valsOf k ms ++ [m.value] := by
  simp [valsOf, List.filter_append, List.filter_cons, h]

theorem valsOf_append_other (k : List Nat) (ms : List Measurement) (m : Measurement)
    (h : m.name ≠ k) : valsOf k (ms ++ [m]) = valsOf k ms := by
  simp [valsOf, List.filter_append, List.filter_cons, h]

theorem valsOf_ne_nil_iff (k : List Nat) (ms : List Measurement) :
    valsOf k ms ≠ [] ↔ k ∈ namesOf ms := by
  unfold valsOf namesOf
  rw [Ne, List.map_eq_nil_iff, List.filter_eq_nil_iff, List.mem_map]
  constructor
  · intro h
    push_neg at h
    obtain ⟨m, hm, hk⟩ := h
    exact ⟨m, hm, by simpa using hk⟩
  · rintro ⟨m, hm, hk⟩ h
    exact h m hm (by simpa using hk)

theorem recOpt_eq_none_iff (vs : List Int) : recOpt vs = none ↔ vs = [] := by
  cases vs with
  | nil => simp [recOpt]
  | cons v vs => simp [recOpt]

theorem dedup_length_append_new {a : List Nat} {xs : List (List Nat)} (h : a ∉ xs) :
    (xs ++ [a]).dedup.length = xs.dedup.length + 1 := by
  rw [← List.card_toFinset, ← List.card_toFinset, List.toFinset_append]
  simp only [List.toFinset_cons, List.toFinset_nil, insert_emptyc_eq]
  rw [Finset.union_comm, ← Finset.insert_eq, Finset.card_insert_of_not_mem]
  rwa [List.mem_toFinset]

theorem HashInv.slot_bound {hash : List Nat → Nat} {db : DB} {ms : List Measurement}
    (inv : HashInv hash db ms) {s : Nat} (hs : db.keys_ s ≠ []) : s < 65536 := by
  obtain ⟨_, _, _, hcap, _, _⟩ := lookup_slot_loop_ok capacity07 db.keys_ (db.keys_ s) 65536
    (hash (db.keys_ s) % 65536) s (Nat.mod_lt _ (by decide)) (inv.found s hs)
  exact hcap

theorem HashInv.slot_unique {hash : List Nat → Nat} {db : DB} {ms : List Measurement}
    (inv : HashInv hash db ms) {a b : Nat}
    (ha : db.keys_ a ≠ []) (hab : db.keys_ a = db.keys_ b) : a = b := by
  have h1 := inv.found a ha
  have h2 := inv.found b (hab ▸ ha)
  rw [← hab, h1] at h2
  injection h2

theorem HashInv.key_recorded {hash : List Nat → Nat} {db : DB} {ms : List Measurement}
    (inv : HashInv hash db ms) {s : Nat} (hs : db.keys_ s ≠ []) :
    db.keys_ s ∈ namesOf ms := by
  rw [← valsOf_ne_nil_iff]
  intro h
  have := inv.vals s hs
  rw [h] at this
  cases this

/-- While fewer than 65536 distinct keys were recorded the table has an
empty slot. -/
theorem HashInv.free_slot {hash : List Nat → Nat} {db : DB} {ms : List Measurement}
    (inv : HashInv hash db ms) (hk : (namesOf ms).dedup.length < 65536) :
    ∃ e, e < 65536 ∧ db.keys_ e = [] := by
  by_contra hne
  have hall : ∀ e, e < 65536 → db.keys_ e ≠ [] := by
    intro e he h0; exact hne ⟨e, he, h0⟩
  have hcard : (Finset.range 65536).card ≤ (namesOf ms).toFinset.card := by
    apply Finset.card_le_card_of_injOn db.keys_
    · intro a ha
      rw [List.mem_toFinset]
      exact inv.key_recorded (hall a (Finset.mem_range.mp ha))
    · intro a ha b _ hab
      exact inv.slot_unique (hall a (Finset.mem_range.mp (Finset.mem_coe.mp ha))) hab
  rw [Finset.card_range, List.card_toFinset] at hcard
  omega

theorem hashInv_empty (hash : List Nat → Nat) : HashInv hash DB.empty [] where
  found := by intro s hs; exact absurd rfl hs
  vals := by intro s hs; exact absurd rfl hs
  complete := by intro l hl; cases hl
  filled := by intro s; simp [DB.empty]
  nodup := List.nodup_nil

/-- A key that was recorded before, or a table that has not yet taken 65536
distinct keys, gives the probe loop a slot to stop at. -/
theorem HashInv.exists_stop {hash : List Nat → Nat} {db : DB} {ms : List Measurement}
    {m : Measurement} (inv : HashInv hash db ms) (hne : m.name ≠ [])
    (hk : (namesOf (ms ++ [m])).dedup.length ≤ 65536) :
    ∃ e, e < 65536 ∧ stopsAt db.keys_ m.name e := by
  by_cases hmem : m.name ∈ namesOf ms
  · obtain ⟨m0, hm0, hname⟩ := List.mem_map.mp hmem
    obtain ⟨s, hs⟩ := inv.complete m0 hm0 (by rw [hname]; exact hne)
    have hks : db.keys_ s = m.name := hs.trans hname
    exact ⟨s, inv.slot_bound (by rw [hks]; exact hne), Or.inr hks⟩
  · have hlen : (namesOf ms).dedup.length < 65536 := by
      have := dedup_length_append_new hmem
      have happ : namesOf (ms ++ [m]) = namesOf ms ++ [m.name] := by simp [namesOf]
      rw [happ] at hk
      omega
    obtain ⟨e, he, h0⟩ := inv.free_slot hlen
    exact ⟨e, he, Or.inl h0⟩

/-- One `record` call keeps the table invariant. -/
theorem hashInv_step {hash : List Nat → Nat} {db : DB} {ms : List Measurement}
    {m : Measurement} (inv : HashInv hash db ms) (hne : m.name ≠ [])
    (hh : m.hash = hash m.name) (hk : (namesOf (ms ++ [m])).dedup.length ≤ 65536) :
    ∃ db1 s, db.record capacity07 m = .ok db1 ∧ lookup_slot capacity07 db m = .ok s ∧
      s < 65536 ∧ db1.keys_ s = m.name ∧ HashInv hash db1 (ms ++ [m]) := by
  obtain ⟨s, hlook, hs_lt, hstop⟩ := lookup_slot_of_stop db m (inv.exists_stop hne hk)
  have hloop : lookup_slot_loop capacity07 db.keys_ m.name 65536 (hash m.name % 65536)
      = .ok s := by rw [← hh]; exact hlook
  have hlt : hash m.name % 65536 < 65536 := Nat.mod_lt _ (by decide)
  by_cases h0 : db.keys_ s = []
  · have hnot : ∀ t, db.keys_ t ≠ m.name := by
      intro t ht
      have hne1 : db.keys_ t ≠ [] := by rw [ht]; exact hne
      have hf := inv.found t hne1
      rw [ht, hloop] at hf
      injection hf with hf
      rw [hf] at h0
      exact hne1 h0
    have hsame : ∀ i, db.keys_ i ≠ [] → setAt db.keys_ s m.name i = db.keys_ i := by
      intro i hi
      have : i ≠ s := fun h => hi (h ▸ h0)
      simp [setAt, this]
    have hat : setAt db.keys_ s m.name s = m.name := by simp [setAt]
    have hnil : valsOf m.name ms = [] := by
      by_contra hvs
      obtain ⟨m0, hm0, hname⟩ := List.mem_map.mp ((valsOf_ne_nil_iff _ _).mp hvs)
      obtain ⟨t, ht⟩ := inv.complete m0 hm0 (by rw [hname]; exact hne)
      exact hnot t (ht.trans hname)
    refine ⟨_, s, record_miss hlook hs_lt h0, hlook, hs_lt, hat, ?_⟩
    constructor
    · intro t ht
      simp only at ht ⊢
      by_cases hts : t = s
      · subst hts
        rw [hat]
        exact lookup_slot_loop_mono hlt hloop hsame hat
      · have hkt : setAt db.keys_ s m.name t = db.keys_ t := by simp [setAt, hts]
        rw [hkt] at ht ⊢
        exact lookup_slot_loop_mono (Nat.mod_lt _ (by decide)) (inv.found t ht) hsame hkt
    · intro t ht
      simp only at ht ⊢
      by_cases hts : t = s
      · subst hts
        rw [hat, valsOf_append_same _ _ _ rfl, hnil]
        simp [setAt, recOpt]
      · have hkt : setAt db.keys_ s m.name t = db.keys_ t := by simp [setAt, hts]
        have hvt : setAt db.values_ s (Record.mk 1 m.value m.value m.value) t
            = db.values_ t := by simp [setAt, hts]
        rw [hkt] at ht ⊢
        rw [hvt, valsOf_append_other _ _ _ (fun h => hnot t h.symm)]
        exact inv.vals t ht
    · intro x hx hxne
      simp only
      rcases List.mem_append.mp hx with hx | hx
      · obtain ⟨t, ht⟩ := inv.complete x hx hxne
        refine ⟨t, ?_⟩
        rw [hsame t (by rw [ht]; exact hxne), ht]
      · rw [List.mem_singleton.mp hx]
        exact ⟨s, hat⟩
    · intro t
      simp only [List.mem_append, List.mem_singleton]
      by_cases hts : t = s
      · subst hts
        rw [hat]
        exact ⟨fun _ => hne, fun _ => Or.inr rfl⟩
      · have hkt : setAt db.keys_ s m.name t = db.keys_ t := by simp [setAt, hts]
        rw [hkt, inv.filled t]
        exact ⟨fun h => h.resolve_right hts, fun h => Or.inl h⟩
    · simp only
      rw [List.nodup_append]
      refine ⟨inv.nodup, List.nodup_singleton _, ?_⟩
      intro a ha hb
      rw [List.mem_singleton] at hb
      subst hb
      exact (inv.filled a).mp ha h0
  · have hks : db.keys_ s = m.name := by
      rcases hstop with h | h
      · exact absurd h h0
      · exact h
    refine ⟨_, s, record_hit hlook hs_lt h0, hlook, hs_lt, hks, ?_⟩
    constructor
    · exact inv.found
    · intro t ht
      simp only at ht ⊢
      by_cases hts : t = s
      · subst hts
        rw [valsOf_append_same _ _ _ hks.symm, recOpt_append, inv.vals t h0]
        simp [setAt, recStep]
      · have hvt : setAt db.values_ s ((db.values_ s).update m.value) t
            = db.values_ t := by simp [setAt, hts]
        have hne1 : m.name ≠ db.keys_ t := by
          intro h
          exact hts (inv.slot_unique ht (h.symm.trans hks.symm))
        rw [hvt, valsOf_append_other _ _ _ hne1]
        exact inv.vals t ht
    · intro x hx hxne
      simp only
      rcases List.mem_append.mp hx with hx | hx
      · exact inv.complete x hx hxne
      · rw [List.mem_singleton.mp hx]
        exact ⟨s, hks⟩
    · exact inv.filled
    · exact inv.nodup

theorem namesOf_dedup_prefix_le (xs ys : List Measurement) :
    (namesOf xs).dedup.length ≤ (namesOf (xs ++ ys)).dedup.length := by
  unfold namesOf
  rw [List.map_append]
  exact dedup_length_append_le _ _

/-- A sequence of `record` calls with non-empty keys, hashes given by
`hash` and at most 65536 distinct keys returns a table and keeps the
invariant. -/
theorem recordAll_hashInv (hash : List Nat → Nat) (ms : List Measurement) :
    ∀ (done : List Measurement) (db : DB), HashInv hash db done →
      (∀ m ∈ ms, m.name ≠ [] ∧ m.hash = hash m.name) →
      (namesOf (done ++ ms)).dedup.length ≤ 65536 →
      ∃ db1, DB.recordAll capacity07 db ms = .ok db1 ∧ HashInv hash db1 (done ++ ms) := by
  induction ms with
  | nil =>
    intro done db inv _ _
    exact ⟨db, rfl, by simpa using inv⟩
  | cons m ms ih =>
    intro done db inv hms hk
    have happ : done ++ m :: ms = (done ++ [m]) ++ ms := by simp
    have hm := hms m (by simp)
    have hk1 : (namesOf (done ++ [m])).dedup.length ≤ 65536 := by
      refine le_trans ?_ hk
      rw [happ]
      exact namesOf_dedup_prefix_le _ _
    obtain ⟨db1, s, hrec, _, _, _, inv1⟩ := hashInv_step inv hm.1 hm.2 hk1
    obtain ⟨db2, hrun, inv2⟩ := ih (done ++ [m]) db1 inv1
      (fun x hx => hms x (by simp [hx])) (by rw [← happ]; exact hk)
    refine ⟨db2, ?_, by rw [happ]; exact inv2⟩
    rw [DB.recordAll, hrec]
    exact hrun

/-! ## Lemmas on the scan as a sequence of `record` calls -/

theorem process_input_loop_by_parse (cap : Nat) :
    ∀ (fuel : Nat) (db : DB) (data : List Nat),
      process_input_loop_by parse cap fuel db data = process_input_loop cap fuel db data := by
  intro fuel
  induction fuel with
  | zero => intro db data; cases data <;> rfl
  | succ f ih =>
    intro db data
    cases data with
    | nil => rfl
    | cons c rest =>
      rw [process_input_loop_by, process_input_loop]
      cases parse (c :: rest) with
      | error e => rfl
      | ok r =>
        obtain ⟨record, iter1⟩ := r
        simp only
        cases db.record cap record with
        | error e => rfl
        | ok db1 => exact ih db1 iter1

theorem process_input_loop_by_nil (parser : List Nat → Except Fault (Measurement × List Nat))
    (cap fuel : Nat) (db : DB) : process_input_loop_by parser cap fuel db [] = .ok db := by
  cases fuel <;> rfl

/-- The scan of the records of `ls` is the sequence of `record` calls with
the records the parser returns, one for each line; the scan goes on with
what follows the lines. -/
theorem process_input_loop_by_encode
    (parser : List Nat → Except Fault (Measurement × List Nat)) (cap : Nat)
    (M : Line → Measurement) (ls : List Line) :
    (∀ l ∈ ls, ∀ rest, parser (l.key ++ 59 :: (l.tok.toBytes ++ 10 :: rest)) = .ok (M l, rest)) →
    ∀ (tail : List Nat) (db : DB) (fuel : Nat), ls.length ≤ fuel →
      process_input_loop_by parser cap fuel db (encode ls ++ tail)
        = Except.bind (DB.recordAll cap db (ls.map M))
            (fun db1 => process_input_loop_by parser cap (fuel - ls.length) db1 tail) := by
  induction ls with
  | nil =>
    intro _ tail db fuel _
    simp only [encode, List.nil_append, List.map_nil, DB.recordAll, List.length_nil, Nat.sub_zero]
    rfl
  | cons l ls ih =>
    intro hp tail db fuel hfuel
    obtain ⟨f, rfl⟩ : ∃ f, fuel = f + 1 := ⟨fuel - 1, by simp at hfuel; omega⟩
    have hparse := hp l (by simp) (encode ls ++ tail)
    obtain ⟨c, rest, hcr⟩ : ∃ c rest,
        l.key ++ 59 :: (l.tok.toBytes ++ 10 :: (encode ls ++ tail)) = c :: rest := by
      cases l.key with
      | nil => exact ⟨_, _, rfl⟩
      | cons c cs => exact ⟨_, _, rfl⟩
    have henc : encode (l :: ls) ++ tail
        = l.key ++ 59 :: (l.tok.toBytes ++ 10 :: (encode ls ++ tail)) := by
      simp [encode]
    rw [henc, hcr, process_input_loop_by, ← hcr, hparse]
    simp only [List.map_cons, DB.recordAll]
    cases hrec : db.record cap (M l) with
    | error e => rfl
    | ok db1 =>
      simp only
      rw [ih (fun x hx => hp x (by simp [hx])) tail db1 f (by simp at hfuel; omega)]
      simp

theorem parse_measurement (l : Line) (h59 : 59 ∉ l.key) (ht : l.tok.Valid) (rest : List Nat) :
    parse (l.key ++ 59 :: (l.tok.toBytes ++ 10 :: rest))
      = .ok (l.measurement keyHash, rest) :=
  parse_of_value h59 (parse_int_table_token l.tok ht rest)

theorem keyHash_lt (key : List Nat) : keyHash key < 65536 := by
  unfold keyHash
  induction key using List.reverseRecOn with
  | nil => decide
  | append_singleton ks c _ =>
    rw [List.foldl_append]
    simp only [List.foldl_cons, List.foldl_nil]
    omega

theorem parse_hashed_measurement (hashfn : List Nat → Nat) (l : Line) (h59 : 59 ∉ l.key)
    (ht : l.tok.Valid) (rest : List Nat) :
    parse_hashed hashfn (l.key ++ 59 :: (l.tok.toBytes ++ 10 :: rest))
      = .ok (l.measurement (fun k => hashfn k % 65536), rest) := by
  unfold parse_hashed
  rw [parse_measurement l h59 ht rest]
  rfl

theorem strchr_loop_key (k : List Nat) (h59 : 59 ∉ k) (h0 : 0 ∉ k) :
    ∀ (name rest : List Nat), strchr_loop name (k ++ 59 :: rest) = .ok (name ++ k, rest) := by
  induction k with
  | nil => intro name rest; simp [strchr_loop]
  | cons c cs ih =>
    intro name rest
    have hc : c ≠ 59 := fun hh => h59 (by simp [hh])
    have hc0 : c ≠ 0 := fun hh => h0 (by simp [hh])
    rw [List.cons_append, strchr_loop, if_neg hc, if_neg hc0,
      ih (fun hh => h59 (by simp [hh])) (fun hh => h0 (by simp [hh]))]
    simp

theorem parse_v2_measurement (hashfn : List Nat → Nat) (l : Line) (h59 : 59 ∉ l.key)
    (h0 : 0 ∉ l.key) (ht : l.tok.Valid) (rest : List Nat) :
    parse_v2 hashfn (l.key ++ 59 :: (l.tok.toBytes ++ 10 :: rest))
      = .ok (l.measurement (fun k => hashfn k % 65536), rest) := by
  unfold parse_v2
  rw [strchr_loop_key l.key h59 h0]
  simp only [List.nil_append]
  rw [parse_int_table_token l.tok ht rest]
  rfl

/-- The scan of a buffer of records is the sequence of `record` calls with
one record for each line. -/
theorem process_input_loop_by_records
    (parser : List Nat → Except Fault (Measurement × List Nat)) (cap : Nat)
    (M : Line → Measurement) (ls : List Line)
    (hp : ∀ l ∈ ls, ∀ rest,
      parser (l.key ++ 59 :: (l.tok.toBytes ++ 10 :: rest)) = .ok (M l, rest)) (db : DB) :
    process_input_loop_by parser cap (encode ls).length db (encode ls)
      = DB.recordAll cap db (ls.map M) := by
  have h := process_input_loop_by_encode parser cap M ls hp [] db (encode ls).length
    (length_le_encode_length ls)
  rw [List.append_nil] at h
  rw [h]
  cases DB.recordAll cap db (ls.map M) with
  | error e => rfl
  | ok db1 => exact process_input_loop_by_nil _ _ _ _

theorem process_input_records (ls : List Line) (h : ∀ l ∈ ls, 59 ∉ l.key ∧ l.tok.Valid) :
    process_input (encode ls)
      = DB.recordAll capacity07 DB.empty (ls.map (Line.measurement keyHash)) := by
  unfold process_input
  rw [← process_input_loop_by_parse]
  exact process_input_loop_by_records parse capacity07 _ ls
    (fun l hl rest => parse_measurement l (h l hl).1 (h l hl).2 rest) DB.empty

/-! ## Lemmas on scans that end without a table -/

theorem recordAll_append (cap : Nat) (xs ys : List Measurement) :
    ∀ db : DB, DB.recordAll cap db (xs ++ ys)
      = Except.bind (DB.recordAll cap db xs) (fun db1 => DB.recordAll cap db1 ys) := by
  induction xs with
  | nil => intro db; rfl
  | cons x xs ih =>
    intro db
    rw [List.cons_append, DB.recordAll, DB.recordAll]
    cases db.record cap x with
    | error e => rfl
    | ok db1 => exact ih db1

/-- After 65536 distinct keys every slot holds one of them. -/
theorem HashInv.full {hash : List Nat → Nat} {db : DB} {ms : List Measurement}
    (inv : HashInv hash db ms) (hne : ∀ m ∈ ms, m.name ≠ [])
    (hk : 65536 ≤ (namesOf ms).dedup.length) :
    ∀ e, e < 65536 → db.keys_ e ≠ [] ∧ db.keys_ e ∈ namesOf ms := by
  classical
  have hslot : ∀ k ∈ namesOf ms, ∃ s, db.keys_ s = k := by
    intro k hk1
    obtain ⟨m, hm, hname⟩ := List.mem_map.mp hk1
    obtain ⟨s, hs⟩ := inv.complete m hm (hne m hm)
    exact ⟨s, hs.trans hname⟩
  have hne1 : ∀ k ∈ namesOf ms, k ≠ [] := by
    intro k hk1
    obtain ⟨m, hm, hname⟩ := List.mem_map.mp hk1
    rw [← hname]; exact hne m hm
  let g : List Nat → Nat := fun k => if h : k ∈ namesOf ms then Classical.choose (hslot k h) else 0
  have hg : ∀ k ∈ namesOf ms, db.keys_ (g k) = k := by
    intro k hk1
    simp only [g, dif_pos hk1]
    exact Classical.choose_spec (hslot k hk1)
  have hsub : (namesOf ms).toFinset.image g ⊆ Finset.range 65536 := by
    intro s hs
    obtain ⟨k, hk1, rfl⟩ := Finset.mem_image.mp hs
    rw [List.mem_toFinset] at hk1
    rw [Finset.mem_range]
    exact inv.slot_bound (by rw [hg k hk1]; exact hne1 k hk1)
  have hcard : ((namesOf ms).toFinset.image g).card = (namesOf ms).toFinset.card := by
    apply Finset.card_image_of_injOn
    intro a ha b hb hab
    rw [Finset.mem_coe, List.mem_toFinset] at ha hb
    have h1 := hg a ha
    rw [show g a = g b from hab, hg b hb] at h1
    exact h1.symm
  have heq : (namesOf ms).toFinset.image g = Finset.range 65536 := by
    apply Finset.eq_of_subset_of_card_le hsub
    rw [hcard, Finset.card_range, List.card_toFinset]
    exact hk
  intro e he
  have hmem : e ∈ (namesOf ms).toFinset.image g := by rw [heq]; exact Finset.mem_range.mpr he
  obtain ⟨k, hk1, rfl⟩ := Finset.mem_image.mp hmem
  rw [List.mem_toFinset] at hk1
  rw [hg k hk1]
  exact ⟨hne1 k hk1, hk1⟩

theorem key4Lines_keys (n : Nat) : keysOf (key4Lines n) = (List.range n).map key4 := by
  simp [keysOf, key4Lines, Function.comp_def]

theorem key4_nodup (n : Nat) : ((List.range n).map key4).Nodup :=
  (List.nodup_range n).map (fun _ _ h => key4_injective h)

theorem key4Lines_wellFormed (n : Nat) : ∀ l ∈ key4Lines n, l.WellFormed := by
  intro l hl
  obtain ⟨i, _, rfl⟩ := List.mem_map.mp hl
  have hv : (ValueToken.mk false [49] (some 48)).Valid := by decide
  have hs : isInt16 (ValueToken.mk false [49] (some 48)).scaled := by decide
  refine ⟨key4_ne_nil i, ?_, ?_, hv, rfl, hs⟩
  · simp only [key4, List.mem_cons, List.mem_singleton, List.not_mem_nil, or_false]
    omega
  · simp only [key4, List.mem_cons, List.mem_singleton, List.not_mem_nil, or_false]
    omega

theorem namesOf_measurement (hash : List Nat → Nat) (ls : List Line) :
    namesOf (ls.map (Line.measurement hash)) = keysOf ls := by
  simp [namesOf, keysOf, Line.measurement, Function.comp_def]

/-- The table a scan builds, with its invariant. -/
theorem process_input_hashInv (ls : List Line)
    (hwf : ∀ l ∈ ls, l.key ≠ [] ∧ 59 ∉ l.key ∧ l.tok.Valid)
    (hk : (keysOf ls).dedup.length ≤ 65536) :
    ∃ db, process_input (encode ls) = .ok db ∧
      DB.recordAll capacity07 DB.empty (ls.map (Line.measurement keyHash)) = .ok db ∧
      HashInv keyHash db (ls.map (Line.measurement keyHash)) := by
  obtain ⟨db, hrec, inv⟩ := recordAll_hashInv keyHash (ls.map (Line.measurement keyHash)) []
    DB.empty (hashInv_empty _)
    (by
      intro m hm
      obtain ⟨l, hl, rfl⟩ := List.mem_map.mp hm
      exact ⟨(hwf l hl).1, rfl⟩)
    (by rw [List.nil_append, namesOf_measurement]; exact hk)
  refine ⟨db, ?_, hrec, by simpa using inv⟩
  rw [process_input_records ls (fun l hl => (hwf l hl).2), hrec]

/-! ## The scan of a buffer of records -/

/-- C21 fails on the code: the buffer of the 65537 records `key4 i;1.0\n`
(four-letter keys, all distinct, every record well-formed and terminated by
a newline) fills the 65536 slots with its first 65536 keys, and the probe
loop of `lookup_slot` for the last key never exits: `process_input` does not
terminate. -/
theorem process_input_diverges_65537_keys :
    (∀ l ∈ key4Lines 65537, l.WellFormed) ∧
    (keysOf (key4Lines 65537)).Nodup ∧ (key4Lines 65537).length = 65537 ∧
    process_input (encode (key4Lines 65537)) = .error .diverges := by
  refine ⟨key4Lines_wellFormed _, by rw [key4Lines_keys]; exact key4_nodup _,
    by simp [key4Lines], ?_⟩
  have hsplit : key4Lines 65537
      = key4Lines 65536 ++ [⟨key4 65536, ⟨false, [49], some 48⟩⟩] := by
    unfold key4Lines
    rw [List.range_succ, List.map_append]
    rfl
  have hwf : ∀ l ∈ key4Lines 65537, 59 ∉ l.key ∧ l.tok.Valid :=
    fun l hl => ⟨(key4Lines_wellFormed _ l hl).2.1, (key4Lines_wellFormed _ l hl).2.2.2.1⟩
  have hlen : (keysOf (key4Lines 65536)).dedup.length = 65536 := by
    rw [key4Lines_keys, (key4_nodup _).dedup, List.length_map, List.length_range]
  obtain ⟨db, _, hrec, inv⟩ := process_input_hashInv (key4Lines 65536)
    (fun l hl => ⟨(key4Lines_wellFormed _ l hl).1, (key4Lines_wellFormed _ l hl).2.1,
      (key4Lines_wellFormed _ l hl).2.2.2.1⟩) (le_of_eq hlen)
  have hfull := inv.full
    (by
      intro m hm
      obtain ⟨l, hl, rfl⟩ := List.mem_map.mp hm
      exact (key4Lines_wellFormed _ l hl).1)
    (by rw [namesOf_measurement, hlen])
  have hall : ∀ i, i < 65536 → ¬ stopsAt db.keys_
      (Line.measurement keyHash ⟨key4 65536, ⟨false, [49], some 48⟩⟩).name i := by
    intro i hi hst
    obtain ⟨hne, hmem⟩ := hfull i hi
    rcases hst with h | h
    · exact hne h
    · rw [namesOf_measurement, key4Lines_keys, h] at hmem
      obtain ⟨j, hj, hjk⟩ := List.mem_map.mp hmem
      have := key4_injective hjk
      rw [List.mem_range] at hj
      omega
  rw [process_input_records _ hwf, hsplit, List.map_append, recordAll_append, hrec]
  simp only [Except.bind, List.map_cons, List.map_nil, DB.recordAll]
  rw [record_of_no_stop db _ hall]

/-- C28: after any sequence of `record` calls with non-empty keys, each with
the hash that belongs to its key (`hash`, any function of the key), and at
most 65536 distinct keys (so also fewer than 65536), `record` has returned
every time, no two occupied slots store the same key, and `filled_` holds
the index of every occupied slot, once, and no other index; the occupied
slots are slots of the table. -/
theorem recordAll_table_invariant (hash : List Nat → Nat) (ms : List Measurement)
    (hms : ∀ m ∈ ms, m.name ≠ [] ∧ m.hash = hash m.name)
    (hk : (namesOf ms).dedup.length ≤ 65536) :
    ∃ db, DB.recordAll capacity07 DB.empty ms = .ok db ∧
      (∀ a b, db.keys_ a ≠ [] → db.keys_ a = db.keys_ b → a = b) ∧
      (∀ s, s ∈ db.filled_ ↔ db.keys_ s ≠ []) ∧ db.filled_.Nodup ∧
      (∀ s, db.keys_ s ≠ [] → s < 65536) := by
  obtain ⟨db, hrec, inv⟩ := recordAll_hashInv hash ms [] DB.empty (hashInv_empty _) hms
    (by simpa using hk)
  rw [List.nil_append] at inv
  exact ⟨db, hrec, fun a b ha hab => inv.slot_unique ha hab, inv.filled, inv.nodup,
    fun s hs => inv.slot_bound hs⟩

theorem recordAll_table_invariant_witness :
    ∃ db, DB.recordAll capacity07 DB.empty [⟨[120], 120, 10⟩, ⟨[121], 121, 25⟩, ⟨[120], 120, 30⟩]
        = .ok db ∧
      (∀ a b, db.keys_ a ≠ [] → db.keys_ a = db.keys_ b → a = b) ∧
      (∀ s, s ∈ db.filled_ ↔ db.keys_ s ≠ []) ∧ db.filled_.Nodup ∧
      (∀ s, db.keys_ s ≠ [] → s < 65536) :=
  recordAll_table_invariant keyHash [⟨[120], 120, 10⟩, ⟨[121], 121, 25⟩, ⟨[120], 120, 30⟩]
    (by decide) (by decide)

/-! ## The last free slot -/

theorem key4Records_names (n : Nat) : namesOf (key4Records n) = (List.range n).map key4 := by
  simp [namesOf, key4Records, Function.comp_def]

/-- C23: when the table holds exactly 65535 distinct keys (non-empty, each
recorded with the hash `hash` gives its key), `record` of one more key
terminates and stores it in the slot `lookup_slot` returns, the one free
slot, with count 1 and sum = min = max = value, and it is found there
afterwards; every earlier key keeps its slot, its key and its stats, and
`lookup_slot` returns that slot before and after. -/
theorem record_last_free_slot (hash : List Nat → Nat) (ms : List Measurement)
    (m : Measurement) (hms : ∀ x ∈ ms ++ [m], x.name ≠ [] ∧ x.hash = hash x.name)
    (hk : (namesOf ms).dedup.length = 65535) (hnew : m.name ∉ namesOf ms) :
    ∃ db db1 s, DB.recordAll capacity07 DB.empty ms = .ok db ∧
      db.record capacity07 m = .ok db1 ∧
      lookup_slot capacity07 db m = .ok s ∧ db.keys_ s = [] ∧
      db1.keys_ s = m.name ∧ db1.values_ s = ⟨1, m.value, m.value, m.value⟩ ∧
      lookup_slot capacity07 db1 m = .ok s ∧
      ∀ x ∈ ms, ∃ t, db.keys_ t = x.name ∧ db1.keys_ t = x.name ∧
        db1.values_ t = db.values_ t ∧
        lookup_slot capacity07 db x = .ok t ∧ lookup_slot capacity07 db1 x = .ok t := by
  obtain ⟨db, hrec, inv⟩ := recordAll_hashInv hash ms [] DB.empty (hashInv_empty _)
    (fun x hx => hms x (by simp [hx])) (by rw [List.nil_append, hk]; decide)
  rw [List.nil_append] at inv
  have hm := hms m (by simp)
  have hk1 : (namesOf (ms ++ [m])).dedup.length ≤ 65536 := by
    have happ : namesOf (ms ++ [m]) = namesOf ms ++ [m.name] := by simp [namesOf]
    rw [happ, dedup_length_append_new hnew, hk]
  obtain ⟨db1, s, hstep, hlook, hs_lt, hkey, inv1⟩ := hashInv_step inv hm.1 hm.2 hk1
  have hs1 : db1.keys_ s ≠ [] := by rw [hkey]; exact hm.1
  have hnil : valsOf m.name ms = [] := by
    by_contra h
    exact hnew ((valsOf_ne_nil_iff _ _).mp h)
  have h0 : db.keys_ s = [] := by
    by_contra h
    have := record_keys_of_occupied hstep h
    rw [hkey] at this
    exact hnew (this ▸ inv.key_recorded h)
  refine ⟨db, db1, s, hrec, hstep, hlook, h0, hkey, ?_, ?_, ?_⟩
  · have := inv1.vals s hs1
    rw [hkey, valsOf_append_same _ _ _ rfl, hnil] at this
    simp only [List.nil_append, recOpt, List.foldl_nil, Option.some.injEq] at this
    exact this.symm
  · have := inv1.found s hs1
    rw [hkey, ← hm.2] at this
    exact this
  · intro x hx
    have hxm := hms x (by simp [hx])
    obtain ⟨t, ht⟩ := inv.complete x hx hxm.1
    have ht0 : db.keys_ t ≠ [] := by rw [ht]; exact hxm.1
    have ht1 : db1.keys_ t = x.name := (record_keys_of_occupied hstep ht0).trans ht
    have hne : m.name ≠ x.name := by
      intro h
      exact hnew (h ▸ List.mem_map.mpr ⟨x, hx, rfl⟩)
    refine ⟨t, ht, ht1, ?_, ?_, ?_⟩
    · have h1 := inv.vals t ht0
      have h2 := inv1.vals t (by rw [ht1]; exact hxm.1)
      rw [ht1, valsOf_append_other _ _ _ hne] at h2
      rw [ht, h2] at h1
      injection h1
    · have := inv.found t ht0
      rw [ht, ← hxm.2] at this
      exact this
    · have := inv1.found t (by rw [ht1]; exact hxm.1)
      rw [ht1, ← hxm.2] at this
      exact this

theorem record_last_free_slot_witness :
    ∃ db db1 s, DB.recordAll capacity07 DB.empty (key4Records 65535) = .ok db ∧
      db.record capacity07 ⟨key4 65535, keyHash (key4 65535), 25⟩ = .ok db1 ∧
      lookup_slot capacity07 db ⟨key4 65535, keyHash (key4 65535), 25⟩ = .ok s ∧
      db.keys_ s = [] ∧
      db1.keys_ s = key4 65535 ∧ db1.values_ s = ⟨1, 25, 25, 25⟩ ∧
      lookup_slot capacity07 db1 ⟨key4 65535, keyHash (key4 65535), 25⟩ = .ok s ∧
      ∀ x ∈ key4Records 65535, ∃ t, db.keys_ t = x.name ∧ db1.keys_ t = x.name ∧
        db1.values_ t = db.values_ t ∧
        lookup_slot capacity07 db x = .ok t ∧ lookup_slot capacity07 db1 x = .ok t :=
  record_last_free_slot keyHash (key4Records 65535) ⟨key4 65535, keyHash (key4 65535), 25⟩
    (by
      intro x hx
      rcases List.mem_append.mp hx with hx | hx
      · obtain ⟨i, _, rfl⟩ := List.mem_map.mp hx
        exact ⟨key4_ne_nil i, rfl⟩
      · rw [List.mem_singleton.mp hx]
        exact ⟨key4_ne_nil _, rfl⟩)
    (by rw [key4Records_names, (key4_nodup _).dedup, List.length_map, List.length_range])
    (by
      rw [key4Records_names]
      intro h
      obtain ⟨j, hj, hjk⟩ := List.mem_map.mp h
      have := key4_injective hjk
      rw [List.mem_range] at hj
      omega)

/-! ## Lemmas on the mapping a table holds -/

theorem lookup_map_slots (keys_ : Nat → List Nat) (values_ : Nat → Record) (k : List Nat)
    (s : Nat) (hk : keys_ s = k) :
    ∀ (l : List Nat), s ∈ l → (∀ i ∈ l, keys_ i = k → i = s) →
      (l.map (fun idx => (keys_ idx, values_ idx))).lookup k = some (values_ s) := by
  intro l
  induction l with
  | nil => intro h; cases h
  | cons i l ih =>
    intro hs huniq
    rw [List.map_cons, List.lookup_cons]
    by_cases hi : keys_ i = k
    · have : i = s := huniq i (by simp) hi
      subst this
      have hb : (k == keys_ i) = true := by simpa using hi.symm
      rw [hb]
    · have hb : (k == keys_ i) = false := by simpa using fun h => hi h.symm
      rw [hb]
      have hs1 : s ∈ l := by
        rcases List.mem_cons.mp hs with h | h
        · exact absurd (h ▸ hk) hi
        · exact h
      exact ih hs1 (fun j hj => huniq j (by simp [hj]))

theorem lookup_map_slots_none (keys_ : Nat → List Nat) (values_ : Nat → Record) (k : List Nat) :
    ∀ (l : List Nat), (∀ i ∈ l, keys_ i ≠ k) →
      (l.map (fun idx => (keys_ idx, values_ idx))).lookup k = none := by
  intro l
  induction l with
  | nil => intro _; rfl
  | cons i l ih =>
    intro h
    have hb : (k == keys_ i) = false := by simpa using fun hh => h i (by simp) hh.symm
    rw [List.map_cons, List.lookup_cons, hb]
    exact ih (fun j hj => h j (by simp [hj]))

/-- The mapping a table holds: for every key the record of the values
recorded for it, none for a key that was not recorded. -/
theorem HashInv.held {hash : List Nat → Nat} {db : DB} {ms : List Measurement}
    (inv : HashInv hash db ms) (hne : ∀ m ∈ ms, m.name ≠ []) (k : List Nat) :
    db.held k = recOpt (valsOf k ms) := by
  unfold DB.held DB.entries
  by_cases hk : k ∈ namesOf ms
  · obtain ⟨m, hm, hname⟩ := List.mem_map.mp hk
    have hkne : k ≠ [] := by rw [← hname]; exact hne m hm
    obtain ⟨s, hs⟩ := inv.complete m hm (hne m hm)
    have hks : db.keys_ s = k := hs.trans hname
    have hs0 : db.keys_ s ≠ [] := by rw [hks]; exact hkne
    rw [lookup_map_slots db.keys_ db.values_ k s hks db.filled_ ((inv.filled s).mpr hs0)
      (fun i _ hi => (inv.slot_unique hs0 (hks.trans hi.symm)).symm)]
    have := inv.vals s hs0
    rw [hks] at this
    exact this.symm
  · have hnil : valsOf k ms = [] := by
      by_contra h
      exact hk ((valsOf_ne_nil_iff _ _).mp h)
    rw [hnil, lookup_map_slots_none]
    · rfl
    · intro i hi hik
      have hi0 := (inv.filled i).mp hi
      exact hk (hik ▸ inv.key_recorded hi0)

/-! ## Lemmas on the table of 05_fixed_point.cpp -/

theorem lookup_record05 (db : DB05) (station : List Nat) (value : Int) (k : List Nat) :
    (record05 db station value).lookup k
      = if station = k then recStep (db.lookup k) value else db.lookup k := by
  unfold record05
  cases hl : db.lookup station with
  | none =>
    simp only [List.lookup_append]
    by_cases hk : station = k
    · subst hk
      simp [hl, recStep, List.lookup_cons]
    · have hb : (k == station) = false := by simpa using fun h => hk h.symm
      simp [hk, List.lookup_cons, hb]
  | some r =>
    simp only
    rw [lookup_assign]
    by_cases hk : station = k
    · subst hk
      simp [hl, recStep]
    · rw [if_neg hk, if_neg (fun h => hk (Eq.symm h))]

theorem lookup_foldl_record05 (ls : List Line) (k : List Nat) :
    ∀ db : DB05,
      (ls.foldl (fun d l => record05 d l.key (tokenResult l.tok)) db).lookup k
        = (valsOf k (ls.map (Line.measurement keyHash))).foldl recStep (db.lookup k) := by
  induction ls with
  | nil => intro db; simp [valsOf]
  | cons l ls ih =>
    intro db
    rw [List.foldl_cons, ih, lookup_record05]
    by_cases hk : l.key = k
    · simp [valsOf, Line.measurement, hk, List.filter_cons]
    · simp [valsOf, Line.measurement, hk, List.filter_cons]

theorem parse_station_loop_key (k : List Nat) (h59 : 59 ∉ k) :
    ∀ (name rest : List Nat),
      parse_station_loop name (k ++ 59 :: rest) = .ok (name ++ k, rest) := by
  induction k with
  | nil => intro name rest; simp [parse_station_loop]
  | cons c cs ih =>
    intro name rest
    have hc : c ≠ 59 := fun hh => h59 (by simp [hh])
    rw [List.cons_append, parse_station_loop, if_neg hc, ih (fun hh => h59 (by simp [hh]))]
    simp

/-- The scan of 05_fixed_point.cpp over a buffer of records is the sequence
of its `record` calls, one for each line. -/
theorem process_input05_loop_encode (ls : List Line)
    (hwf : ∀ l ∈ ls, 59 ∉ l.key ∧ l.tok.Valid) :
    ∀ (db : DB05) (fuel : Nat), ls.length ≤ fuel →
      process_input05_loop fuel db (encode ls)
        = .ok (ls.foldl (fun d l => record05 d l.key (tokenResult l.tok)) db) := by
  induction ls with
  | nil =>
    intro db fuel _
    cases fuel <;> rfl
  | cons l ls ih =>
    intro db fuel hfuel
    obtain ⟨f, rfl⟩ : ∃ f, fuel = f + 1 := ⟨fuel - 1, by simp at hfuel; omega⟩
    have hl := hwf l (by simp)
    obtain ⟨c, rest, hcr⟩ : ∃ c rest,
        l.key ++ 59 :: (l.tok.toBytes ++ 10 :: encode ls) = c :: rest := by
      cases l.key with
      | nil => exact ⟨_, _, rfl⟩
      | cons c cs => exact ⟨_, _, rfl⟩
    have hst : parse_station (l.key ++ 59 :: (l.tok.toBytes ++ 10 :: encode ls))
        = .ok (l.key, l.tok.toBytes ++ 10 :: encode ls) := by
      unfold parse_station
      rw [parse_station_loop_key l.key hl.1]
      simp
    rw [encode, hcr, process_input05_loop, ← hcr, hst]
    simp only
    rw [parse_value_token l.tok hl.2]
    simp only [List.foldl_cons]
    exact ih (fun x hx => hwf x (by simp [hx])) _ f (by simp at hfuel; omega)

theorem HashInv.keys_nodup {hash : List Nat → Nat} {db : DB} {ms : List Measurement}
    (inv : HashInv hash db ms) : (db.filled_.map db.keys_).Nodup := by
  apply List.Nodup.map_on _ inv.nodup
  intro a ha b _ hab
  exact inv.slot_unique ((inv.filled a).mp ha) hab

theorem HashInv.mem_keys {hash : List Nat → Nat} {db : DB} {ms : List Measurement}
    (inv : HashInv hash db ms) (hne : ∀ m ∈ ms, m.name ≠ []) (k : List Nat) :
    k ∈ db.filled_.map db.keys_ ↔ k ∈ namesOf ms := by
  constructor
  · intro h
    obtain ⟨idx, hidx, rfl⟩ := List.mem_map.mp h
    exact inv.key_recorded ((inv.filled idx).mp hidx)
  · intro h
    obtain ⟨m, hm, hname⟩ := List.mem_map.mp h
    obtain ⟨s, hs⟩ := inv.complete m hm (hne m hm)
    have hs0 : db.keys_ s ≠ [] := by rw [hs]; exact hne m hm
    exact List.mem_map.mpr ⟨s, (inv.filled s).mpr hs0, hs.trans hname⟩

/-- The entries `format_output` visits, in terms of the sorted keys. -/
theorem HashInv.sorted_entries {hash : List Nat → Nat} {db : DB} {ms : List Measurement}
    (inv : HashInv hash db ms) :
    db.sort_slots.filled_.map (fun k => (db.sort_slots.keys_ k, db.sort_slots.values_ k))
      = (db.sort_slots.filled_.map db.keys_).map
          (fun k => (k, (recOpt (valsOf k ms)).getD ⟨0, 0, 0, 0⟩)) := by
  rw [List.map_map]
  apply List.map_congr_left
  intro idx hidx
  have hmem : idx ∈ db.filled_ := (List.mem_insertionSort _).mp hidx
  have := inv.vals idx ((inv.filled idx).mp hmem)
  simp only [Function.comp, this, Option.getD_some]
  rfl

/-- Two tables built from records with the same keys and values, whatever
the hashes, are written alike by `format_output`. -/
theorem format_output_of_same_values {hash1 hash2 : List Nat → Nat} {db1 db2 : DB}
    {ms1 ms2 : List Measurement} (inv1 : HashInv hash1 db1 ms1) (inv2 : HashInv hash2 db2 ms2)
    (hne1 : ∀ m ∈ ms1, m.name ≠ []) (hne2 : ∀ m ∈ ms2, m.name ≠ [])
    (hvals : ∀ k, valsOf k ms1 = valsOf k ms2) :
    (db1.filled_.map db1.keys_).Perm (db2.filled_.map db2.keys_) ∧
      format_output db1 = format_output db2 := by
  have hnames : ∀ k, k ∈ namesOf ms1 ↔ k ∈ namesOf ms2 := by
    intro k
    rw [← valsOf_ne_nil_iff, ← valsOf_ne_nil_iff, hvals]
  have hperm : (db1.filled_.map db1.keys_).Perm (db2.filled_.map db2.keys_) := by
    rw [List.perm_ext_iff_of_nodup inv1.keys_nodup inv2.keys_nodup]
    intro k
    rw [inv1.mem_keys hne1, inv2.mem_keys hne2, hnames]
  refine ⟨hperm, ?_⟩
  have h1 := insertionSort_strict db1.keys_ db1.filled_ inv1.keys_nodup
  have h2 := insertionSort_strict db2.keys_ db2.filled_ inv2.keys_nodup
  have hkeys : db1.sort_slots.filled_.map db1.keys_ = db2.sort_slots.filled_.map db2.keys_ := by
    apply List.eq_of_perm_of_sorted _ h1.1 h2.1
    exact ((h1.2.map _).trans hperm).trans (h2.2.map _).symm
  unfold format_output
  rw [inv1.sorted_entries, inv2.sorted_entries, hkeys]
  simp only [hvals]

theorem valsOf_measurement (hash1 hash2 : List Nat → Nat) (ls : List Line) (k : List Nat) :
    valsOf k (ls.map (Line.measurement hash1)) = valsOf k (ls.map (Line.measurement hash2)) := by
  induction ls with
  | nil => rfl
  | cons l ls ih =>
    unfold valsOf at ih ⊢
    by_cases hk : l.key = k
    · simp [Line.measurement, List.filter_cons, hk] at ih ⊢
      exact ih
    · simp [Line.measurement, List.filter_cons, hk] at ih ⊢
      exact ih

/-- The table of a scan with a hash function, with its invariant. -/
theorem process_input_loop_by_hashInv
    (parser : List Nat → Except Fault (Measurement × List Nat)) (hash : List Nat → Nat)
    (ls : List Line)
    (hp : ∀ l ∈ ls, ∀ rest,
      parser (l.key ++ 59 :: (l.tok.toBytes ++ 10 :: rest)) = .ok (l.measurement hash, rest))
    (hne : ∀ l ∈ ls, l.key ≠ []) (hk : (keysOf ls).dedup.length ≤ 65536) :
    ∃ db, process_input_loop_by parser capacity07 (encode ls).length DB.empty (encode ls)
        = .ok db ∧
      HashInv hash db (ls.map (Line.measurement hash)) := by
  obtain ⟨db, hrec, inv⟩ := recordAll_hashInv hash (ls.map (Line.measurement hash)) []
    DB.empty (hashInv_empty _)
    (by
      intro m hm
      obtain ⟨l, hl, rfl⟩ := List.mem_map.mp hm
      exact ⟨hne l hl, rfl⟩)
    (by rw [List.nil_append, namesOf_measurement]; exact hk)
  refine ⟨db, ?_, by simpa using inv⟩
  rw [process_input_loop_by_records parser capacity07 _ ls hp, hrec]

theorem measurement_name_ne_nil (hash : List Nat → Nat) (ls : List Line)
    (hne : ∀ l ∈ ls, l.key ≠ []) : ∀ m ∈ ls.map (Line.measurement hash), m.name ≠ [] := by
  intro m hm
  obtain ⟨l, hl, rfl⟩ := List.mem_map.mp hm
  exact hne l hl

/-! ## The table and the map -/

/-- C29: for every buffer of well-formed records (non-empty keys without
`;`, value tokens of the grammar, at most 65536 distinct keys), both
`process_input` of 07_better_parsing.cpp and `process_input` of
05_fixed_point.cpp return, and the open-addressing table holds for every
key the record the map holds for it, and none for a key the map does not
hold; the table holds every key in one filled slot. -/
theorem process_input_table_eq_map (ls : List Line)
    (hwf : ∀ l ∈ ls, l.key ≠ [] ∧ 59 ∉ l.key ∧ l.tok.Valid)
    (hk : (keysOf ls).dedup.length ≤ 65536) :
    ∃ db db05, process_input (encode ls) = .ok db ∧ process_input05 (encode ls) = .ok db05 ∧
      (∀ k, db.held k = db05.lookup k) ∧ (db.filled_.map db.keys_).Nodup := by
  obtain ⟨db, hrun, _, inv⟩ := process_input_hashInv ls hwf hk
  refine ⟨db, _, hrun,
    process_input05_loop_encode ls (fun l hl => (hwf l hl).2) [] _ (length_le_encode_length ls),
    ?_, inv.keys_nodup⟩
  intro k
  rw [inv.held (measurement_name_ne_nil _ ls (fun l hl => (hwf l hl).1)) k,
    lookup_foldl_record05, recOpt_eq_foldl]
  rfl

theorem process_input_table_eq_map_witness :
    ∃ db db05,
      process_input (encode [⟨[120], ⟨false, [49], some 48⟩⟩, ⟨[121], ⟨true, [50], some 53⟩⟩,
        ⟨[120], ⟨false, [51], some 48⟩⟩]) = .ok db ∧
      process_input05 (encode [⟨[120], ⟨false, [49], some 48⟩⟩, ⟨[121], ⟨true, [50], some 53⟩⟩,
        ⟨[120], ⟨false, [51], some 48⟩⟩]) = .ok db05 ∧
      (∀ k, db.held k = db05.lookup k) ∧ (db.filled_.map db.keys_).Nodup :=
  process_input_table_eq_map [⟨[120], ⟨false, [49], some 48⟩⟩, ⟨[121], ⟨true, [50], some 53⟩⟩,
    ⟨[120], ⟨false, [51], some 48⟩⟩] (by decide) (by decide)

/-- A sequence of `record` calls with more than 65536 distinct keys fills
the table and then never returns. -/
theorem recordAll_diverges (hash : List Nat → Nat) (ms : List Measurement) :
    (∀ m ∈ ms, m.name ≠ [] ∧ m.hash = hash m.name) →
    65536 < (namesOf ms).dedup.length →
    DB.recordAll capacity07 DB.empty ms = .error .diverges := by
  induction ms using List.reverseRecOn with
  | nil => intro _ h; simp [namesOf] at h
  | append_singleton init m ih =>
    intro hms hk
    have hinit : ∀ x ∈ init, x.name ≠ [] ∧ x.hash = hash x.name :=
      fun x hx => hms x (by simp [hx])
    rw [recordAll_append]
    by_cases hmany : 65536 < (namesOf init).dedup.length
    · rw [ih hinit hmany]
      rfl
    · have happ : namesOf (init ++ [m]) = namesOf init ++ [m.name] := by simp [namesOf]
      have hnew : m.name ∉ namesOf init := by
        intro hmem
        have : (namesOf init ++ [m.name]).dedup.length = (namesOf init).dedup.length := by
          rw [← List.card_toFinset, ← List.card_toFinset]
          congr 1
          ext a
          simp only [List.mem_toFinset, List.mem_append, List.mem_singleton]
          constructor
          · rintro (h | h)
            · exact h
            · rw [h]; exact hmem
          · intro h; exact Or.inl h
        rw [happ, this] at hk
        exact hmany hk
      have hlen : (namesOf init).dedup.length = 65536 := by
        rw [happ, dedup_length_append_new hnew] at hk
        omega
      obtain ⟨db, hrec, inv⟩ := recordAll_hashInv hash init [] DB.empty (hashInv_empty _) hinit
        (by rw [List.nil_append, hlen])
      rw [List.nil_append] at inv
      have hfull := inv.full (fun x hx => (hinit x hx).1) (le_of_eq hlen.symm)
      have hall : ∀ i, i < 65536 → ¬ stopsAt db.keys_ m.name i := by
        intro i hi hst
        obtain ⟨hne, hmem⟩ := hfull i hi
        rcases hst with h | h
        · exact hne h
        · exact hnew (h ▸ hmem)
      rw [hrec]
      simp only [Except.bind, DB.recordAll]
      rw [record_of_no_stop db m hall]

/-! ## The hash function -/

/-- C30: for any two hash functions `hash1`, `hash2` of the key (stored in a
`uint16_t`) and every buffer of well-formed records (non-empty keys without
`;`, value tokens of the grammar), the scan that gives each record the hash
of the one function and the scan with the other do the same: with at most
65536 distinct keys both return, their tables hold the same keys, for every
key the same record, and `format_output` writes the same bytes for both;
with more than 65536 distinct keys neither terminates.  The scan with the
rolling hash is `process_input`, and the scan with `parse_v2` is the scan
with the hash function that stands for `std::hash`, for keys without a NUL
byte (at which `strchr` stops). -/
theorem process_input_hash_independent (hash1 hash2 : List Nat → Nat) (ls : List Line)
    (hwf : ∀ l ∈ ls, l.key ≠ [] ∧ 59 ∉ l.key ∧ l.tok.Valid) :
    ((keysOf ls).dedup.length ≤ 65536 →
      ∃ db1 db2, process_input_hashed hash1 (encode ls) = .ok db1 ∧
        process_input_hashed hash2 (encode ls) = .ok db2 ∧
        (db1.filled_.map db1.keys_).Perm (db2.filled_.map db2.keys_) ∧
        (∀ k, db1.held k = db2.held k) ∧
        format_output db1 = format_output db2) ∧
    (65536 < (keysOf ls).dedup.length →
      process_input_hashed hash1 (encode ls) = .error .diverges ∧
        process_input_hashed hash2 (encode ls) = .error .diverges) ∧
    process_input_hashed keyHash (encode ls) = process_input (encode ls) ∧
    ((∀ l ∈ ls, 0 ∉ l.key) →
      process_input_v2 hash1 (encode ls) = process_input_hashed hash1 (encode ls)) := by
  have hne : ∀ l ∈ ls, l.key ≠ [] := fun l hl => (hwf l hl).1
  have hp : ∀ hash : List Nat → Nat, ∀ l ∈ ls, ∀ rest,
      parse_hashed hash (l.key ++ 59 :: (l.tok.toBytes ++ 10 :: rest))
        = .ok (l.measurement (fun k => hash k % 65536), rest) :=
    fun hash l hl rest => parse_hashed_measurement hash l (hwf l hl).2.1 (hwf l hl).2.2 rest
  refine ⟨?_, ?_, ?_, ?_⟩
  · intro hk
    obtain ⟨db1, hrun1, inv1⟩ := process_input_loop_by_hashInv (parse_hashed hash1)
      (fun k => hash1 k % 65536) ls (hp hash1) hne hk
    obtain ⟨db2, hrun2, inv2⟩ := process_input_loop_by_hashInv (parse_hashed hash2)
      (fun k => hash2 k % 65536) ls (hp hash2) hne hk
    have hfmt := format_output_of_same_values inv1 inv2 (measurement_name_ne_nil _ ls hne)
      (measurement_name_ne_nil _ ls hne) (valsOf_measurement _ _ ls)
    refine ⟨db1, db2, hrun1, hrun2, hfmt.1, ?_, hfmt.2⟩
    intro k
    rw [inv1.held (measurement_name_ne_nil _ ls hne) k,
      inv2.held (measurement_name_ne_nil _ ls hne) k,
      valsOf_measurement _ (fun k => hash2 k % 65536) ls k]
  · intro hk
    have hdiv : ∀ hash : List Nat → Nat,
        process_input_hashed hash (encode ls) = .error .diverges := by
      intro hash
      unfold process_input_hashed
      rw [process_input_loop_by_records (parse_hashed hash) capacity07 _ ls (hp hash)]
      apply recordAll_diverges (fun k => hash k % 65536)
      · intro m hm
        obtain ⟨l, hl, rfl⟩ := List.mem_map.mp hm
        exact ⟨hne l hl, rfl⟩
      · rw [namesOf_measurement]; exact hk
    exact ⟨hdiv hash1, hdiv hash2⟩
  · have hm : ls.map (Line.measurement (fun k => keyHash k % 65536))
        = ls.map (Line.measurement keyHash) := by
      apply List.map_congr_left
      intro l _
      simp only [Line.measurement, Nat.mod_eq_of_lt (keyHash_lt l.key)]
    unfold process_input_hashed
    rw [process_input_loop_by_records (parse_hashed keyHash) capacity07 _ ls (hp keyHash), hm,
      process_input_records ls (fun l hl => (hwf l hl).2)]
  · intro h0
    unfold process_input_v2 process_input_hashed
    rw [process_input_loop_by_records (parse_hashed hash1) capacity07 _ ls (hp hash1),
      process_input_loop_by_records (parse_v2 hash1) capacity07 _ ls
        (fun l hl rest => parse_v2_measurement hash1 l (hwf l hl).2.1 (h0 l hl)
          (hwf l hl).2.2 rest)]

theorem process_input_hash_independent_witness :
    ∃ db1 db2,
      process_input_hashed keyHash (encode [⟨[120], ⟨false, [49], some 48⟩⟩,
        ⟨[121], ⟨true, [50], some 53⟩⟩, ⟨[120], ⟨false, [51], some 48⟩⟩]) = .ok db1 ∧
      process_input_hashed (fun _ => 65535) (encode [⟨[120], ⟨false, [49], some 48⟩⟩,
        ⟨[121], ⟨true, [50], some 53⟩⟩, ⟨[120], ⟨false, [51], some 48⟩⟩]) = .ok db2 ∧
      (db1.filled_.map db1.keys_).Perm (db2.filled_.map db2.keys_) ∧
      (∀ k, db1.held k = db2.held k) ∧
      format_output db1 = format_output db2 :=
  (process_input_hash_independent keyHash (fun _ => 65535)
    [⟨[120], ⟨false, [49], some 48⟩⟩, ⟨[121], ⟨true, [50], some 53⟩⟩,
      ⟨[120], ⟨false, [51], some 48⟩⟩] (by decide)).1 (by decide)

/-! ## Lemmas on the printed numbers -/

theorem natDigitsAux_ne_nil :
    ∀ (fuel n : Nat) (acc : List Nat), acc ≠ [] → natDigitsAux fuel n acc ≠ [] := by
  intro fuel
  induction fuel with
  | zero => intro n acc h; simpa [natDigitsAux] using h
  | succ f ih =>
    intro n acc _
    rw [natDigitsAux]
    by_cases hn : n < 10
    · rw [if_pos hn]; simp
    · rw [if_neg hn]; exact ih _ _ (by simp)

theorem natDigits_ne_nil (n : Nat) : natDigits n ≠ [] := by
  unfold natDigits
  rw [natDigitsAux]
  by_cases hn : n < 10
  · rw [if_pos hn]; simp
  · rw [if_neg hn]; exact natDigitsAux_ne_nil _ _ _ (by simp)

theorem accZ_cons (r : Int) (c : Nat) (ds : List Nat) :
    accZ r (c :: ds) = accZ (10 * r + ((c : Int) - 48)) ds := by
  simp [accZ]

theorem digitsVal_eq_accZ (ds : List Nat) : ValueToken.digitsVal ds = accZ 0 ds := rfl

/-- The digits printed for `n` denote `n`. -/
theorem natDigitsAux_val :
    ∀ (fuel n : Nat) (acc : List Nat), n < fuel →
      ValueToken.digitsVal (natDigitsAux fuel n acc) = accZ (n : Int) acc := by
  intro fuel
  induction fuel with
  | zero => intro n acc h; omega
  | succ f ih =>
    intro n acc h
    rw [natDigitsAux]
    by_cases hn : n < 10
    · rw [if_pos hn, digitsVal_eq_accZ, accZ_cons]
      congr 1
      push_cast
      omega
    · rw [if_neg hn, ih (n / 10) _ (by omega), accZ_cons]
      congr 1
      push_cast
      omega

theorem natDigits_val (n : Nat) : ValueToken.digitsVal (natDigits n) = n := by
  unfold natDigits
  rw [natDigitsAux_val (n + 1) n [] (by omega)]
  simp [accZ]

/-- What `format_output` prints for a scaled value is a token of the input
grammar with one fractional digit. -/
theorem fmt1_eq_toBytes (q : Int) :
    fmt1 q = (ValueToken.mk (decide (q < 0)) (natDigits (q.natAbs / 10))
      (some (48 + q.natAbs % 10))).toBytes := by
  unfold fmt1 ValueToken.toBytes ValueToken.fracBytes
  by_cases h : q < 0
  · simp [h]
  · simp [h]

theorem fmt1_token_valid (q : Int) :
    (ValueToken.mk (decide (q < 0)) (natDigits (q.natAbs / 10))
      (some (48 + q.natAbs % 10))).Valid := by
  refine ⟨natDigits_ne_nil _, natDigitsAux_isDigit _ _ [] (by simp), ?_⟩
  intro f hf
  simp only [Option.mem_def, Option.some.injEq] at hf
  subst hf
  unfold isDigit
  omega

theorem fmt1_token_digitsRead (q : Int) :
    (ValueToken.mk (decide (q < 0)) (natDigits (q.natAbs / 10))
      (some (48 + q.natAbs % 10))).digitsRead = q := by
  unfold ValueToken.digitsRead ValueToken.sign
  simp only [natDigits_val]
  by_cases h : q < 0
  · have ha : (q.natAbs : Int) = -q := Int.ofNat_natAbs_of_nonpos (le_of_lt h)
    have hdec : decide (q < 0) = true := decide_eq_true h
    rw [hdec, if_pos rfl]
    generalize q.natAbs = a at ha
    push_cast
    omega
  · have ha : (q.natAbs : Int) = q := Int.natAbs_of_nonneg (not_lt.mp h)
    have hdec : decide (q < 0) = false := decide_eq_false h
    rw [hdec, if_neg (by decide)]
    generalize q.natAbs = a at ha
    push_cast
    omega

/-! ## The round trip of the number formats -/

/-- C32: for every scaled value `v` in the `int16_t` range, the text
`format_output` prints for `v` (`v / 10.0` with one fractional digit),
followed by a newline, is parsed by `parse_int_table` back to `v`, with the
cursor left after the newline; the text is a token of the input grammar
`-?\d+\.\d`. -/
theorem fmt1_parse_round_trip (v : Int) (hv : isInt16 v) (rest : List Nat) :
    parse_int_table (fmt1 v ++ 10 :: rest) = .ok (v, rest) ∧
    ∃ t : ValueToken, t.Valid ∧ t.frac.isSome ∧ fmt1 v = t.toBytes ∧ t.scaled = v := by
  have hd := fmt1_token_digitsRead v
  refine ⟨?_, _, fmt1_token_valid v, rfl, fmt1_eq_toBytes v, ?_⟩
  · rw [fmt1_eq_toBytes, parse_int_table_token _ (fmt1_token_valid v),
      tokenResult_eq_digitsRead _ (by rw [hd]; exact hv), hd]
  · exact Eq.trans rfl hd

theorem fmt1_parse_round_trip_witness :
    fmt1 (-32768) = bytes "-3276.8" ∧ fmt1 (-5) = bytes "-0.5" ∧ fmt1 123 = bytes "12.3" ∧
    parse_int_table (fmt1 (-32768) ++ 10 :: bytes "x;1.0\n") = .ok (-32768, bytes "x;1.0\n") :=
  ⟨by decide, by decide, by decide,
    (fmt1_parse_round_trip (-32768) (by decide) (bytes "x;1.0\n")).1⟩

/-! ## Lemmas on the mean -/

theorem sum_between (a b : Int) (vs : List Int) (h : ∀ x ∈ vs, a ≤ x ∧ x ≤ b) :
    a * (vs.length : Int) ≤ vs.sum ∧ vs.sum ≤ b * (vs.length : Int) := by
  induction vs with
  | nil => simp
  | cons x xs ih =>
    have hx := h x (by simp)
    have := ih (fun y hy => h y (by simp [hy]))
    simp only [List.length_cons, List.sum_cons]
    push_cast
    constructor <;> nlinarith

/-- The record `record` keeps for a key is the statistics of its values. -/
theorem isStatsOf_foldl_update (v : Int) (vs : List Int) :
    (∀ x ∈ v :: vs, isInt16 x) → (v :: vs).length < 2 ^ 47 →
      IsStatsOf (vs.foldl Record.update ⟨1, v, v, v⟩) (v :: vs) := by
  induction vs using List.reverseRecOn with
  | nil => intro _ _; exact isStatsOf_single v
  | append_singleton init x ih =>
    intro hv hlen
    have hinit : ∀ y ∈ v :: init, isInt16 y := by
      intro y hy
      apply hv
      rcases List.mem_cons.mp hy with h | h
      · simp [h]
      · simp [h]
    have hlen1 : (v :: init).length < 2 ^ 47 := by
      simp only [List.length_cons, List.length_append, List.length_nil] at hlen ⊢
      omega
    rw [List.foldl_append, ← List.cons_append]
    exact isStatsOf_update (ih hinit hlen1) hinit (hv x (by simp)) hlen1

/-- The rounded mean of a record whose sum lies between count × min and
count × max lies between min and max. -/
theorem scaledMean_bounds (value : Record) (hcnt : 1 ≤ value.cnt)
    (hlo : value.cnt * value.min ≤ value.sum) (hhi : value.sum ≤ value.cnt * value.max)
    (hpos : isInt64 (value.sum + value.cnt / 2)) (hneg : isInt64 (value.sum - value.cnt / 2)) :
    value.min ≤ scaledMean value ∧ scaledMean value ≤ value.max := by
  obtain ⟨cnt, sum, mn, mx⟩ := value
  simp only at hcnt hlo hhi hpos hneg ⊢
  have htd : cnt.tdiv 2 = cnt / 2 := Int.tdiv_eq_ediv (by omega) (by decide)
  have hc0 : cnt ≠ 0 := by omega
  have hh1 : 0 ≤ cnt / 2 := by omega
  have hh2 : cnt / 2 < cnt := by omega
  unfold scaledMean
  simp only [htd]
  by_cases hs : sum > 0
  · have hw : wrap64 (sum + cnt / 2) = sum + cnt / 2 := by
      unfold isInt64 at hpos; unfold wrap64; omega
    rw [if_pos hs, hw, Int.tdiv_eq_ediv (by omega) (by omega)]
    have h1 : (sum + cnt / 2) / cnt * cnt ≤ sum + cnt / 2 := Int.ediv_mul_le _ hc0
    have h2 : sum + cnt / 2 < ((sum + cnt / 2) / cnt + 1) * cnt :=
      Int.lt_ediv_add_one_mul_self _ (by omega)
    generalize (sum + cnt / 2) / cnt = q at h1 h2
    generalize cnt / 2 = h at h1 h2 hh1 hh2
    constructor
    · by_contra hcon
      have : q + 1 ≤ mn := by omega
      nlinarith
    · by_contra hcon
      have : mx + 1 ≤ q := by omega
      nlinarith
  · have hs0 : sum ≤ 0 := not_lt.mp hs
    have hw : wrap64 (sum - cnt / 2) = -(-sum + cnt / 2) := by
      unfold isInt64 at hneg; unfold wrap64; omega
    rw [if_neg hs, hw, Int.neg_tdiv, Int.tdiv_eq_ediv (by omega) (by omega)]
    have h1 : (-sum + cnt / 2) / cnt * cnt ≤ -sum + cnt / 2 := Int.ediv_mul_le _ hc0
    have h2 : -sum + cnt / 2 < ((-sum + cnt / 2) / cnt + 1) * cnt :=
      Int.lt_ediv_add_one_mul_self _ (by omega)
    generalize (-sum + cnt / 2) / cnt = q at h1 h2
    generalize cnt / 2 = h at h1 h2 hh1 hh2
    constructor
    · by_contra hcon
      have : 1 - mn ≤ q := by omega
      nlinarith
    · by_contra hcon
      have : q + 1 ≤ -mx := by omega
      nlinarith

/-! ## The mean between min and max -/

/-- C31: for every key whose record was built by `record` from a first
value `v` and further values `vs` (`int16_t` values, fewer than 2^47 of
them), the rounded scaled mean that `format_output` prints lies between the
min and the max it prints: min ≤ mean ≤ max; the three numbers of the entry
are these, each printed by `fmt1`. -/
theorem scaledMean_between_min_max (v : Int) (vs : List Int)
    (hv : ∀ x ∈ v :: vs, isInt16 x) (hlen : (v :: vs).length < 2 ^ 47) (name : List Nat) :
    (vs.foldl Record.update ⟨1, v, v, v⟩).min ≤ scaledMean (vs.foldl Record.update ⟨1, v, v, v⟩) ∧
    scaledMean (vs.foldl Record.update ⟨1, v, v, v⟩) ≤ (vs.foldl Record.update ⟨1, v, v, v⟩).max ∧
    entryBytes name (vs.foldl Record.update ⟨1, v, v, v⟩)
      = name ++ bytes "=" ++ fmt1 (vs.foldl Record.update ⟨1, v, v, v⟩).min ++ bytes "/" ++
        fmt1 (scaledMean (vs.foldl Record.update ⟨1, v, v, v⟩)) ++ bytes "/" ++
        fmt1 (vs.foldl Record.update ⟨1, v, v, v⟩).max := by
  have hst := isStatsOf_foldl_update v vs hv hlen
  generalize vs.foldl Record.update ⟨1, v, v, v⟩ = r at hst ⊢
  obtain ⟨hcnt, hsum, ⟨_, hmin⟩, ⟨_, hmax⟩⟩ := hst
  have hb := sum_between r.min r.max (v :: vs) (fun x hx => ⟨hmin x hx, hmax x hx⟩)
  have hb16 := sum_bounds (v :: vs) hv
  have hn : (1 : Int) ≤ ((v :: vs).length : Int) := by
    simp only [List.length_cons]; push_cast; omega
  have hn2 : (((v :: vs).length : Nat) : Int) < 2 ^ 47 := by exact_mod_cast hlen
  rw [← hsum, ← hcnt] at hb hb16
  rw [← hcnt] at hn hn2
  have h := scaledMean_bounds r hn (by rw [mul_comm]; exact hb.1) (by rw [mul_comm]; exact hb.2)
    (by unfold isInt64; omega) (by unfold isInt64; omega)
  exact ⟨h.1, h.2, rfl⟩

theorem scaledMean_between_min_max_witness :
    (Record.mk 3 70 10 40).min ≤ scaledMean ⟨3, 70, 10, 40⟩ ∧
    scaledMean ⟨3, 70, 10, 40⟩ = 23 ∧ scaledMean ⟨3, 70, 10, 40⟩ ≤ (Record.mk 3 70 10 40).max ∧
    [20, 40].foldl Record.update ⟨1, 10, 10, 10⟩ = ⟨3, 70, 10, 40⟩ :=
  ⟨(scaledMean_between_min_max 10 [20, 40] (by decide) (by decide) []).1, by decide,
    (scaledMean_between_min_max 10 [20, 40] (by decide) (by decide) []).2.1, by decide⟩

/-! ## Lemmas on the spans of concurrent calls -/

theorem spans_holding_nil (p : Nat) : spans_holding [] p = 0 := rfl

theorem spans_holding_none (spans : List Span) (p : Nat) :
    spans_holding (none :: spans) p = spans_holding spans p := by
  simp [spans_holding, List.filter_cons]

theorem spans_holding_some (first last : Nat) (spans : List Span) (p : Nat) :
    spans_holding (some (first, last) :: spans) p
      = (if first ≤ p ∧ p < last then 1 else 0) + spans_holding spans p := by
  by_cases h : first ≤ p ∧ p < last
  · simp [spans_holding, List.filter_cons, h]
    omega
  · simp only [spans_holding, List.filter_cons, h, decide_False, if_false, Nat.zero_add]
    simp

/-- What one call returns: the empty span at the buffer end, the rest of the
buffer when less than the target is left, and otherwise a span that starts
at the cursor, ends after it and at most one position after the buffer
end. -/
theorem next_chunk_cases (target : Nat) (data : List Nat) (c : Nat) :
    (c = data.length ∧ next_chunk target data c = (none, data.length)) ∨
    (c ≠ data.length ∧ next_chunk target data c = (some (c, data.length), data.length)) ∨
    (∃ e, c < data.length ∧ c < e ∧ e ≤ data.length + 1 ∧
      next_chunk target data c = (some (c, e), e)) := by
  by_cases h1 : c = data.length
  · left
    exact ⟨h1, by rw [h1]; exact next_chunk_exhausted target data⟩
  · by_cases h2 : c + target > data.length
    · right; left
      refine ⟨h1, ?_⟩
      unfold next_chunk
      rw [if_neg h1, if_pos h2]
    · right; right
      have hb := scan_newline_bounds (data.drop (c + target)) (c + target)
      rw [List.length_drop] at hb
      refine ⟨scan_newline (data.drop (c + target)) (c + target) + 1, by omega, by omega,
        by omega, ?_⟩
      unfold next_chunk
      rw [if_neg h1, if_neg h2]

/-- At the buffer end every call returns the empty span. -/
theorem next_chunk_calls_at_end (target : Nat) (data : List Nat) (schedule : List Nat)
    (p : Nat) :
    spans_holding ((next_chunk_calls target data schedule data.length).map Prod.snd) p = 0 := by
  induction schedule with
  | nil => rfl
  | cons t ts ih =>
    simp only [next_chunk_calls, next_chunk_exhausted, List.map_cons, spans_holding_none]
    exact ih

/-- The spans of any sequence of calls from a cursor: no position is in two
of them, none is in front of the cursor, and once a call has returned the
empty span every position from the cursor to the buffer end is in one. -/
theorem next_chunk_calls_holding (target : Nat) (data : List Nat) (schedule : List Nat) :
    ∀ c : Nat,
      (∀ p, spans_holding ((next_chunk_calls target data schedule c).map Prod.snd) p ≤ 1) ∧
      (∀ p, p < c →
        spans_holding ((next_chunk_calls target data schedule c).map Prod.snd) p = 0) ∧
      (none ∈ (next_chunk_calls target data schedule c).map Prod.snd →
        ∀ p, c ≤ p → p < data.length →
          spans_holding ((next_chunk_calls target data schedule c).map Prod.snd) p = 1) := by
  induction schedule with
  | nil =>
    intro c
    refine ⟨fun p => by simp [next_chunk_calls, spans_holding_nil], fun p _ => rfl, ?_⟩
    intro h
    simp [next_chunk_calls] at h
  | cons t ts ih =>
    intro c
    rcases next_chunk_cases target data c with ⟨hc, hn⟩ | ⟨hc, hn⟩ | ⟨e, hc, hce, hel, hn⟩
    · simp only [next_chunk_calls, hn, List.map_cons, spans_holding_none]
      have hz := next_chunk_calls_at_end target data ts
      refine ⟨fun p => by rw [hz]; omega, fun p _ => hz p, ?_⟩
      intro _ p hp1 hp2
      omega
    · simp only [next_chunk_calls, hn, List.map_cons, spans_holding_some]
      have hz := next_chunk_calls_at_end target data ts
      refine ⟨?_, ?_, ?_⟩
      · intro p
        rw [hz]
        split <;> omega
      · intro p hp
        rw [hz, if_neg (by omega)]
      · intro _ p hp1 hp2
        rw [hz, if_pos ⟨hp1, hp2⟩]
    · simp only [next_chunk_calls, hn, List.map_cons, spans_holding_some]
      obtain ⟨ih1, ih2, ih3⟩ := ih e
      refine ⟨?_, ?_, ?_⟩
      · intro p
        by_cases hp : c ≤ p ∧ p < e
        · rw [if_pos hp, ih2 p hp.2]
        · rw [if_neg hp]
          have := ih1 p
          omega
      · intro p hp
        rw [if_neg (by omega), ih2 p (by omega)]
      · intro hnone p hp1 hp2
        have hnone1 : none ∈ (next_chunk_calls target data ts e).map Prod.snd := by
          rcases List.mem_cons.mp hnone with h | h
          · cases h
          · exact h
        by_cases hp : p < e
        · rw [if_pos ⟨hp1, hp⟩, ih2 p hp]
        · rw [if_neg (by omega), ih3 hnone1 p (by omega) hp2]

theorem next_chunk_calls_threads (target : Nat) (data : List Nat) (schedule : List Nat) :
    ∀ c : Nat, (next_chunk_calls target data schedule c).map Prod.fst = schedule := by
  induction schedule with
  | nil => intro c; rfl
  | cons t ts ih => intro c; simp only [next_chunk_calls, List.map_cons, ih]

/-- Enough calls exhaust the buffer: one of them returns the empty span. -/
theorem next_chunk_calls_exhaust (target : Nat) (data : List Nat) (schedule : List Nat) :
    ∀ c : Nat, c ≤ data.length + 1 → data.length + 3 - c ≤ schedule.length →
      none ∈ (next_chunk_calls target data schedule c).map Prod.snd := by
  induction schedule with
  | nil => intro c hc hl; simp at hl; omega
  | cons t ts ih =>
    intro c hc hl
    simp only [List.length_cons] at hl
    rcases next_chunk_cases target data c with ⟨_, hn⟩ | ⟨_, hn⟩ | ⟨e, _, hce, hel, hn⟩
    · simp [next_chunk_calls, hn]
    · cases ts with
      | nil => simp at hl; omega
      | cons t2 ts2 =>
        simp [next_chunk_calls, hn, next_chunk_exhausted]
    · simp only [next_chunk_calls, hn, List.map_cons, List.mem_cons]
      right
      exact ih e hel (by omega)

/-! ## Concurrent calls of the chunk allocator -/

/-- C26: `next_chunk` runs under the lock, so the calls of several threads
take effect one after the other, in the order `schedule` of the threads.
For every buffer, every target size and every such order: the spans the
calls return do not depend on which thread makes which call; no byte
position is in two of the returned spans (no two calls return overlapping
ranges, no byte is handed out twice); once a call has returned the empty
span, every byte position of the buffer is in exactly one of the returned
spans (no byte is skipped); and a call returns the empty span at the
latest when the buffer length + 3 calls have been made. -/
theorem next_chunk_calls_partition (target : Nat) (data : List Nat) (schedule : List Nat) :
    (∀ schedule1 : List Nat, schedule1.length = schedule.length →
      (next_chunk_calls target data schedule1 0).map Prod.snd
        = (next_chunk_calls target data schedule 0).map Prod.snd) ∧
    (next_chunk_calls target data schedule 0).map Prod.fst = schedule ∧
    (∀ p, spans_holding ((next_chunk_calls target data schedule 0).map Prod.snd) p ≤ 1) ∧
    (none ∈ (next_chunk_calls target data schedule 0).map Prod.snd →
      ∀ p, p < data.length →
        spans_holding ((next_chunk_calls target data schedule 0).map Prod.snd) p = 1) ∧
    (data.length + 3 ≤ schedule.length →
      none ∈ (next_chunk_calls target data schedule 0).map Prod.snd) := by
  obtain ⟨h1, _, h3⟩ := next_chunk_calls_holding target data schedule 0
  exact ⟨fun schedule1 hl => next_chunk_calls_spans target data schedule1 schedule 0 hl,
    next_chunk_calls_threads target data schedule 0, h1,
    fun hnone p hp => h3 hnone p (Nat.zero_le p) hp,
    fun hl => next_chunk_calls_exhaust target data schedule 0 (Nat.zero_le _) (by omega)⟩

theorem next_chunk_calls_partition_witness :
    (next_chunk_calls 6 (bytes "a;1.0\n") [0, 1, 0] 0).map Prod.snd
      = [some (0, 7), some (7, 6), none] ∧
    (∀ p, spans_holding [some (0, 7), some (7, 6), none] p ≤ 1) ∧
    (∀ p, p < 6 → spans_holding [some (0, 7), some (7, 6), none] p = 1) ∧
    (next_chunk_calls 5 (bytes "a;1.0\nb;2.0\n") [1, 0, 1] 0).map Prod.snd
      = [some (0, 6), some (6, 12), none] :=
  ⟨by decide, (next_chunk_calls_partition 6 (bytes "a;1.0\n") [0, 1, 0]).2.2.1,
    (next_chunk_calls_partition 6 (bytes "a;1.0\n") [0, 1, 0]).2.2.2.1 (by decide),
    by decide⟩

/-! ## Lemmas on scans with empty keys -/

theorem mem_allSlots (s : Nat) : s ∈ allSlots ↔ s < 65536 := by
  unfold allSlots
  exact List.mem_range

theorem allSlots_nodup : allSlots.Nodup := by
  unfold allSlots
  exact List.nodup_range _

/-- The invariant depends on the keys and on the records of the occupied
slots only. -/
theorem HashInv.transfer {hash : List Nat → Nat} {d d2 : DB} {ms : List Measurement}
    (inv : HashInv hash d ms) (hkeys : d2.keys_ = d.keys_)
    (hvals : ∀ s, d.keys_ s ≠ [] → d2.values_ s = d.values_ s) :
    HashInv hash d2.occupied ms where
  found := by
    intro s hs
    simp only [DB.occupied, hkeys] at hs ⊢
    exact inv.found s hs
  vals := by
    intro s hs
    simp only [DB.occupied, hkeys] at hs ⊢
    rw [hvals s hs]
    exact inv.vals s hs
  complete := by
    intro m hm hne
    simp only [DB.occupied, hkeys]
    exact inv.complete m hm hne
  filled := by
    intro s
    unfold DB.occupied
    rw [List.mem_filter, mem_allSlots, decide_eq_true_eq, hkeys]
    exact ⟨fun h => h.2, fun h => ⟨inv.slot_bound h, h⟩⟩
  nodup := by
    unfold DB.occupied
    exact List.Nodup.filter _ allSlots_nodup

theorem record_occupied {db db1 : DB} {m : Measurement}
    (h : db.occupied.record capacity07 m = .ok db1) :
    ∃ db2, db.record capacity07 m = .ok db2 ∧ db2.keys_ = db1.keys_ ∧
      db2.values_ = db1.values_ := by
  unfold DB.record at h ⊢
  have hl : lookup_slot capacity07 db.occupied m = lookup_slot capacity07 db m := rfl
  rw [hl] at h
  cases hlook : lookup_slot capacity07 db m with
  | error e => rw [hlook] at h; cases h
  | ok s =>
    rw [hlook] at h
    simp only at h ⊢
    by_cases hc : capacity07 ≤ s
    · rw [if_pos hc] at h; cases h
    · rw [if_neg hc] at h ⊢
      have hk : db.occupied.keys_ = db.keys_ := rfl
      rw [hk] at h
      by_cases h0 : db.keys_ s = []
      · rw [if_pos h0] at h ⊢
        injection h with h; subst h
        exact ⟨_, rfl, rfl, rfl⟩
      · rw [if_neg h0] at h ⊢
        injection h with h; subst h
        exact ⟨_, rfl, rfl, rfl⟩

theorem dedup_length_le_of_subset {xs ys : List (List Nat)} (h : ∀ a ∈ xs, a ∈ ys) :
    xs.dedup.length ≤ ys.dedup.length := by
  rw [← List.card_toFinset, ← List.card_toFinset]
  apply Finset.card_le_card
  intro a ha
  rw [List.mem_toFinset] at ha ⊢
  exact h a ha

theorem keyed_append_keyed (ms : List Measurement) (m : Measurement) (h : m.name ≠ []) :
    keyed (ms ++ [m]) = keyed ms ++ [m] := by
  simp [keyed, List.filter_append, List.filter_cons, h]

theorem keyed_append_empty (ms : List Measurement) (m : Measurement) (h : m.name = []) :
    keyed (ms ++ [m]) = keyed ms := by
  simp [keyed, List.filter_append, List.filter_cons, h]

theorem mem_keyed {ms : List Measurement} {m : Measurement} :
    m ∈ keyed ms ↔ m ∈ ms ∧ m.name ≠ [] := by
  simp [keyed, List.mem_filter]

/-- One `record` call of any key, the empty one included, keeps the
invariant of the occupied slots. -/
theorem occupied_step {hash : List Nat → Nat} {db : DB} {ms : List Measurement}
    {m : Measurement} (inv : HashInv hash db.occupied (keyed ms))
    (hh : m.hash = hash m.name) (hk : (namesOf (ms ++ [m])).dedup.length ≤ 65536) :
    ∃ db1, db.record capacity07 m = .ok db1 ∧
      HashInv hash db1.occupied (keyed (ms ++ [m])) := by
  by_cases hne : m.name ≠ []
  · have hk1 : (namesOf (keyed ms ++ [m])).dedup.length ≤ 65536 := by
      refine le_trans (dedup_length_le_of_subset ?_) hk
      intro a ha
      obtain ⟨x, hx, rfl⟩ := List.mem_map.mp ha
      refine List.mem_map.mpr ⟨x, ?_, rfl⟩
      rcases List.mem_append.mp hx with hx | hx
      · exact List.mem_append.mpr (Or.inl (mem_keyed.mp hx).1)
      · exact List.mem_append.mpr (Or.inr hx)
    obtain ⟨db1, s, hrec, _, _, _, inv1⟩ := hashInv_step inv hne hh hk1
    obtain ⟨db2, hrec2, hkeys, hvals⟩ := record_occupied hrec
    refine ⟨db2, hrec2, ?_⟩
    rw [keyed_append_keyed ms m hne]
    exact inv1.transfer hkeys (fun s _ => by rw [hvals])
  · have hnil : m.name = [] := not_not.mp hne
    have hlen : (namesOf (keyed ms)).dedup.length < 65536 := by
      have hnot : m.name ∉ namesOf (keyed ms) := by
        intro h
        obtain ⟨x, hx, hname⟩ := List.mem_map.mp h
        exact (mem_keyed.mp hx).2 (hname.trans hnil)
      have h1 := dedup_length_append_new hnot
      have h2 : (namesOf (keyed ms) ++ [m.name]).dedup.length
          ≤ (namesOf (ms ++ [m])).dedup.length := by
        apply dedup_length_le_of_subset
        intro a ha
        rcases List.mem_append.mp ha with ha | ha
        · obtain ⟨x, hx, rfl⟩ := List.mem_map.mp ha
          exact List.mem_map.mpr ⟨x, List.mem_append.mpr (Or.inl (mem_keyed.mp hx).1), rfl⟩
        · rw [List.mem_singleton.mp ha]
          exact List.mem_map.mpr ⟨m, by simp, rfl⟩
      omega
    obtain ⟨e, he, h0⟩ := inv.free_slot hlen
    have hstop : ∃ e, e < 65536 ∧ stopsAt db.keys_ m.name e := ⟨e, he, Or.inl h0⟩
    obtain ⟨s, hlook, hs_lt, hst⟩ := lookup_slot_of_stop db m hstop
    have hs0 : db.keys_ s = [] := by
      rcases hst with h | h
      · exact h
      · exact h.trans hnil
    refine ⟨_, record_miss hlook hs_lt hs0, ?_⟩
    rw [keyed_append_empty ms m hnil]
    apply inv.transfer
    · funext i
      by_cases hi : i = s
      · subst hi
        simp only [setAt, if_true]
        exact hnil.trans hs0.symm
      · simp only [setAt, if_neg hi]
        rfl
    · intro t ht
      have hts : t ≠ s := fun h => ht (h ▸ hs0)
      simp only [setAt, if_neg hts]
      rfl

theorem occupied_empty (hash : List Nat → Nat) : HashInv hash DB.empty.occupied (keyed []) :=
  (hashInv_empty hash).transfer rfl (fun _ _ => rfl)

/-- A sequence of `record` calls with hashes given by `hash` and at most
65536 distinct keys, the empty one included, returns a table. -/
theorem recordAll_occupied (hash : List Nat → Nat) (ms : List Measurement) :
    ∀ (done : List Measurement) (db : DB), HashInv hash db.occupied (keyed done) →
      (∀ m ∈ ms, m.hash = hash m.name) →
      (namesOf (done ++ ms)).dedup.length ≤ 65536 →
      ∃ db1, DB.recordAll capacity07 db ms = .ok db1 ∧
        HashInv hash db1.occupied (keyed (done ++ ms)) := by
  induction ms with
  | nil =>
    intro done db inv _ _
    exact ⟨db, rfl, by simpa using inv⟩
  | cons m ms ih =>
    intro done db inv hms hk
    have happ : done ++ m :: ms = (done ++ [m]) ++ ms := by simp
    have hk1 : (namesOf (done ++ [m])).dedup.length ≤ 65536 := by
      refine le_trans ?_ hk
      rw [happ]
      exact namesOf_dedup_prefix_le _ _
    obtain ⟨db1, hrec, inv1⟩ := occupied_step inv (hms m (by simp)) hk1
    obtain ⟨db2, hrun, inv2⟩ := ih (done ++ [m]) db1 inv1
      (fun x hx => hms x (by simp [hx])) (by rw [← happ]; exact hk)
    refine ⟨db2, ?_, by rw [happ]; exact inv2⟩
    rw [DB.recordAll, hrec]
    exact hrun

/-- The scan of a buffer of records with at most 65536 distinct keys, the
empty one included, returns the table of its `record` calls. -/
theorem process_input_returns (ls : List Line) (hwf : ∀ l ∈ ls, 59 ∉ l.key ∧ l.tok.Valid)
    (hk : (keysOf ls).dedup.length ≤ 65536) :
    ∃ db, process_input (encode ls) = .ok db ∧
      DB.recordAll capacity07 DB.empty (ls.map (Line.measurement keyHash)) = .ok db := by
  obtain ⟨db, hrec, _⟩ := recordAll_occupied keyHash (ls.map (Line.measurement keyHash)) []
    DB.empty (occupied_empty _)
    (by
      intro m hm
      obtain ⟨l, _, rfl⟩ := List.mem_map.mp hm
      rfl)
    (by rw [List.nil_append, namesOf_measurement]; exact hk)
  exact ⟨db, by rw [process_input_records ls hwf, hrec], hrec⟩

/-! ## The scan of a buffer of records, empty keys included -/

/-- C21, amended: for every buffer of records `key;value\n` (keys of any
bytes without `;`, the empty key included; value tokens of the grammar; the
last record terminated like the others) with at most 65536 distinct keys,
`process_input` terminates without a fault, so without a read at or beyond
the buffer end; its table is the one of the `record` calls with one record
for each line; and each call of `parse` starts at a line, returns the
record of that line and leaves the cursor at the start of the next line,
after the last line at the buffer end. -/
theorem process_input_safe (ls : List Line) (hwf : ∀ l ∈ ls, 59 ∉ l.key ∧ l.tok.Valid)
    (hk : (keysOf ls).dedup.length ≤ 65536) :
    ∃ db, process_input (encode ls) = .ok db ∧
      DB.recordAll capacity07 DB.empty (ls.map (Line.measurement keyHash)) = .ok db ∧
      (∀ (done : List Line) (l : Line) (rest : List Line), ls = done ++ l :: rest →
        parse (encode (l :: rest)) = .ok (l.measurement keyHash, encode rest)) ∧
      (∀ (done : List Line) (l : Line), ls = done ++ [l] →
        parse (encode [l]) = .ok (l.measurement keyHash, [])) := by
  obtain ⟨db, hrun, hrec⟩ := process_input_returns ls hwf hk
  refine ⟨db, hrun, hrec, ?_, ?_⟩
  · intro done l rest hls
    have hl := hwf l (by rw [hls]; simp)
    exact parse_measurement l hl.1 hl.2 (encode rest)
  · intro done l hls
    have hl := hwf l (by rw [hls]; simp)
    exact parse_measurement l hl.1 hl.2 []

theorem process_input_safe_witness :
    encode [⟨[], ⟨false, [49], some 48⟩⟩, ⟨[121], ⟨true, [50], some 53⟩⟩,
      ⟨[], ⟨false, [51], none⟩⟩] = bytes ";1.0\ny;-2.5\n;3\n" ∧
    ∃ db, process_input (encode [⟨[], ⟨false, [49], some 48⟩⟩, ⟨[121], ⟨true, [50], some 53⟩⟩,
        ⟨[], ⟨false, [51], none⟩⟩]) = .ok db ∧
      DB.recordAll capacity07 DB.empty
        ([⟨[], ⟨false, [49], some 48⟩⟩, ⟨[121], ⟨true, [50], some 53⟩⟩,
          ⟨[], ⟨false, [51], none⟩⟩].map (Line.measurement keyHash)) = .ok db ∧
      (∀ (done : List Line) (l : Line) (rest : List Line),
        [⟨[], ⟨false, [49], some 48⟩⟩, ⟨[121], ⟨true, [50], some 53⟩⟩,
          ⟨[], ⟨false, [51], none⟩⟩] = done ++ l :: rest →
        parse (encode (l :: rest)) = .ok (l.measurement keyHash, encode rest)) ∧
      (∀ (done : List Line) (l : Line),
        [⟨[], ⟨false, [49], some 48⟩⟩, ⟨[121], ⟨true, [50], some 53⟩⟩,
          ⟨[], ⟨false, [51], none⟩⟩] = done ++ [l] →
        parse (encode [l]) = .ok (l.measurement keyHash, [])) :=
  ⟨by decide, process_input_safe [⟨[], ⟨false, [49], some 48⟩⟩, ⟨[121], ⟨true, [50], some 53⟩⟩,
    ⟨[], ⟨false, [51], none⟩⟩] (by decide) (by decide)⟩

/-! ## Lemmas on tokens without a fractional digit -/

theorem digitsRead_eq_scaled (t : ValueToken) (h : t.frac.isSome) :
    t.digitsRead = t.scaled := by
  obtain ⟨f, hf⟩ := Option.isSome_iff_exists.mp h
  unfold ValueToken.digitsRead ValueToken.scaled
  rw [hf]

theorem scaled_eq_ten_digitsRead (t : ValueToken) (h : t.frac = none) :
    t.scaled = 10 * t.digitsRead := by
  unfold ValueToken.digitsRead ValueToken.scaled
  rw [h]
  simp only
  ring

theorem digitsRead_isInt16 (t : ValueToken) (h : isInt16 t.scaled) : isInt16 t.digitsRead := by
  cases hf : t.frac with
  | some f => rw [digitsRead_eq_scaled t (by rw [hf]; rfl)]; exact h
  | none =>
    rw [scaled_eq_ten_digitsRead t hf] at h
    unfold isInt16 at h ⊢
    omega

theorem tokenOf_valid (q : Int) : (tokenOf q).Valid := fmt1_token_valid q

theorem tokenOf_scaled (q : Int) : (tokenOf q).scaled = q :=
  (digitsRead_eq_scaled (tokenOf q) rfl).symm.trans (fmt1_token_digitsRead q)

theorem normalize_wellFormed (l : Line)
    (h : l.key ≠ [] ∧ 59 ∉ l.key ∧ 10 ∉ l.key ∧ l.tok.Valid ∧ isInt16 l.tok.scaled) :
    l.normalize.WellFormed := by
  refine ⟨h.1, h.2.1, h.2.2.1, tokenOf_valid _, rfl, ?_⟩
  show isInt16 (tokenOf l.tok.digitsRead).scaled
  rw [tokenOf_scaled]
  exact digitsRead_isInt16 _ h.2.2.2.2

theorem measurement_normalize (hash : List Nat → Nat) (l : Line)
    (h : l.tok.Valid ∧ isInt16 l.tok.scaled) :
    l.normalize.measurement hash = l.measurement hash := by
  have hr := digitsRead_isInt16 _ h.2
  have h0 : (tokenOf l.tok.digitsRead).digitsRead = l.tok.digitsRead :=
    fmt1_token_digitsRead _
  have h1 : tokenResult (tokenOf l.tok.digitsRead) = l.tok.digitsRead := by
    rw [tokenResult_eq_digitsRead _ (by rw [h0]; exact hr), h0]
  unfold Line.measurement Line.normalize
  simp only [h1, tokenResult_eq_digitsRead _ hr]

theorem keysOf_normalize (ls : List Line) : keysOf (ls.map Line.normalize) = keysOf ls := by
  simp [keysOf, Line.normalize, Function.comp_def]

theorem valuesOf_normalize (k : List Nat) (ls : List Line) :
    valuesOf k (ls.map Line.normalize) = readOf k ls := by
  induction ls with
  | nil => rfl
  | cons l ls ih =>
    unfold valuesOf readOf at ih ⊢
    have hs : (Line.normalize l).tok.scaled = l.tok.digitsRead := tokenOf_scaled _
    have hkey : (Line.normalize l).key = l.key := rfl
    by_cases hk : l.key = k
    · simp only [List.map_cons, List.filter_cons, hkey, hk, decide_True, if_true, hs,
        List.cons.injEq, true_and]
      exact ih
    · simp only [List.map_cons, List.filter_cons, hkey, hk, decide_False]
      exact ih

theorem sortedKeys_normalize (ls : List Line) :
    sortedKeys (ls.map Line.normalize) = sortedKeys ls := by
  unfold sortedKeys
  rw [keysOf_normalize]

theorem entryOf_normalize (ls : List Line) (k : List Nat) :
    entryOf (ls.map Line.normalize) k = entryOfRead ls k := by
  unfold entryOf entryOfRead
  rw [valuesOf_normalize]

/-- The scan depends on the numbers read from the tokens only. -/
theorem process_input_normalize (ls : List Line)
    (hwf : ∀ l ∈ ls, l.key ≠ [] ∧ 59 ∉ l.key ∧ 10 ∉ l.key ∧ l.tok.Valid ∧ isInt16 l.tok.scaled) :
    process_input (encode ls) = process_input (encode (ls.map Line.normalize)) := by
  rw [process_input_records ls (fun l hl => ⟨(hwf l hl).2.1, (hwf l hl).2.2.2.1⟩),
    process_input_records (ls.map Line.normalize) (by
      intro l hl
      obtain ⟨l0, hl0, rfl⟩ := List.mem_map.mp hl
      exact ⟨(hwf l0 hl0).2.1, tokenOf_valid _⟩),
    List.map_map]
  congr 1
  apply List.map_congr_left
  intro l hl
  exact (measurement_normalize keyHash l ⟨(hwf l hl).2.2.2.1, (hwf l hl).2.2.2.2⟩).symm

/-- The table of a scan and its invariant, in terms of the lines with the
numbers read as their values. -/
theorem process_input_tableInv (ls : List Line)
    (hwf : ∀ l ∈ ls, l.key ≠ [] ∧ 59 ∉ l.key ∧ 10 ∉ l.key ∧ l.tok.Valid ∧ isInt16 l.tok.scaled)
    (hk : (keysOf ls).dedup.length < 65536) (hlen : (encode ls).length < 2 ^ 47) :
    ∃ db, process_input (encode ls) = .ok db ∧ TableInv db (ls.map Line.normalize) ∧
      ∀ l ∈ ls.map Line.normalize, l.WellFormed := by
  have hwf1 : ∀ l ∈ ls.map Line.normalize, l.WellFormed := by
    intro l hl
    obtain ⟨l0, hl0, rfl⟩ := List.mem_map.mp hl
    exact normalize_wellFormed l0 (hwf l0 hl0)
  have hlen1 : ([] ++ ls.map Line.normalize).length < 2 ^ 47 := by
    have := length_le_encode_length ls
    simp only [List.nil_append, List.length_map]
    omega
  obtain ⟨db, hrun, inv⟩ := process_input_loop_inv (ls.map Line.normalize) [] DB.empty
    (encode (ls.map Line.normalize)).length tableInv_empty (by simpa using hwf1)
    (by rw [List.nil_append, keysOf_normalize]; exact hk) hlen1 (le_refl _)
  rw [List.nil_append] at inv
  refine ⟨db, ?_, inv, hwf1⟩
  rw [process_input_normalize ls hwf]
  exact hrun

/-! ## The scan and the summary of tokens with and without a fractional digit -/

/-- C1 fails on the code: the buffer `x;12\n` is one record with a
non-empty key and the scaled value 120, but the table `process_input`
builds holds sum = min = max = 12 for `x`: `parse_int_table` multiplies by
ten only at a digit and relies on a fractional digit for the scaling
(C4). -/
theorem process_input_no_fraction_counterexample :
    encode [⟨bytes "x", ⟨false, [49, 50], none⟩⟩] = bytes "x;12\n" ∧
    (ValueToken.mk false [49, 50] none).Valid ∧
    (ValueToken.mk false [49, 50] none).scaled = 120 ∧
    scanStats (bytes "x;12\n") (bytes "x") = .ok ⟨1, 12, 12, 12⟩ := by
  refine ⟨by decide, by decide, by decide, by decide⟩

/-- C1, amended: for every well-formed buffer of `key;value\n` records
(non-empty keys, value tokens of the grammar `-?\d+(\.\d)?`, every scaled
value within the `int16_t` range, fewer than 65536 distinct keys; the buffer
shorter than 2^47 bytes, so that the 64-bit count and sum cannot overflow),
`process_input` returns a table in which each key k of the buffer occupies
exactly one slot, whose stats are cnt = the number of records with key k,
and sum, min and max = the total, the smallest and the largest of the
numbers `parse_int_table` reads from their tokens; no slot holds a key that
does not occur in the buffer.  The number read is the scaled value for a
token with a fractional digit and one tenth of it for a token without. -/
theorem process_input_stats_read (ls : List Line)
    (hwf : ∀ l ∈ ls, l.key ≠ [] ∧ 59 ∉ l.key ∧ 10 ∉ l.key ∧ l.tok.Valid ∧ isInt16 l.tok.scaled)
    (hk : (keysOf ls).dedup.length < 65536) (hlen : (encode ls).length < 2 ^ 47) :
    ∃ db, process_input (encode ls) = .ok db ∧
      (∀ k ∈ keysOf ls, ∃ s, s < 65536 ∧ db.keys_ s = k ∧ (∀ t, db.keys_ t = k → t = s) ∧
        (db.values_ s).cnt = (readOf k ls).length ∧
        (db.values_ s).sum = (readOf k ls).sum ∧
        ((db.values_ s).min ∈ readOf k ls ∧ ∀ x ∈ readOf k ls, (db.values_ s).min ≤ x) ∧
        ((db.values_ s).max ∈ readOf k ls ∧ ∀ x ∈ readOf k ls, x ≤ (db.values_ s).max)) ∧
      (∀ s, db.keys_ s ≠ [] → db.keys_ s ∈ keysOf ls) ∧
      (∀ l ∈ ls, l.tok.frac.isSome → l.tok.digitsRead = l.tok.scaled) ∧
      (∀ l ∈ ls, l.tok.frac = none → l.tok.scaled = 10 * l.tok.digitsRead) := by
  obtain ⟨db, hrun, inv, _⟩ := process_input_tableInv ls hwf hk hlen
  refine ⟨db, hrun, ?_, ?_, fun l _ h => digitsRead_eq_scaled l.tok h,
    fun l _ h => scaled_eq_ten_digitsRead l.tok h⟩
  · intro k hkm
    simp only [keysOf, List.mem_map] at hkm
    obtain ⟨l, hl, rfl⟩ := hkm
    obtain ⟨s, hs⟩ := inv.complete l.normalize (List.mem_map.mpr ⟨l, hl, rfl⟩)
    have hs1 : db.keys_ s = l.key := hs
    have hne : db.keys_ s ≠ [] := by rw [hs1]; exact (hwf l hl).1
    have hst := inv.stats s hne
    rw [hs1, valuesOf_normalize] at hst
    refine ⟨s, inv.slot_lt hne, hs1, ?_, hst⟩
    intro t ht
    exact inv.inj (by rw [ht]; exact (hwf l hl).1) (ht.trans hs1.symm)
  · intro s hs
    have := inv.key_mem hs
    rw [keysOf_normalize] at this
    exact this

theorem process_input_stats_read_witness :
    encode [⟨[120], ⟨false, [49, 50], none⟩⟩, ⟨[121], ⟨false, [50], some 53⟩⟩,
      ⟨[120], ⟨false, [51], some 48⟩⟩] = bytes "x;12\ny;2.5\nx;3.0\n" ∧
    readOf [120] [⟨[120], ⟨false, [49, 50], none⟩⟩, ⟨[121], ⟨false, [50], some 53⟩⟩,
      ⟨[120], ⟨false, [51], some 48⟩⟩] = [12, 30] ∧
    ∃ db, process_input (encode [⟨[120], ⟨false, [49, 50], none⟩⟩,
        ⟨[121], ⟨false, [50], some 53⟩⟩, ⟨[120], ⟨false, [51], some 48⟩⟩]) = .ok db ∧
      ∃ s, s < 65536 ∧ db.keys_ s = [120] ∧ (∀ t, db.keys_ t = [120] → t = s) ∧
        (db.values_ s).cnt = 2 ∧ (db.values_ s).sum = 42 :=
  ⟨by decide, by decide,
    (process_input_stats_read [⟨[120], ⟨false, [49, 50], none⟩⟩,
      ⟨[121], ⟨false, [50], some 53⟩⟩, ⟨[120], ⟨false, [51], some 48⟩⟩]
      (by decide) (by decide) (by decide)).imp (fun _ h =>
        ⟨h.1, (h.2.1 [120] (by decide)).imp (fun _ hs =>
          ⟨hs.1, hs.2.1, hs.2.2.1, hs.2.2.2.1, hs.2.2.2.2.1⟩)⟩)⟩

/-- C2 fails on the code: for the input `x;12\n` the program writes
`x=1.2/1.2/1.2`, while the min, mean and max of the key are 12.0. -/
theorem summarize_no_fraction_counterexample :
    encode [⟨bytes "x", ⟨false, [49, 50], none⟩⟩] = bytes "x;12\n" ∧
    summarize (bytes "x;12\n") = .ok (bytes "\x7bx=1.2/1.2/1.2\x7d\n") ∧
    entryOf [⟨bytes "x", ⟨false, [49, 50], none⟩⟩] (bytes "x") = bytes "x=12.0/12.0/12.0" := by
  refine ⟨by decide, by decide, by decide⟩

/-- C2, amended: for every well-formed buffer (value tokens of the grammar
`-?\d+(\.\d)?`) the formatted output is `{`, then one entry
`key=min/mean/max` per distinct key (in ascending byte-wise order) joined by
`, `, then `}` and a newline, where min, mean and max are those of the
numbers `parse_int_table` reads from the tokens of the key (the scaled
value for a token with a fractional digit, one tenth of it for a token
without); every number is printed with exactly one fractional digit; the
formatter of 09_dynamic_chunks.cpp writes a merged map in the same shape;
and the input `x;1.0\ny;2.5\nx;3.0\n` produces exactly
`{x=1.0/2.0/3.0, y=2.5/2.5/2.5}\n`. -/
theorem summarize_output_read (ls : List Line)
    (hwf : ∀ l ∈ ls, l.key ≠ [] ∧ 59 ∉ l.key ∧ 10 ∉ l.key ∧ l.tok.Valid ∧ isInt16 l.tok.scaled)
    (hk : (keysOf ls).dedup.length < 65536) (hlen : (encode ls).length < 2 ^ 47) :
    summarize (encode ls) = .ok (bytes "\x7b" ++
        List.intercalate (bytes ", ") ((sortedKeys ls).map (entryOfRead ls)) ++
        bytes "\x7d\n") ∧
      ((sortedKeys ls).Nodup ∧ (∀ k, k ∈ sortedKeys ls ↔ k ∈ keysOf ls) ∧
        List.Sorted (fun a b : List Nat => a < b) (sortedKeys ls)) ∧
      (∀ q : Int, ∃ ds d, fmt1 q = ds ++ [46, d] ∧ isDigit d ∧ 46 ∉ ds) ∧
      (∀ merged : MergedMap, (∀ e ∈ merged, e.2.cnt ≠ 0) →
        format_output09 merged = .ok (bytes "\x7b" ++
          List.intercalate (bytes ", ")
            (merged.names.map (fun k => entryBytes k (merged.valueAt k))) ++ bytes "\x7d\n")) ∧
      (∀ l ∈ ls, l.tok.frac.isSome → l.tok.digitsRead = l.tok.scaled) ∧
      (∀ l ∈ ls, l.tok.frac = none → l.tok.scaled = 10 * l.tok.digitsRead) ∧
      summarize (bytes "x;1.0\ny;2.5\nx;3.0\n")
        = .ok (bytes "\x7bx=1.0/2.0/3.0, y=2.5/2.5/2.5\x7d\n") := by
  obtain ⟨db, hrun, inv, hwf1⟩ := process_input_tableInv ls hwf hk hlen
  have hperm : (sortedKeys ls).Perm (keysOf ls).dedup := List.perm_insertionSort _ _
  have hnd : (sortedKeys ls).Nodup := hperm.nodup_iff.mpr (List.nodup_dedup _)
  have hsorted : List.Sorted (fun a b : List Nat => a ≤ b) (sortedKeys ls) :=
    List.sorted_insertionSort _ _
  refine ⟨?_, ⟨hnd, ?_, ?_⟩, fmt1_shape, format_output09_eq,
    fun l _ h => digitsRead_eq_scaled l.tok h,
    fun l _ h => scaled_eq_ten_digitsRead l.tok h, by decide⟩
  · unfold summarize
    rw [hrun]
    simp only
    have hmap : (sortedKeys ls).map (entryOf (ls.map Line.normalize))
        = (sortedKeys ls).map (entryOfRead ls) :=
      List.map_congr_left (fun k _ => entryOf_normalize ls k)
    rw [format_output_of_inv inv hwf1, sortedKeys_normalize, hmap]
  · intro k
    rw [hperm.mem_iff, List.mem_dedup]
  · unfold List.Sorted at hsorted ⊢
    have hne : List.Pairwise (fun a b : List Nat => a ≠ b) (sortedKeys ls) := hnd
    exact (hsorted.and hne).imp (fun h => lt_of_le_of_ne h.1 h.2)

theorem summarize_output_read_witness :
    summarize (bytes "y;-0.3\nx;12\nx;-2.0\nA;1.0\nA;2.0\nA;4.0\n")
      = .ok (bytes "\x7bA=1.0/2.3/4.0, x=-2.0/-0.4/1.2, y=-0.3/-0.3/-0.3\x7d\n") :=
  (summarize_output_read
    [⟨[121], ⟨true, [48], some 51⟩⟩, ⟨[120], ⟨false, [49, 50], none⟩⟩,
      ⟨[120], ⟨true, [50], some 48⟩⟩, ⟨[65], ⟨false, [49], some 48⟩⟩,
      ⟨[65], ⟨false, [50], some 48⟩⟩, ⟨[65], ⟨false, [52], some 48⟩⟩]
    (by decide) (by decide) (by decide)).1

end OneBRC
